import Mathlib

/-!
A shallow embedding of the CLRS-style red-black tree from the Go package
rbtree (string keys, arbitrary values, pointer-linked nodes with parent
pointers, iterative fixup loops).

Pointers are modelled as natural numbers addressing a heap; a nil pointer
is Option.none.  Every Go statement that dereferences a pointer becomes a
monadic read in the Except monad, so a nil dereference (a Go panic) is an
explicit error value.  Loops take explicit fuel; the public operations use
fuel derived from the heap allocation counter, which bounds the number of
nodes ever allocated.
-/

namespace RB

/-- Go compares strings lexicographically; Lean's String order is the
lexicographic order on the character lists.  Deciding it through the
lists keeps every embedded comparison evaluable inside the kernel. -/
instance (priority := 2000) strDecLT (a b : String) : Decidable (a < b) :=
  decidable_of_iff (a.data < b.data) String.lt_iff_toList_lt.symm

/-- Runtime faults of the model: a nil-pointer dereference (a Go panic)
or running out of loop fuel (a modelling artifact). -/
inductive Err where
  | nilDeref : Err
  | outOfFuel : Err
deriving Repr, DecidableEq

/-- Pointers are heap addresses. -/
abbrev Ptr := Nat

/-- Source: type Color bool. -/
abbrev Color := Bool

/-- Source: red Color = true. -/
def red : Color := true

/-- Source: black Color = false. -/
def black : Color := false

/-- Source struct Node: key, value, color and parent/left/right links. -/
structure Node (V : Type) where
  Key : String
  Value : V
  Color : Color
  Parent : Option Ptr
  Left : Option Ptr
  Right : Option Ptr

/-- The heap: a partial map from addresses to nodes plus an allocation
counter (`mem p = none` for never-allocated p). -/
structure Heap (V : Type) where
  mem : Ptr → Option (Node V)
  next : Ptr

/-- Source struct Tree: root pointer and element count. -/
structure Tree (V : Type) where
  heap : Heap V
  root : Option Ptr
  size : Int

/-- Source: New() returns an empty tree. -/
def New (V : Type) : Tree V :=
  ⟨⟨fun _ => none, 0⟩, none, 0⟩

/-- Source: Size() returns the stored element count. -/
def Tree.Size (t : Tree V) : Int := t.size

/-- Source: Root() returns the root pointer. -/
def Tree.Root (t : Tree V) : Option Ptr := t.root

/-- Read the node at an address; a dangling address is a fault. -/
def getN (h : Heap V) (p : Ptr) : Except Err (Node V) :=
  match h.mem p with
  | some n => .ok n
  | none => .error .nilDeref

/-- Dereference an optional pointer (Go: using a *Node that may be nil). -/
def deref : Option Ptr → Except Err Ptr
  | some p => .ok p
  | none => .error .nilDeref

/-- Store a node at an address. -/
def Heap.write (h : Heap V) (p : Ptr) (n : Node V) : Heap V :=
  ⟨fun q => if q = p then some n else h.mem q, h.next⟩

/-- Go field assignment node.Left = x. -/
def setL (h : Heap V) (p : Ptr) (x : Option Ptr) : Except Err (Heap V) := do
  let n ← getN h p
  .ok (h.write p ⟨n.Key, n.Value, n.Color, n.Parent, x, n.Right⟩)

/-- Go field assignment node.Right = x. -/
def setR (h : Heap V) (p : Ptr) (x : Option Ptr) : Except Err (Heap V) := do
  let n ← getN h p
  .ok (h.write p ⟨n.Key, n.Value, n.Color, n.Parent, n.Left, x⟩)

/-- Go field assignment node.Parent = x. -/
def setP (h : Heap V) (p : Ptr) (x : Option Ptr) : Except Err (Heap V) := do
  let n ← getN h p
  .ok (h.write p ⟨n.Key, n.Value, n.Color, x, n.Left, n.Right⟩)

/-- Go field assignment node.Color = c. -/
def setC (h : Heap V) (p : Ptr) (c : Color) : Except Err (Heap V) := do
  let n ← getN h p
  .ok (h.write p ⟨n.Key, n.Value, c, n.Parent, n.Left, n.Right⟩)

/-- Go field assignment node.Value = v. -/
def setV (h : Heap V) (p : Ptr) (v : V) : Except Err (Heap V) := do
  let n ← getN h p
  .ok (h.write p ⟨n.Key, v, n.Color, n.Parent, n.Left, n.Right⟩)

/-- Source helper colorOf: a nil node reads as black. -/
def colorOf (h : Heap V) : Option Ptr → Except Err Color
  | none => .ok black
  | some p => do .ok (← getN h p).Color

/-- Source helper leftOf: nil-safe left child. -/
def leftOf (h : Heap V) : Option Ptr → Except Err (Option Ptr)
  | none => .ok none
  | some p => do .ok (← getN h p).Left

/-- Source helper rightOf: nil-safe right child. -/
def rightOf (h : Heap V) : Option Ptr → Except Err (Option Ptr)
  | none => .ok none
  | some p => do .ok (← getN h p).Right

/-- Source helper minimum: follow Left links to the least node. -/
def minimumLoop (h : Heap V) (p : Ptr) : Nat → Except Err Ptr
  | 0 => .error .outOfFuel
  | fuel + 1 => do
    match (← getN h p).Left with
    | none => .ok p
    | some l => minimumLoop h l fuel

/-- The search loop of Tree.Search (standard BST descent). -/
def searchLoop (h : Heap V) (key : String) : Option Ptr → Nat → Except Err (Option Ptr)
  | none, _ => .ok none
  | some _, 0 => .error .outOfFuel
  | some p, fuel + 1 => do
    let n ← getN h p
    if key < n.Key then searchLoop h key n.Left fuel
    else if n.Key < key then searchLoop h key n.Right fuel
    else .ok (some p)

/-- Default fuel for the fueled loops: the allocation counter bounds the
number of nodes, hence the length of any simple descending or ascending
path in a well-formed heap. -/
def Tree.fuel (t : Tree V) : Nat := t.heap.next + 2

/-- Source: Search(key) descends from the root without mutation. -/
def Tree.Search (t : Tree V) (key : String) : Except Err (Option Ptr) :=
  searchLoop t.heap key t.root t.fuel

/-- Source rotateLeft, statement by statement; every field access is a
fresh heap read, matching Go evaluation order. -/
def Tree.rotateLeft (t : Tree V) (node : Ptr) : Except Err (Tree V) := do
  let mut h := t.heap
  let mut root := t.root
  let right ← deref (← getN h node).Right
  h := (← setR h node (← getN h right).Left)
  match (← getN h right).Left with
  | some rl => h := (← setP h rl (some node))
  | none => pure ()
  h := (← setP h right (← getN h node).Parent)
  match (← getN h node).Parent with
  | none => root := some right
  | some pa =>
    if (← getN h pa).Left = some node then h := (← setL h pa (some right))
    else h := (← setR h pa (some right))
  h := (← setL h right (some node))
  h := (← setP h node (some right))
  .ok ⟨h, root, t.size⟩

/-- Source rotateRight (mirror of rotateLeft). -/
def Tree.rotateRight (t : Tree V) (node : Ptr) : Except Err (Tree V) := do
  let mut h := t.heap
  let mut root := t.root
  let left ← deref (← getN h node).Left
  h := (← setL h node (← getN h left).Right)
  match (← getN h left).Right with
  | some lr => h := (← setP h lr (some node))
  | none => pure ()
  h := (← setP h left (← getN h node).Parent)
  match (← getN h node).Parent with
  | none => root := some left
  | some pa =>
    if (← getN h pa).Right = some node then h := (← setR h pa (some left))
    else h := (← setL h pa (some left))
  h := (← setR h left (some node))
  h := (← setP h node (some left))
  .ok ⟨h, root, t.size⟩

/-- Source transplant: put subtree v where subtree u was. -/
def Tree.transplant (t : Tree V) (u : Ptr) (v : Option Ptr) : Except Err (Tree V) := do
  let mut h := t.heap
  let mut root := t.root
  match (← getN h u).Parent with
  | none => root := v
  | some pa =>
    if (← getN h pa).Left = some u then h := (← setL h pa v)
    else h := (← setR h pa v)
  match v with
  | some vp => h := (← setP h vp (← getN h u).Parent)
  | none => pure ()
  .ok ⟨h, root, t.size⟩

/-- The loop of insertFixup.  The loop runs while the node is not the root
and its parent is red; the source tests node == node.Parent.Parent.Right
(not node.Parent.Right) in the first symmetric branch. -/
def Tree.insertFixupLoop : Tree V → Ptr → Nat → Except Err (Tree V)
  | _, _, 0 => .error .outOfFuel
  | t, node, fuel + 1 => do
    if some node = t.root then .ok t
    else
      let pOpt := (← getN t.heap node).Parent
      if (← colorOf t.heap pOpt) = red then do
        let mut tr := t
        let mut nd := node
        let p ← deref pOpt
        let gp ← deref (← getN tr.heap p).Parent
        if (← getN tr.heap gp).Left = some p then
          let uncleOpt := (← getN tr.heap gp).Right
          if (← colorOf tr.heap uncleOpt) = red then
            tr := ⟨← setC tr.heap p black, tr.root, tr.size⟩
            let u ← deref uncleOpt
            tr := ⟨← setC tr.heap u black, tr.root, tr.size⟩
            tr := ⟨← setC tr.heap gp red, tr.root, tr.size⟩
            nd := gp
          else
            if (← getN tr.heap gp).Right = some nd then
              nd := p
              tr := (← tr.rotateLeft nd)
            let p2 ← deref (← getN tr.heap nd).Parent
            tr := ⟨← setC tr.heap p2 black, tr.root, tr.size⟩
            let gp2 ← deref (← getN tr.heap p2).Parent
            tr := ⟨← setC tr.heap gp2 red, tr.root, tr.size⟩
            tr := (← tr.rotateRight gp2)
        else
          let uncleOpt := (← getN tr.heap gp).Left
          if (← colorOf tr.heap uncleOpt) = red then
            tr := ⟨← setC tr.heap p black, tr.root, tr.size⟩
            let u ← deref uncleOpt
            tr := ⟨← setC tr.heap u black, tr.root, tr.size⟩
            tr := ⟨← setC tr.heap gp red, tr.root, tr.size⟩
            nd := gp
          else
            if (← getN tr.heap p).Left = some nd then
              nd := p
              tr := (← tr.rotateRight nd)
            let p2 ← deref (← getN tr.heap nd).Parent
            tr := ⟨← setC tr.heap p2 black, tr.root, tr.size⟩
            let gp2 ← deref (← getN tr.heap p2).Parent
            tr := ⟨← setC tr.heap gp2 red, tr.root, tr.size⟩
            tr := (← tr.rotateLeft gp2)
        Tree.insertFixupLoop tr nd fuel
      else .ok t

/-- Source insertFixup: the loop, then force the root black. -/
def Tree.insertFixup (t : Tree V) (node : Ptr) : Except Err (Tree V) := do
  let t2 ← Tree.insertFixupLoop t node t.fuel
  let r ← deref t2.root
  .ok ⟨← setC t2.heap r black, t2.root, t2.size⟩

/-- The BST descent of Insert: either the pointer holding the key (inl)
or the parent under which to attach a new node (inr). -/
def insertLoop (h : Heap V) (key : String) :
    Option Ptr → Option Ptr → Nat → Except Err (Ptr ⊕ Option Ptr)
  | none, parent, _ => .ok (.inr parent)
  | some _, _, 0 => .error .outOfFuel
  | some p, _, fuel + 1 => do
    let n ← getN h p
    if key < n.Key then insertLoop h key n.Left (some p) fuel
    else if n.Key < key then insertLoop h key n.Right (some p) fuel
    else .ok (.inl p)

/-- Allocate a fresh node, returning the new heap and its address. -/
def Heap.alloc (h : Heap V) (n : Node V) : Heap V × Ptr :=
  (⟨fun q => if q = h.next then some n else h.mem q, h.next + 1⟩, h.next)

/-- Source Insert: BST descent; overwrite in place on an equal key,
otherwise attach a fresh red node, run insertFixup, increment size. -/
def Tree.Insert (t : Tree V) (key : String) (value : V) : Except Err (Tree V) := do
  match ← insertLoop t.heap key t.root none t.fuel with
  | .inl p =>
    .ok ⟨← setV t.heap p value, t.root, t.size⟩
  | .inr parent =>
    let (h0, node) := t.heap.alloc ⟨key, value, red, parent, none, none⟩
    let mut t2 : Tree V := ⟨h0, t.root, t.size⟩
    match parent with
    | none => t2 := ⟨h0, some node, t.size⟩
    | some pa =>
      if key < (← getN h0 pa).Key then t2 := ⟨← setL h0 pa (some node), t2.root, t2.size⟩
      else t2 := ⟨← setR h0 pa (some node), t2.root, t2.size⟩
    let t3 ← t2.insertFixup node
    .ok ⟨t3.heap, t3.root, t3.size + 1⟩

/-- The loop of deleteFixup; x may be nil, so its parent is carried
alongside (as in the source).  Returns the final tree and x. -/
def Tree.deleteFixupLoop : Tree V → Option Ptr → Option Ptr → Nat →
    Except Err (Tree V × Option Ptr)
  | _, _, _, 0 => .error .outOfFuel
  | t, x, parent, fuel + 1 => do
    if x = t.root then .ok (t, x)
    else if (← colorOf t.heap x) = black then do
      let mut tr := t
      let mut x2 := x
      let mut par := parent
      if x = (← leftOf tr.heap par) then
        let mut sibling := (← rightOf tr.heap par)
        if (← colorOf tr.heap sibling) = red then
          let s ← deref sibling
          tr := ⟨← setC tr.heap s black, tr.root, tr.size⟩
          let pa ← deref par
          tr := ⟨← setC tr.heap pa red, tr.root, tr.size⟩
          tr := (← tr.rotateLeft pa)
          sibling := (← rightOf tr.heap par)
        let s ← deref sibling
        let bothBlack ← (do
          if (← colorOf tr.heap (← getN tr.heap s).Left) = black then
            Except.ok (decide ((← colorOf tr.heap (← getN tr.heap s).Right) = black))
          else Except.ok false)
        if bothBlack then
          tr := ⟨← setC tr.heap s red, tr.root, tr.size⟩
          x2 := par
          let xp ← deref x2
          par := (← getN tr.heap xp).Parent
        else
          if (← colorOf tr.heap (← getN tr.heap s).Right) = black then
            match (← getN tr.heap s).Left with
            | some sl => tr := ⟨← setC tr.heap sl black, tr.root, tr.size⟩
            | none => pure ()
            tr := ⟨← setC tr.heap s red, tr.root, tr.size⟩
            tr := (← tr.rotateRight s)
            sibling := (← rightOf tr.heap par)
          let s2 ← deref sibling
          tr := ⟨← setC tr.heap s2 (← colorOf tr.heap par), tr.root, tr.size⟩
          let pa ← deref par
          tr := ⟨← setC tr.heap pa black, tr.root, tr.size⟩
          match (← getN tr.heap s2).Right with
          | some sr => tr := ⟨← setC tr.heap sr black, tr.root, tr.size⟩
          | none => pure ()
          tr := (← tr.rotateLeft pa)
          x2 := tr.root
          par := none
      else
        let mut sibling := (← leftOf tr.heap par)
        if (← colorOf tr.heap sibling) = red then
          let s ← deref sibling
          tr := ⟨← setC tr.heap s black, tr.root, tr.size⟩
          let pa ← deref par
          tr := ⟨← setC tr.heap pa red, tr.root, tr.size⟩
          tr := (← tr.rotateRight pa)
          sibling := (← leftOf tr.heap par)
        let s ← deref sibling
        let bothBlack ← (do
          if (← colorOf tr.heap (← getN tr.heap s).Left) = black then
            Except.ok (decide ((← colorOf tr.heap (← getN tr.heap s).Right) = black))
          else Except.ok false)
        if bothBlack then
          tr := ⟨← setC tr.heap s red, tr.root, tr.size⟩
          x2 := par
          let xp ← deref x2
          par := (← getN tr.heap xp).Parent
        else
          if (← colorOf tr.heap (← getN tr.heap s).Left) = black then
            match (← getN tr.heap s).Right with
            | some sr => tr := ⟨← setC tr.heap sr black, tr.root, tr.size⟩
            | none => pure ()
            tr := ⟨← setC tr.heap s red, tr.root, tr.size⟩
            tr := (← tr.rotateLeft s)
            sibling := (← leftOf tr.heap par)
          let s2 ← deref sibling
          tr := ⟨← setC tr.heap s2 (← colorOf tr.heap par), tr.root, tr.size⟩
          let pa ← deref par
          tr := ⟨← setC tr.heap pa black, tr.root, tr.size⟩
          match (← getN tr.heap s2).Left with
          | some sl => tr := ⟨← setC tr.heap sl black, tr.root, tr.size⟩
          | none => pure ()
          tr := (← tr.rotateRight pa)
          x2 := tr.root
          par := none
      Tree.deleteFixupLoop tr x2 par fuel
    else .ok (t, x)

/-- Source deleteFixup: the loop, then force x black when non-nil. -/
def Tree.deleteFixup (t : Tree V) (x parent : Option Ptr) : Except Err (Tree V) := do
  let (t2, x2) ← Tree.deleteFixupLoop t x parent t.fuel
  match x2 with
  | some p => .ok ⟨← setC t2.heap p black, t2.root, t2.size⟩
  | none => .ok t2

/-- Source Delete: search, then splice out by the three CLRS cases,
run deleteFixup when the removed position was black, decrement size. -/
def Tree.Delete (t : Tree V) (key : String) : Except Err (Tree V × Bool) := do
  match ← t.Search key with
  | none => .ok (t, false)
  | some node => do
    let mut tr := t
    let mut originalColor := (← getN tr.heap node).Color
    let mut x : Option Ptr := none
    let mut replacementParent : Option Ptr := none
    if (← getN tr.heap node).Left = none then
      x := (← getN tr.heap node).Right
      replacementParent := (← getN tr.heap node).Parent
      tr := (← tr.transplant node (← getN tr.heap node).Right)
    else if (← getN tr.heap node).Right = none then
      x := (← getN tr.heap node).Left
      replacementParent := (← getN tr.heap node).Parent
      tr := (← tr.transplant node (← getN tr.heap node).Left)
    else
      let nR ← deref (← getN tr.heap node).Right
      let successor ← minimumLoop tr.heap nR tr.fuel
      originalColor := (← getN tr.heap successor).Color
      x := (← getN tr.heap successor).Right
      if (← getN tr.heap successor).Parent = some node then
        match x with
        | some xp => tr := ⟨← setP tr.heap xp (some successor), tr.root, tr.size⟩
        | none => pure ()
        replacementParent := some successor
      else
        replacementParent := (← getN tr.heap successor).Parent
        tr := (← tr.transplant successor (← getN tr.heap successor).Right)
        tr := ⟨← setR tr.heap successor (← getN tr.heap node).Right, tr.root, tr.size⟩
        let sr ← deref (← getN tr.heap successor).Right
        tr := ⟨← setP tr.heap sr (some successor), tr.root, tr.size⟩
      tr := (← tr.transplant node (some successor))
      tr := ⟨← setL tr.heap successor (← getN tr.heap node).Left, tr.root, tr.size⟩
      let sl ← deref (← getN tr.heap successor).Left
      tr := ⟨← setP tr.heap sl (some successor), tr.root, tr.size⟩
      tr := ⟨← setC tr.heap successor (← getN tr.heap node).Color, tr.root, tr.size⟩
    if originalColor = black then
      tr := (← tr.deleteFixup x replacementParent)
    .ok (⟨tr.heap, tr.root, tr.size - 1⟩, true)

/-- Source inOrder: left subtree, the node itself, right subtree; the
caller visitor is modelled as an accumulator transformer. -/
def inOrder (h : Heap V) (fn : String → V → A → A) :
    Option Ptr → A → Nat → Except Err A
  | none, acc, _ => .ok acc
  | some _, _, 0 => .error .outOfFuel
  | some p, acc, fuel + 1 => do
    let n ← getN h p
    let acc1 ← inOrder h fn n.Left acc fuel
    inOrder h fn n.Right (fn n.Key n.Value acc1) fuel

/-- Source InOrder: in-order walk from the root. -/
def Tree.InOrder (t : Tree V) (fn : String → V → A → A) (a : A) : Except Err A :=
  inOrder t.heap fn t.root a t.fuel

/-- A public mutating operation. -/
inductive Op (V : Type) where
  | ins (key : String) (value : V)
  | del (key : String)

/-- Apply one operation (the boolean result of Delete is dropped). -/
def Tree.applyOp (t : Tree V) : Op V → Except Err (Tree V)
  | .ins k v => t.Insert k v
  | .del k => do .ok (← t.Delete k).1

/-- Run a sequence of operations from a given tree. -/
def runFrom (t : Tree V) : List (Op V) → Except Err (Tree V)
  | [] => .ok t
  | op :: ops => do runFrom (← t.applyOp op) ops

/-- Run a sequence of operations from the empty tree. -/
def run (V : Type) (ops : List (Op V)) : Except Err (Tree V) :=
  runFrom (New V) ops

/-! ## Abstract trees and the heap extraction relation -/

/-- Abstract colored binary trees. -/
inductive BT (V : Type) where
  | nil
  | node (left : BT V) (color : Color) (key : String) (value : V) (right : BT V)
deriving DecidableEq

/-- In-order key/value sequence of an abstract tree. -/
def BT.inorder : BT V → List (String × V)
  | .nil => []
  | .node l _ k v r => l.inorder ++ (k, v) :: r.inorder

/-- In-order key sequence. -/
def BT.keys (T : BT V) : List String := T.inorder.map Prod.fst

/-- Extraction: from address p (whose Parent field must equal par) the
heap h spells out the abstract tree T, with in-order address list ps.
A derivation certifies that the reachable pointer structure is a finite
tree whose Parent back-references are all consistent. -/
inductive Extr (h : Heap V) : Option Ptr → Option Ptr → BT V → List Ptr → Prop where
  | nil : ∀ par, Extr h none par .nil []
  | node : ∀ p par n L psl R psr,
      h.mem p = some n → n.Parent = par →
      Extr h n.Left (some p) L psl →
      Extr h n.Right (some p) R psr →
      Extr h (some p) par (.node L n.Color n.Key n.Value R) (psl ++ p :: psr)

/-- Executable extractor (fueled); sound for Extr, used to certify
concrete witness states. -/
def extractF (h : Heap V) : Option Ptr → Option Ptr → Nat → Option (BT V × List Ptr)
  | none, _, _ => some (.nil, [])
  | some _, _, 0 => none
  | some p, par, fuel + 1 =>
    match h.mem p with
    | none => none
    | some n =>
      if n.Parent = par then
        match extractF h n.Left (some p) fuel, extractF h n.Right (some p) fuel with
        | some (L, psl), some (R, psr) =>
          some (.node L n.Color n.Key n.Value R, psl ++ p :: psr)
        | _, _ => none
      else none

/-- Well-formed search-tree state: the heap extracts to an abstract tree
whose addresses are distinct and below the allocation counter, whose
in-order key sequence is strictly increasing, and whose node count is
the stored size. -/
def WF (t : Tree V) : Prop :=
  ∃ T ps, Extr t.heap t.root none T ps ∧ ps.Nodup ∧
    (∀ p ∈ ps, p < t.heap.next) ∧
    List.Sorted (· < ·) (BT.keys T) ∧
    t.size = ps.length

/-- Color of the root of an abstract tree; a missing node reads black. -/
def BT.rootColor : BT V → Color
  | .nil => black
  | .node _ c _ _ _ => c

/-- No red node has a red child. -/
def BT.noRR : BT V → Bool
  | .nil => true
  | .node l c _ _ r =>
    l.noRR && r.noRR && !(c == red && (l.rootColor == red || r.rootColor == red))

/-- Black height when uniform over all paths (counting the missing-child
position as one black node), none when some paths disagree. -/
def BT.bh : BT V → Option Nat
  | .nil => some 1
  | .node l c _ _ r =>
    match l.bh, r.bh with
    | some a, some b =>
      if a == b then some (a + (if c == black then 1 else 0)) else none
    | _, _ => none

/-- The red-black color invariants of an abstract tree. -/
def RBInv (T : BT V) : Prop :=
  T.rootColor = black ∧ T.noRR = true ∧ (T.bh).isSome = true

/-! ## Zipper contexts over the heap -/

/-- One zipper frame: the hole is the left (or right) child of the node n
at address p; the other subtree is carried abstractly. -/
inductive Hole (V : Type) where
  | l (p : Ptr) (n : Node V) (R : BT V) (psr : List Ptr)
  | r (p : Ptr) (n : Node V) (L : BT V) (psl : List Ptr)

/-- HExtr h root par ctx r0 pe: descending from root (whose parent field
must be par) through the spine ctx (innermost frame first) reaches the
hole: the pointer r0 whose parent pointer is pe.  Every frame node's
Parent field is checked, and the off-spine subtrees are extracted. -/
inductive HExtr (h : Heap V) (root par : Option Ptr) :
    List (Hole V) → Option Ptr → Option Ptr → Prop where
  | refl : HExtr h root par [] root par
  | left : ∀ ctx p pe n R psr,
      HExtr h root par ctx (some p) pe →
      h.mem p = some n → n.Parent = pe →
      Extr h n.Right (some p) R psr →
      HExtr h root par (.l p n R psr :: ctx) n.Left (some p)
  | right : ∀ ctx p pe n L psl,
      HExtr h root par ctx (some p) pe →
      h.mem p = some n → n.Parent = pe →
      Extr h n.Left (some p) L psl →
      HExtr h root par (.r p n L psl :: ctx) n.Right (some p)

/-- Plug an abstract subtree into the hole of a context. -/
def plugT : List (Hole V) → BT V → BT V
  | [], S => S
  | .l _ n R _ :: ctx, S => plugT ctx (.node S n.Color n.Key n.Value R)
  | .r _ n L _ :: ctx, S => plugT ctx (.node L n.Color n.Key n.Value S)

/-- Plug an in-order address list into the hole of a context. -/
def plugPs : List (Hole V) → List Ptr → List Ptr
  | [], ps => ps
  | .l p _ _ psr :: ctx, ps => plugPs ctx (ps ++ p :: psr)
  | .r p _ _ psl :: ctx, ps => plugPs ctx (psl ++ p :: ps)

/-- All addresses stored in a context (spine nodes and off-spine trees). -/
def ctxPtrs : List (Hole V) → List Ptr
  | [] => []
  | .l p _ _ psr :: ctx => p :: psr ++ ctxPtrs ctx
  | .r p _ _ psl :: ctx => p :: psl ++ ctxPtrs ctx

/-! ## In-order views of contexts, spec-level key lists, concrete sample states -/

/-- In-order entries contributed by a context to the left of its hole. -/
def ctxInL : List (Hole V) → List (String × V)
  | [] => []
  | .l _ _ _ _ :: ctx => ctxInL ctx
  | .r _ n L _ :: ctx => ctxInL ctx ++ (L.inorder ++ [(n.Key, n.Value)])

/-- In-order entries contributed by a context to the right of its hole. -/
def ctxInR : List (Hole V) → List (String × V)
  | [] => []
  | .l _ n R _ :: ctx => ((n.Key, n.Value) :: R.inorder) ++ ctxInR ctx
  | .r _ _ _ _ :: ctx => ctxInR ctx

/-- Insert-or-update on the in-order association list, keeping key order. -/
def upsert (key : String) (v : V) : List (String × V) → List (String × V)
  | [] => [(key, v)]
  | (k, w) :: rest =>
    if key < k then (key, v) :: (k, w) :: rest
    else if k < key then (k, w) :: upsert key v rest
    else (key, v) :: rest

/-- Addresses contributed by a context strictly left of its hole. -/
def ctxPsL : List (Hole V) → List Ptr
  | [] => []
  | .l _ _ _ _ :: ctx => ctxPsL ctx
  | .r p _ _ psl :: ctx => ctxPsL ctx ++ (psl ++ [p])

/-- Spec-modelled: the number of distinct keys ever passed to Insert,
following the spec sentence word for word (not drawn from the source). -/
def specDistinctKeysEverInserted {V : Type} (ops : List (Op V)) : Nat :=
  (ops.filterMap fun op => match op with
    | .ins k _ => some k
    | .del _ => none).dedup.length

/-- Spec-modelled: replay the operations and count the deletes that
returned true. -/
def countSuccessfulDeletes {V : Type} : Tree V → List (Op V) → Except Err Nat
  | _, [] => .ok 0
  | t, .ins k v :: ops => do countSuccessfulDeletes (← t.Insert k v) ops
  | t, .del k :: ops => do
    let r ← t.Delete k
    let n ← countSuccessfulDeletes r.1 ops
    .ok (if r.2 then n + 1 else n)

/-- A concrete three-node red-black tree: black "b" at 0 with red children
"a" at 1 and "c" at 2. -/
def sampleHeap : Heap Nat :=
  ⟨fun q => if q = 0 then some ⟨"b", 10, black, none, some 1, some 2⟩
    else if q = 1 then some ⟨"a", 11, red, some 0, none, none⟩
    else if q = 2 then some ⟨"c", 12, red, some 0, none, none⟩
    else none, 3⟩

def sampleTree : Tree Nat := ⟨sampleHeap, some 0, 3⟩

def sampleBT : BT Nat :=
  .node (.node .nil red "a" 11 .nil) black "b" 10 (.node .nil red "c" 12 .nil)

def c3ops : List (Op Nat) := [.ins "a" 0, .del "a", .ins "a" 0]

def c3t : Tree Nat := match run Nat c3ops with
  | .ok r => r
  | .error _ => New Nat

def w2t1 : Tree Nat := match (New Nat).Insert "a" 7 with
  | .ok r => r
  | .error _ => New Nat

def w3t : Tree Nat := match run Nat [Op.ins "a" (5 : Nat)] with
  | .ok r => r
  | .error _ => New Nat

def w4t : Tree Nat := match sampleTree.Insert "b" 99 with
  | .ok r => r
  | .error _ => sampleTree

def w6r : Tree Nat × Bool := match sampleTree.Delete "b" with
  | .ok r => r
  | .error _ => (sampleTree, false)

def w10t : Tree Nat := match run Nat [Op.ins "a" 5, Op.ins "b" 6, Op.del "a"] with
  | .ok r => r
  | .error _ => New Nat

/-! ## Basic lemmas -/

@[simp] theorem ok_bind {A B : Type} (a : A) (f : A → Except Err B) :
    (Except.ok a >>= f) = f a := rfl

@[simp] theorem error_bind {A B : Type} (e : Err) (f : A → Except Err B) :
    ((Except.error e : Except Err A) >>= f) = .error e := rfl

@[simp] theorem write_mem (h : Heap V) (p : Ptr) (n : Node V) (q : Ptr) :
    (h.write p n).mem q = if q = p then some n else h.mem q := rfl

@[simp] theorem write_next (h : Heap V) (p : Ptr) (n : Node V) :
    (h.write p n).next = h.next := rfl

theorem getN_ok {h : Heap V} {p n} (hm : h.mem p = some n) :
    getN h p = .ok n := by simp [getN, hm]

theorem setL_ok {h : Heap V} {p n} (hm : h.mem p = some n) (x : Option Ptr) :
    setL h p x = .ok (h.write p ⟨n.Key, n.Value, n.Color, n.Parent, x, n.Right⟩) := by
  simp [setL, getN_ok hm]

theorem setR_ok {h : Heap V} {p n} (hm : h.mem p = some n) (x : Option Ptr) :
    setR h p x = .ok (h.write p ⟨n.Key, n.Value, n.Color, n.Parent, n.Left, x⟩) := by
  simp [setR, getN_ok hm]

theorem setP_ok {h : Heap V} {p n} (hm : h.mem p = some n) (x : Option Ptr) :
    setP h p x = .ok (h.write p ⟨n.Key, n.Value, n.Color, x, n.Left, n.Right⟩) := by
  simp [setP, getN_ok hm]

theorem setC_ok {h : Heap V} {p n} (hm : h.mem p = some n) (c : Color) :
    setC h p c = .ok (h.write p ⟨n.Key, n.Value, c, n.Parent, n.Left, n.Right⟩) := by
  simp [setC, getN_ok hm]

theorem setV_ok {h : Heap V} {p n} (hm : h.mem p = some n) (v : V) :
    setV h p v = .ok (h.write p ⟨n.Key, v, n.Color, n.Parent, n.Left, n.Right⟩) := by
  simp [setV, getN_ok hm]

theorem colorOf_none (h : Heap V) : colorOf h none = .ok black := rfl

theorem colorOf_some {h : Heap V} {p n} (hm : h.mem p = some n) :
    colorOf h (some p) = .ok n.Color := by simp [colorOf, getN_ok hm]

theorem leftOf_some {h : Heap V} {p n} (hm : h.mem p = some n) :
    leftOf h (some p) = .ok n.Left := by simp [leftOf, getN_ok hm]

theorem rightOf_some {h : Heap V} {p n} (hm : h.mem p = some n) :
    rightOf h (some p) = .ok n.Right := by simp [rightOf, getN_ok hm]

/-- Extraction only looks at the addresses it returns. -/
theorem Extr.congr {h h' : Heap V} {r par T ps} (E : Extr h r par T ps)
    (hag : ∀ x ∈ ps, h'.mem x = h.mem x) : Extr h' r par T ps := by
  induction E with
  | nil par => exact .nil par
  | node p par n L psl R psr hm hp _ _ ihL ihR =>
    exact .node p par n L psl R psr (by rw [hag p (by simp)]; exact hm) hp
      (ihL fun x hx => hag x (by simp [hx])) (ihR fun x hx => hag x (by simp [hx]))

/-- Every extracted address holds a node. -/
theorem Extr.mem_some {h : Heap V} {r par T ps} (E : Extr h r par T ps) :
    ∀ x ∈ ps, ∃ n, h.mem x = some n := by
  induction E with
  | nil par => intro x hx; cases hx
  | node p par n L psl R psr hm hp _ _ ihL ihR =>
    intro x hx
    rcases List.mem_append.1 hx with hx | hx
    · exact ihL x hx
    · rcases List.mem_cons.1 hx with rfl | hx
      · exact ⟨n, hm⟩
      · exact ihR x hx

/-- Extraction is a partial function of the heap and root. -/
theorem Extr.unique {h : Heap V} {r par T ps T' ps'} (E : Extr h r par T ps)
    (E' : Extr h r par T' ps') : T = T' ∧ ps = ps' := by
  induction E generalizing T' ps' with
  | nil par => cases E'; exact ⟨rfl, rfl⟩
  | node p par n L psl R psr hm _ _ _ ihL ihR =>
    cases E' with
    | node _ _ n' L' psl' R' psr' hm' hp' EL' ER' =>
      rw [hm] at hm'; cases hm'
      obtain ⟨rfl, rfl⟩ := ihL EL'
      obtain ⟨rfl, rfl⟩ := ihR ER'
      exact ⟨rfl, rfl⟩

/-- The in-order sequence and the address list have the same length. -/
theorem Extr.length_eq {h : Heap V} {r par T ps} (E : Extr h r par T ps) :
    T.inorder.length = ps.length := by
  induction E with
  | nil par => rfl
  | node p par n L psl R psr _ _ _ _ ihL ihR => simp [BT.inorder, ihL, ihR]

/-- The executable extractor is sound for the extraction relation. -/
theorem extractF_sound {h : Heap V} :
    ∀ (fuel : Nat) (r par : Option Ptr) (T : BT V) (ps : List Ptr),
      extractF h r par fuel = some (T, ps) → Extr h r par T ps := by
  intro fuel
  induction fuel with
  | zero =>
    intro r par T ps hE
    cases r with
    | none => simp [extractF] at hE; rw [← hE.1, hE.2]; exact .nil par
    | some p => simp [extractF] at hE
  | succ f ih =>
    intro r par T ps hE
    cases r with
    | none => simp [extractF] at hE; rw [← hE.1, hE.2]; exact .nil par
    | some p =>
      simp only [extractF] at hE
      cases hm : h.mem p with
      | none => rw [hm] at hE; simp at hE
      | some n =>
        rw [hm] at hE
        by_cases hp : n.Parent = par
        · simp only [hp, if_true, eq_self_iff_true, if_pos] at hE
          cases hL : extractF h n.Left (some p) f with
          | none => rw [hL] at hE; simp at hE
          | some resL =>
            cases hR : extractF h n.Right (some p) f with
            | none => rw [hL, hR] at hE; cases resL; simp at hE
            | some resR =>
              cases resL with
              | mk L psl =>
                cases resR with
                | mk R psr =>
                  rw [hL, hR] at hE
                  simp at hE
                  rw [← hE.1, ← hE.2]
                  exact .node p par n L psl R psr hm hp (ih _ _ _ _ hL) (ih _ _ _ _ hR)
        · simp only [if_neg hp] at hE; cases hE

/-! ## Zipper lemmas -/

theorem plugT_append (c1 c2 : List (Hole V)) (S : BT V) :
    plugT (c1 ++ c2) S = plugT c2 (plugT c1 S) := by
  induction c1 generalizing S with
  | nil => rfl
  | cons f c1 ih => cases f <;> simp [plugT, ih]

theorem plugPs_append (c1 c2 : List (Hole V)) (ps : List Ptr) :
    plugPs (c1 ++ c2) ps = plugPs c2 (plugPs c1 ps) := by
  induction c1 generalizing ps with
  | nil => rfl
  | cons f c1 ih => cases f <;> simp [plugPs, ih]

theorem mem_plugPs {x : Ptr} (ctx : List (Hole V)) (ps : List Ptr) :
    x ∈ plugPs ctx ps ↔ x ∈ ps ∨ x ∈ ctxPtrs ctx := by
  induction ctx generalizing ps with
  | nil => simp [plugPs, ctxPtrs]
  | cons f ctx ih =>
    cases f with
    | l p n R psr =>
      simp only [plugPs, ctxPtrs, ih, List.mem_append, List.mem_cons]
      tauto
    | r p n L psl =>
      simp only [plugPs, ctxPtrs, ih, List.mem_append, List.mem_cons]
      tauto

theorem plugPs_perm (ctx : List (Hole V)) (ps : List Ptr) :
    List.Perm (plugPs ctx ps) (ps ++ ctxPtrs ctx) := by
  induction ctx generalizing ps with
  | nil => simp [plugPs, ctxPtrs]
  | cons f ctx ih =>
    cases f with
    | l p n R psr =>
      rw [plugPs, ctxPtrs]
      refine (ih _).trans ?_
      simp [List.append_assoc]
    | r p n L psl =>
      rw [plugPs, ctxPtrs]
      refine (ih _).trans ?_
      have h1 : List.Perm ((psl ++ p :: ps) ++ ctxPtrs ctx)
          (p :: ((psl ++ ps) ++ ctxPtrs ctx)) := List.perm_middle.append_right _
      have h2 : List.Perm ((psl ++ ps) ++ ctxPtrs ctx) ((ps ++ psl) ++ ctxPtrs ctx) :=
        List.perm_append_comm.append_right _
      have h3 : List.Perm (ps ++ p :: (psl ++ ctxPtrs ctx))
          (p :: (ps ++ (psl ++ ctxPtrs ctx))) := List.perm_middle
      refine h1.trans (((h2.cons p).trans ?_).trans h3.symm)
      simp [List.append_assoc]

theorem plugPs_nodup (ctx : List (Hole V)) (ps : List Ptr) :
    (plugPs ctx ps).Nodup ↔ (ps ++ ctxPtrs ctx).Nodup :=
  (plugPs_perm ctx ps).nodup_iff

/-- Extend a context at its outer end with a left frame. -/
theorem HExtr.snocL {h : Heap V} {p par r0 pe ctx} {n : Node V} {R psr}
    (H : HExtr h n.Left (some p) ctx r0 pe)
    (hm : h.mem p = some n) (hp : n.Parent = par)
    (ER : Extr h n.Right (some p) R psr) :
    HExtr h (some p) par (ctx ++ [.l p n R psr]) r0 pe := by
  induction H with
  | refl => exact .left [] p par n R psr .refl hm hp ER
  | left ctx' p' pe' n' R' psr' _ hm' hp' ER' ih =>
    exact .left _ p' pe' n' R' psr' ih hm' hp' ER'
  | right ctx' p' pe' n' L' psl' _ hm' hp' EL' ih =>
    exact .right _ p' pe' n' L' psl' ih hm' hp' EL'

/-- Extend a context at its outer end with a right frame. -/
theorem HExtr.snocR {h : Heap V} {p par r0 pe ctx} {n : Node V} {L psl}
    (H : HExtr h n.Right (some p) ctx r0 pe)
    (hm : h.mem p = some n) (hp : n.Parent = par)
    (EL : Extr h n.Left (some p) L psl) :
    HExtr h (some p) par (ctx ++ [.r p n L psl]) r0 pe := by
  induction H with
  | refl => exact .right [] p par n L psl .refl hm hp EL
  | left ctx' p' pe' n' R' psr' _ hm' hp' ER' ih =>
    exact .left _ p' pe' n' R' psr' ih hm' hp' ER'
  | right ctx' p' pe' n' L' psl' _ hm' hp' EL' ih =>
    exact .right _ p' pe' n' L' psl' ih hm' hp' EL'

/-- Any extracted address can be split off as a hole with its context. -/
theorem Extr.decompose {h : Heap V} {root par T ps} (E : Extr h root par T ps) :
    ∀ x ∈ ps, ∃ ctx S ps0 pe, HExtr h root par ctx (some x) pe ∧
      Extr h (some x) pe S ps0 ∧ T = plugT ctx S ∧ ps = plugPs ctx ps0 := by
  induction E with
  | nil par => intro x hx; cases hx
  | node p par n L psl R psr hm hp EL ER ihL ihR =>
    intro x hx
    rcases List.mem_append.1 hx with hx | hx
    · obtain ⟨ctx, S, ps0, pe, H, E0, hT, hps⟩ := ihL x hx
      refine ⟨ctx ++ [.l p n R psr], S, ps0, pe, H.snocL hm hp ER, E0, ?_, ?_⟩
      · rw [plugT_append, ← hT]; rfl
      · rw [plugPs_append, ← hps]; rfl
    · rcases List.mem_cons.1 hx with hx' | hx
      · subst hx'
        exact ⟨[], _, _, par, .refl, .node x par n L psl R psr hm hp EL ER, rfl, rfl⟩
      · obtain ⟨ctx, S, ps0, pe, H, E0, hT, hps⟩ := ihR x hx
        refine ⟨ctx ++ [.r p n L psl], S, ps0, pe, H.snocR hm hp EL, E0, ?_, ?_⟩
        · rw [plugT_append, ← hT]; rfl
        · rw [plugPs_append, ← hps]; rfl

/-- Plugging a subtree derivation into a context derivation. -/
theorem HExtr.compose {h : Heap V} {root par ctx q pe}
    (H : HExtr h root par ctx q pe) :
    ∀ {S : BT V} {ps}, Extr h q pe S ps →
      Extr h root par (plugT ctx S) (plugPs ctx ps) := by
  induction H with
  | refl => intro S ps E; exact E
  | left ctx p pe n R psr _ hm hp ER ih =>
    intro S ps E
    exact ih (.node p pe n S ps R psr hm hp E ER)
  | right ctx p pe n L psl _ hm hp EL ih =>
    intro S ps E
    exact ih (.node p pe n L psl S ps hm hp EL E)

/-- A context derivation only looks at the addresses it stores. -/
theorem HExtr.hcongr {h h' : Heap V} {root par ctx r0 pe}
    (H : HExtr h root par ctx r0 pe)
    (hag : ∀ x ∈ ctxPtrs ctx, h'.mem x = h.mem x) : HExtr h' root par ctx r0 pe := by
  induction H with
  | refl => exact .refl
  | left ctx p pe n R psr _ hm hp ER ih =>
    refine .left ctx p pe n R psr
      (ih fun x hx => hag x ?_)
      (by rw [hag p (by simp [ctxPtrs])]; exact hm) hp
      (ER.congr fun x hx => hag x (by simp [ctxPtrs, hx]))
    simp only [ctxPtrs, List.mem_cons, List.mem_append]
    tauto
  | right ctx p pe n L psl _ hm hp EL ih =>
    refine .right ctx p pe n L psl
      (ih fun x hx => hag x ?_)
      (by rw [hag p (by simp [ctxPtrs])]; exact hm) hp
      (EL.congr fun x hx => hag x (by simp [ctxPtrs, hx]))
    simp only [ctxPtrs, List.mem_cons, List.mem_append]
    tauto

theorem Extr.root_mem {h : Heap V} {p : Ptr} {par T ps} (E : Extr h (some p) par T ps) :
    p ∈ ps := by
  cases E; simp

theorem Extr.inv_some {h : Heap V} {p : Ptr} {par T ps} (E : Extr h (some p) par T ps) :
    ∃ n L psl R psr, h.mem p = some n ∧ n.Parent = par ∧
      T = .node L n.Color n.Key n.Value R ∧ ps = psl ++ p :: psr ∧
      Extr h n.Left (some p) L psl ∧ Extr h n.Right (some p) R psr := by
  cases E with
  | node p par n L psl R psr hm hp EL ER => exact ⟨n, L, psl, R, psr, hm, hp, rfl, rfl, EL, ER⟩

theorem Extr.inv_none {h : Heap V} {par T ps} (E : Extr h none par T ps) :
    T = .nil ∧ ps = [] := by
  cases E; exact ⟨rfl, rfl⟩

theorem getN_write_self (h : Heap V) (p : Ptr) (n : Node V) :
    getN (h.write p n) p = .ok n := by simp [getN]

theorem getN_write_ne (h : Heap V) {p q : Ptr} (hne : q ≠ p) (n : Node V) :
    getN (h.write p n) q = getN h q := by simp [getN, hne]

theorem mem_write_ne (h : Heap V) {p q : Ptr} (hne : q ≠ p) (n : Node V) :
    (h.write p n).mem q = h.mem q := by simp [hne]

theorem Extr.write_out {h : Heap V} {r par T ps} (E : Extr h r par T ps) {p : Ptr}
    (hp : p ∉ ps) (n : Node V) : Extr (h.write p n) r par T ps :=
  E.congr fun x hx => by
    rw [write_mem, if_neg]
    intro hxe
    exact hp (hxe ▸ hx)

theorem HExtr.hwrite_out {h : Heap V} {root par ctx r0 pe}
    (H : HExtr h root par ctx r0 pe) {p : Ptr}
    (hp : p ∉ ctxPtrs ctx) (n : Node V) :
    HExtr (h.write p n) root par ctx r0 pe :=
  H.hcongr fun x hx => by
    rw [write_mem, if_neg]
    intro hxe
    exact hp (hxe ▸ hx)

theorem HExtr.inv_nil {h : Heap V} {root par r0 pe}
    (H : HExtr h root par ([] : List (Hole V)) r0 pe) : r0 = root ∧ pe = par := by
  cases H; exact ⟨rfl, rfl⟩

theorem HExtr.inv_cons {h : Heap V} {root par fr rest r0 pe}
    (H : HExtr h root par (fr :: rest) r0 pe) :
    (∃ p n R psr pe0, fr = Hole.l p n R psr ∧ r0 = n.Left ∧ pe = some p ∧
      h.mem p = some n ∧ n.Parent = pe0 ∧ Extr h n.Right (some p) R psr ∧
      HExtr h root par rest (some p) pe0) ∨
    (∃ p n L psl pe0, fr = Hole.r p n L psl ∧ r0 = n.Right ∧ pe = some p ∧
      h.mem p = some n ∧ n.Parent = pe0 ∧ Extr h n.Left (some p) L psl ∧
      HExtr h root par rest (some p) pe0) := by
  cases H with
  | left ctx p pe0 n R psr H0 hm hp ER =>
    exact .inl ⟨p, n, R, psr, pe0, rfl, rfl, rfl, hm, hp, ER, H0⟩
  | right ctx p pe0 n L psl H0 hm hp EL =>
    exact .inr ⟨p, n, L, psl, pe0, rfl, rfl, rfl, hm, hp, EL, H0⟩

/-- Unpack the nodup facts of a rotation-shaped address list. -/
theorem nodup_shape {psA psRL psRR C : List Ptr} {x r : Ptr}
    (ND : ((psA ++ x :: (psRL ++ r :: psRR)) ++ C).Nodup) :
    x ≠ r ∧ x ∉ psA ∧ x ∉ psRL ∧ x ∉ psRR ∧ x ∉ C ∧
    r ∉ psA ∧ r ∉ psRL ∧ r ∉ psRR ∧ r ∉ C ∧
    (∀ y ∈ psA, y ∉ C) ∧ (∀ y ∈ psRL, y ∉ C) ∧ (∀ y ∈ psRR, y ∉ C) ∧
    (∀ y ∈ psRL, y ∉ psA) ∧ (∀ y ∈ psRR, y ∉ psA) ∧ (∀ y ∈ psRR, y ∉ psRL) := by
  rw [List.nodup_append] at ND
  obtain ⟨nd0, _, disj⟩ := ND
  rw [List.nodup_append] at nd0
  obtain ⟨ndA, ndX, disjA⟩ := nd0
  rw [List.nodup_cons] at ndX
  obtain ⟨hxm, ndM⟩ := ndX
  rw [List.nodup_append] at ndM
  obtain ⟨ndRL, ndR, disjRL⟩ := ndM
  rw [List.nodup_cons] at ndR
  obtain ⟨hrm, ndRR⟩ := ndR
  simp only [List.mem_append, List.mem_cons, not_or] at hxm hrm
  refine ⟨?_, ?_, ?_, ?_, ?_, ?_, ?_, ?_, ?_, ?_, ?_, ?_, ?_, ?_, ?_⟩
  · exact fun he => hxm.2.1 he
  · intro hc; exact disjA hc (by simp)
  · exact fun hc => hxm.1 hc
  · exact fun hc => hxm.2.2 hc
  · exact fun hc => disj (by simp) hc
  · intro hc; exact disjA hc (by simp [hrm])
  · exact fun hc => disjRL hc (by simp)
  · exact fun hc => hrm hc
  · exact fun hc => disj (by simp) hc
  · intro y hy hc; exact disj (by simp [hy]) hc
  · intro y hy hc; exact disj (by simp [hy]) hc
  · intro y hy hc; exact disj (by simp [hy]) hc
  · intro y hy hc; exact disjA hc (by simp [hy])
  · intro y hy hc; exact disjA hc (by simp [hy])
  · intro y hy hc; exact disjRL hc (by simp [hy])

/-- Rebuild the subtree extraction after a left rotation at x (with right
child r), from pointwise facts about the new heap. -/
theorem rotL_newsub {h h6 : Heap V} {x r : Ptr} {pe : Option Ptr} {n nr : Node V}
    {A : BT V} {psA : List Ptr} {RL : BT V} {psRL : List Ptr} {RR : BT V} {psRR : List Ptr}
    (EA : Extr h n.Left (some x) A psA)
    (ERL : Extr h nr.Left (some r) RL psRL)
    (ERR : Extr h nr.Right (some r) RR psRR)
    (ndRL : psRL.Nodup)
    (hm6x : h6.mem x = some ⟨n.Key, n.Value, n.Color, some r, n.Left, nr.Left⟩)
    (hm6r : h6.mem r = some ⟨nr.Key, nr.Value, nr.Color, pe, some x, nr.Right⟩)
    (hagA : ∀ y ∈ psA, h6.mem y = h.mem y)
    (hagRR : ∀ y ∈ psRR, h6.mem y = h.mem y)
    (hagRL : ∀ y ∈ psRL, nr.Left ≠ some y → h6.mem y = h.mem y)
    (hrl6 : ∀ rl m, nr.Left = some rl → h.mem rl = some m →
      h6.mem rl = some ⟨m.Key, m.Value, m.Color, some x, m.Left, m.Right⟩) :
    Extr h6 (some r) pe
      (.node (.node A n.Color n.Key n.Value RL) nr.Color nr.Key nr.Value RR)
      ((psA ++ x :: psRL) ++ r :: psRR) := by
  have EA6 : Extr h6 n.Left (some x) A psA := EA.congr hagA
  have ERR6 : Extr h6 nr.Right (some r) RR psRR := ERR.congr hagRR
  have ERL6 : Extr h6 nr.Left (some x) RL psRL := by
    cases hrl : nr.Left with
    | none =>
      rw [hrl] at ERL
      obtain ⟨hT, hps⟩ := ERL.inv_none
      rw [hT, hps]
      exact .nil _
    | some rl =>
      rw [hrl] at ERL
      obtain ⟨m, Lm, pslm, Rm, psrm, hmrl, hmp, hT, hps, EmL, EmR⟩ := ERL.inv_some
      rw [hT, hps]
      have hrlps : rl ∈ psRL := by rw [hps]; simp
      have ndin : rl ∉ pslm ∧ rl ∉ psrm := by
        rw [hps] at ndRL
        rw [List.nodup_append] at ndRL
        obtain ⟨_, nd2, disj⟩ := ndRL
        rw [List.nodup_cons] at nd2
        exact ⟨fun hc => disj hc (by simp), nd2.1⟩
      have EmL6 : Extr h6 m.Left (some rl) Lm pslm := EmL.congr (fun y hy => by
        refine hagRL y ?_ ?_
        · rw [hps]; simp [hy]
        · rw [hrl]; intro hc; cases hc; exact ndin.1 hy)
      have EmR6 : Extr h6 m.Right (some rl) Rm psrm := EmR.congr (fun y hy => by
        refine hagRL y ?_ ?_
        · rw [hps]; simp [hy]
        · rw [hrl]; intro hc; cases hc; exact ndin.2 hy)
      exact .node rl (some x) ⟨m.Key, m.Value, m.Color, some x, m.Left, m.Right⟩
        Lm pslm Rm psrm (hrl6 rl m hrl hmrl) rfl EmL6 EmR6
  have Ex6 : Extr h6 (some x) (some r)
      (.node A n.Color n.Key n.Value RL) (psA ++ x :: psRL) :=
    .node x (some r) ⟨n.Key, n.Value, n.Color, some r, n.Left, nr.Left⟩
      A psA RL psRL hm6x rfl EA6 ERL6
  exact .node r pe ⟨nr.Key, nr.Value, nr.Color, pe, some x, nr.Right⟩
    (.node A n.Color n.Key n.Value RL) (psA ++ x :: psRL) RR psRR hm6r rfl Ex6 ERR6

set_option maxHeartbeats 1600000 in
/-- Effect of rotateLeft at a node with a right child, in zipper form:
the subtree at the hole is locally restructured, everything else is
untouched, and the in-order address list is unchanged. -/
theorem rotateLeft_spec {h : Heap V} {root : Option Ptr} (sz : Int)
    {ctx : List (Hole V)} {x r : Ptr} {pe : Option Ptr} {n nr : Node V}
    {A : BT V} {psA : List Ptr} {RL : BT V} {psRL : List Ptr} {RR : BT V} {psRR : List Ptr}
    (H : HExtr h root none ctx (some x) pe)
    (hmx : h.mem x = some n) (hpx : n.Parent = pe)
    (hxr : n.Right = some r)
    (EA : Extr h n.Left (some x) A psA)
    (hmr : h.mem r = some nr) (hpr : nr.Parent = some x)
    (ERL : Extr h nr.Left (some r) RL psRL)
    (ERR : Extr h nr.Right (some r) RR psRR)
    (ND : (plugPs ctx (psA ++ x :: (psRL ++ r :: psRR))).Nodup) :
    ∃ h' root',
      Tree.rotateLeft ⟨h, root, sz⟩ x = .ok ⟨h', root', sz⟩ ∧
      Extr h' root' none
        (plugT ctx (.node (.node A n.Color n.Key n.Value RL) nr.Color nr.Key nr.Value RR))
        (plugPs ctx ((psA ++ x :: psRL) ++ r :: psRR)) ∧
      h'.next = h.next ∧
      h'.mem x = some ⟨n.Key, n.Value, n.Color, some r, n.Left, nr.Left⟩ ∧
      h'.mem r = some ⟨nr.Key, nr.Value, nr.Color, pe, some x, nr.Right⟩ ∧
      (∀ y, y ≠ x → y ≠ r → nr.Left ≠ some y → pe ≠ some y → h'.mem y = h.mem y) := by
  have ND' : ((psA ++ x :: (psRL ++ r :: psRR)) ++ ctxPtrs ctx).Nodup :=
    (plugPs_nodup _ _).1 ND
  obtain ⟨dxr, dxA, dxRL, dxRR, dxC, drA, drRL, drRR, drC,
    dAC, dRLC, dRRC, dRLA, dRRA, dRRRL⟩ := nodup_shape ND'
  have drx : r ≠ x := Ne.symm dxr
  have ndRL : psRL.Nodup := by
    have h1 := ND'
    rw [List.nodup_append] at h1
    have h2 := h1.1
    rw [List.nodup_append] at h2
    have h3 := h2.2.1
    rw [List.nodup_cons] at h3
    have h4 := h3.2
    rw [List.nodup_append] at h4
    exact h4.1
  cases ctx with
  | nil =>
    obtain ⟨hroot, hpe⟩ := H.inv_nil
    subst hpe
    have hnp : n.Parent = none := hpx
    cases hrlE : nr.Left with
    | none =>
      have hyx : ∀ y ∈ psA, (y = x) = False := fun y hy => by
        simp; intro e; exact dxA (e ▸ hy)
      refine ⟨(((h.write x ⟨n.Key, n.Value, n.Color, none, n.Left, none⟩).write r
          ⟨nr.Key, nr.Value, nr.Color, none, none, nr.Right⟩).write r
          ⟨nr.Key, nr.Value, nr.Color, none, some x, nr.Right⟩).write x
          ⟨n.Key, n.Value, n.Color, some r, n.Left, none⟩, some r, ?_, ?_, ?_, ?_, ?_, ?_⟩
      · simp [Tree.rotateLeft, getN, deref, setL, setR, setP, hmx, hmr, hxr, hrlE, hnp,
          dxr, drx]
      · simp only [plugT, plugPs]
        refine rotL_newsub EA ERL ERR ndRL ?_ ?_ ?_ ?_ ?_ ?_
        · simp [hrlE]
        · simp [drx]
        · intro y hy
          have h1 : (y = x) = False := by simp; intro e; exact dxA (e ▸ hy)
          have h2 : (y = r) = False := by simp; intro e; exact drA (e ▸ hy)
          simp [h1, h2]
        · intro y hy
          have h1 : (y = x) = False := by simp; intro e; exact dxRR (e ▸ hy)
          have h2 : (y = r) = False := by simp; intro e; exact drRR (e ▸ hy)
          simp [h1, h2]
        · intro y hy _
          have h1 : (y = x) = False := by simp; intro e; exact dxRL (e ▸ hy)
          have h2 : (y = r) = False := by simp; intro e; exact drRL (e ▸ hy)
          simp [h1, h2]
        · intro rl m hc; rw [hrlE] at hc; cases hc
      · simp
      · simp [hrlE]
      · simp [drx]
      · intro y hyx2 hyr hyrl hype
        simp [write_mem, hyx2, hyr]
    | some rl =>
      have hrlRL : rl ∈ psRL := by
        rw [hrlE] at ERL; exact ERL.root_mem
      have drlx : rl ≠ x := fun e => dxRL (e ▸ hrlRL)
      have drlr : rl ≠ r := fun e => drRL (e ▸ hrlRL)
      obtain ⟨m, hmrl⟩ := by
        rw [hrlE] at ERL; exact ERL.mem_some rl (by simpa using ERL.root_mem)
      refine ⟨((((h.write x ⟨n.Key, n.Value, n.Color, none, n.Left, some rl⟩).write rl
          ⟨m.Key, m.Value, m.Color, some x, m.Left, m.Right⟩).write r
          ⟨nr.Key, nr.Value, nr.Color, none, nr.Left, nr.Right⟩).write r
          ⟨nr.Key, nr.Value, nr.Color, none, some x, nr.Right⟩).write x
          ⟨n.Key, n.Value, n.Color, some r, n.Left, some rl⟩, some r, ?_, ?_, ?_, ?_, ?_, ?_⟩
      · simp [Tree.rotateLeft, getN, deref, setL, setR, setP, hmx, hmr, hxr, hrlE, hnp,
          dxr, drx, drlx, drlr, hmrl, Ne.symm drlx, Ne.symm drlr]
      · simp only [plugT, plugPs]
        refine rotL_newsub EA ERL ERR ndRL ?_ ?_ ?_ ?_ ?_ ?_
        · simp [hrlE]
        · simp [drx]
        · intro y hy
          have h1 : (y = x) = False := by simp; intro e; exact dxA (e ▸ hy)
          have h2 : (y = r) = False := by simp; intro e; exact drA (e ▸ hy)
          have h3 : (y = rl) = False := by
            simp; intro e; exact dRLA rl hrlRL (e ▸ hy)
          simp [h1, h2, h3]
        · intro y hy
          have h1 : (y = x) = False := by simp; intro e; exact dxRR (e ▸ hy)
          have h2 : (y = r) = False := by simp; intro e; exact drRR (e ▸ hy)
          have h3 : (y = rl) = False := by
            simp; intro e; exact dRRRL rl (e ▸ hy) hrlRL
          simp [h1, h2, h3]
        · intro y hy hne
          have h1 : (y = x) = False := by simp; intro e; exact dxRL (e ▸ hy)
          have h2 : (y = r) = False := by simp; intro e; exact drRL (e ▸ hy)
          have h3 : (y = rl) = False := by
            simp; intro e; rw [hrlE] at hne; exact hne (by rw [e])
          simp [h1, h2, h3]
        · intro rl2 m2 hc hm2
          rw [hrlE] at hc
          cases hc
          rw [hmrl] at hm2
          cases hm2
          simp [drlx, drlr]
      · simp
      · simp [hrlE]
      · simp [drx]
      · intro y hyx2 hyr hyrl hype
        have h3 : (y = rl) = False := by
          simp; intro e; exact hyrl (by rw [e])
        simp [write_mem, hyx2, hyr, h3]
  | cons fr rest =>
    rcases H.inv_cons with ⟨pa, npa, Rf, psrf, pe0, hfr, hr0, hpeE, hmpa, hpap, ERf, H0⟩ |
      ⟨pa, npa, Lf, pslf, pe0, hfr, hr0, hpeE, hmpa, hpap, ELf, H0⟩
    · subst hfr; subst hpeE
      have hpaC : pa ∈ ctxPtrs (Hole.l pa npa Rf psrf :: rest) := by simp [ctxPtrs]
      have dpax : pa ≠ x := fun e => dxC (e ▸ hpaC)
      have dpar : pa ≠ r := fun e => drC (e ▸ hpaC)
      have hpaRest : pa ∉ psrf ++ ctxPtrs rest := by
        have h5 : (ctxPtrs (Hole.l pa npa Rf psrf :: rest)).Nodup := by
          rw [List.nodup_append] at ND'; exact ND'.2.1
        simp only [ctxPtrs, List.cons_append, List.nodup_cons] at h5
        exact h5.1
      have hsub : ∀ z, z ∈ psrf ++ ctxPtrs rest →
          z ∈ ctxPtrs (Hole.l pa npa Rf psrf :: rest) := fun z hz => by
        simp only [ctxPtrs, List.cons_append, List.mem_cons]
        exact Or.inr hz
      have hxRest : x ∉ ctxPtrs rest := fun hc => dxC (hsub x (by simp [hc]))
      have hrRest : r ∉ ctxPtrs rest := fun hc => drC (hsub r (by simp [hc]))
      have hpaRest2 : pa ∉ ctxPtrs rest := fun hc => hpaRest (by simp [hc])
      have hagRf : ∀ y ∈ psrf, y ≠ x ∧ y ≠ r ∧ y ≠ pa := fun y hy =>
        ⟨fun e => dxC (e ▸ hsub y (by simp [hy])),
         fun e => drC (e ▸ hsub y (by simp [hy])),
         fun e => hpaRest (by simp [e ▸ hy])⟩
      have hnp : n.Parent = some pa := hpx
      have hpaL : npa.Left = some x := hr0.symm
      cases hrlE : nr.Left with
      | none =>
        refine ⟨((((h.write x ⟨n.Key, n.Value, n.Color, some pa, n.Left, none⟩).write r
              ⟨nr.Key, nr.Value, nr.Color, some pa, none, nr.Right⟩).write pa
              ⟨npa.Key, npa.Value, npa.Color, npa.Parent, some r, npa.Right⟩).write r
              ⟨nr.Key, nr.Value, nr.Color, some pa, some x, nr.Right⟩).write x
              ⟨n.Key, n.Value, n.Color, some r, n.Left, none⟩, root, ?_, ?_, ?_, ?_, ?_, ?_⟩
        · simp [Tree.rotateLeft, getN, deref, setL, setR, setP, hmx, hmr, hxr, hrlE, hnp,
            dxr, drx, dpax, dpar, Ne.symm dpax, Ne.symm dpar, hmpa, hpaL]
        · have Esub : Extr (((((h.write x ⟨n.Key, n.Value, n.Color, some pa, n.Left, none⟩).write r
              ⟨nr.Key, nr.Value, nr.Color, some pa, none, nr.Right⟩).write pa
              ⟨npa.Key, npa.Value, npa.Color, npa.Parent, some r, npa.Right⟩).write r
              ⟨nr.Key, nr.Value, nr.Color, some pa, some x, nr.Right⟩).write x
              ⟨n.Key, n.Value, n.Color, some r, n.Left, none⟩) (some r) (some pa)
              (.node (.node A n.Color n.Key n.Value RL) nr.Color nr.Key nr.Value RR)
              ((psA ++ x :: psRL) ++ r :: psRR) := by
            refine rotL_newsub EA ERL ERR ndRL (by simp [hrlE]) (by simp [drx]) ?_ ?_ ?_ ?_
            · intro y hy
              have h1 : (y = x) = False := by simp; intro e; exact dxA (e ▸ hy)
              have h2 : (y = r) = False := by simp; intro e; exact drA (e ▸ hy)
              have h4 : (y = pa) = False := by simp; intro e; exact dAC y hy (e ▸ hpaC)
              simp [h1, h2, h4]
            · intro y hy
              have h1 : (y = x) = False := by simp; intro e; exact dxRR (e ▸ hy)
              have h2 : (y = r) = False := by simp; intro e; exact drRR (e ▸ hy)
              have h4 : (y = pa) = False := by simp; intro e; exact dRRC y hy (e ▸ hpaC)
              simp [h1, h2, h4]
            · intro y hy _
              have h1 : (y = x) = False := by simp; intro e; exact dxRL (e ▸ hy)
              have h2 : (y = r) = False := by simp; intro e; exact drRL (e ▸ hy)
              have h4 : (y = pa) = False := by simp; intro e; exact dRLC y hy (e ▸ hpaC)
              simp [h1, h2, h4]
            · intro rl2 m2 hc; rw [hrlE] at hc; cases hc
          have H0w : HExtr (((((h.write x ⟨n.Key, n.Value, n.Color, some pa, n.Left, none⟩).write r
              ⟨nr.Key, nr.Value, nr.Color, some pa, none, nr.Right⟩).write pa
              ⟨npa.Key, npa.Value, npa.Color, npa.Parent, some r, npa.Right⟩).write r
              ⟨nr.Key, nr.Value, nr.Color, some pa, some x, nr.Right⟩).write x
              ⟨n.Key, n.Value, n.Color, some r, n.Left, none⟩) root none rest (some pa) pe0 :=
            ((((H0.hwrite_out hxRest _).hwrite_out hrRest _).hwrite_out
              hpaRest2 _).hwrite_out hrRest _).hwrite_out hxRest _
          have ERf6 : Extr (((((h.write x ⟨n.Key, n.Value, n.Color, some pa, n.Left, none⟩).write r
              ⟨nr.Key, nr.Value, nr.Color, some pa, none, nr.Right⟩).write pa
              ⟨npa.Key, npa.Value, npa.Color, npa.Parent, some r, npa.Right⟩).write r
              ⟨nr.Key, nr.Value, nr.Color, some pa, some x, nr.Right⟩).write x
              ⟨n.Key, n.Value, n.Color, some r, n.Left, none⟩) npa.Right (some pa) Rf psrf :=
            ERf.congr (fun y hy => by
              obtain ⟨e1, e2, e3⟩ := hagRf y hy
              simp [write_mem, e1, e2, e3])
          have H6 : HExtr (((((h.write x ⟨n.Key, n.Value, n.Color, some pa, n.Left, none⟩).write r
              ⟨nr.Key, nr.Value, nr.Color, some pa, none, nr.Right⟩).write pa
              ⟨npa.Key, npa.Value, npa.Color, npa.Parent, some r, npa.Right⟩).write r
              ⟨nr.Key, nr.Value, nr.Color, some pa, some x, nr.Right⟩).write x
              ⟨n.Key, n.Value, n.Color, some r, n.Left, none⟩) root none
              (Hole.l pa ⟨npa.Key, npa.Value, npa.Color, npa.Parent, some r, npa.Right⟩
                Rf psrf :: rest) (some r) (some pa) := by
            refine HExtr.left rest pa pe0 _ Rf psrf H0w ?_ hpap ERf6
            simp [write_mem, dpax, dpar, Ne.symm dpax, Ne.symm dpar]
          have := H6.compose Esub
          simpa [plugT, plugPs] using this
        · simp
        · simp [hrlE]
        · simp [drx]
        · intro y hyx2 hyr hyrl hype
          have h4 : (y = pa) = False := by simp; intro e; exact hype (by rw [e])
          simp [write_mem, hyx2, hyr, h4]
      | some rl =>
        have hrlRL : rl ∈ psRL := by rw [hrlE] at ERL; exact ERL.root_mem
        have drlx : rl ≠ x := fun e => dxRL (e ▸ hrlRL)
        have drlr : rl ≠ r := fun e => drRL (e ▸ hrlRL)
        have drlpa : rl ≠ pa := fun e => dRLC rl hrlRL (e ▸ hpaC)
        have hrlRest : rl ∉ ctxPtrs rest := fun hc => dRLC rl hrlRL (hsub rl (by simp [hc]))
        obtain ⟨m, hmrl⟩ := by
          rw [hrlE] at ERL; exact ERL.mem_some rl (by simpa using ERL.root_mem)
        refine ⟨(((((h.write x ⟨n.Key, n.Value, n.Color, some pa, n.Left, some rl⟩).write rl
              ⟨m.Key, m.Value, m.Color, some x, m.Left, m.Right⟩).write r
              ⟨nr.Key, nr.Value, nr.Color, some pa, nr.Left, nr.Right⟩).write pa
              ⟨npa.Key, npa.Value, npa.Color, npa.Parent, some r, npa.Right⟩).write r
              ⟨nr.Key, nr.Value, nr.Color, some pa, some x, nr.Right⟩).write x
              ⟨n.Key, n.Value, n.Color, some r, n.Left, some rl⟩, root, ?_, ?_, ?_, ?_, ?_, ?_⟩
        · simp [Tree.rotateLeft, getN, deref, setL, setR, setP, hmx, hmr, hxr, hrlE, hnp,
            dxr, drx, dpax, dpar, Ne.symm dpax, Ne.symm dpar, hmpa, hpaL,
            drlx, drlr, drlpa, Ne.symm drlx, Ne.symm drlr, Ne.symm drlpa, hmrl]
        · have Esub : Extr ((((((h.write x ⟨n.Key, n.Value, n.Color, some pa, n.Left, some rl⟩).write rl
              ⟨m.Key, m.Value, m.Color, some x, m.Left, m.Right⟩).write r
              ⟨nr.Key, nr.Value, nr.Color, some pa, nr.Left, nr.Right⟩).write pa
              ⟨npa.Key, npa.Value, npa.Color, npa.Parent, some r, npa.Right⟩).write r
              ⟨nr.Key, nr.Value, nr.Color, some pa, some x, nr.Right⟩).write x
              ⟨n.Key, n.Value, n.Color, some r, n.Left, some rl⟩) (some r) (some pa)
              (.node (.node A n.Color n.Key n.Value RL) nr.Color nr.Key nr.Value RR)
              ((psA ++ x :: psRL) ++ r :: psRR) := by
            refine rotL_newsub EA ERL ERR ndRL (by simp [hrlE]) (by simp [drx]) ?_ ?_ ?_ ?_
            · intro y hy
              have h1 : (y = x) = False := by simp; intro e; exact dxA (e ▸ hy)
              have h2 : (y = r) = False := by simp; intro e; exact drA (e ▸ hy)
              have h3 : (y = rl) = False := by simp; intro e; exact dRLA rl hrlRL (e ▸ hy)
              have h4 : (y = pa) = False := by simp; intro e; exact dAC y hy (e ▸ hpaC)
              simp [h1, h2, h3, h4]
            · intro y hy
              have h1 : (y = x) = False := by simp; intro e; exact dxRR (e ▸ hy)
              have h2 : (y = r) = False := by simp; intro e; exact drRR (e ▸ hy)
              have h3 : (y = rl) = False := by simp; intro e; exact dRRRL rl (e ▸ hy) hrlRL
              have h4 : (y = pa) = False := by simp; intro e; exact dRRC y hy (e ▸ hpaC)
              simp [h1, h2, h3, h4]
            · intro y hy hne
              have h1 : (y = x) = False := by simp; intro e; exact dxRL (e ▸ hy)
              have h2 : (y = r) = False := by simp; intro e; exact drRL (e ▸ hy)
              have h3 : (y = rl) = False := by
                simp; intro e; rw [hrlE] at hne; exact hne (by rw [e])
              have h4 : (y = pa) = False := by simp; intro e; exact dRLC y hy (e ▸ hpaC)
              simp [h1, h2, h3, h4]
            · intro rl2 m2 hc hm2
              rw [hrlE] at hc
              cases hc
              rw [hmrl] at hm2
              cases hm2
              simp [drlx, drlr, drlpa]
          have H0w : HExtr ((((((h.write x ⟨n.Key, n.Value, n.Color, some pa, n.Left, some rl⟩).write rl
              ⟨m.Key, m.Value, m.Color, some x, m.Left, m.Right⟩).write r
              ⟨nr.Key, nr.Value, nr.Color, some pa, nr.Left, nr.Right⟩).write pa
              ⟨npa.Key, npa.Value, npa.Color, npa.Parent, some r, npa.Right⟩).write r
              ⟨nr.Key, nr.Value, nr.Color, some pa, some x, nr.Right⟩).write x
              ⟨n.Key, n.Value, n.Color, some r, n.Left, some rl⟩) root none rest (some pa) pe0 :=
            (((((H0.hwrite_out hxRest _).hwrite_out hrlRest _).hwrite_out hrRest _).hwrite_out
              hpaRest2 _).hwrite_out hrRest _).hwrite_out hxRest _
          have ERf6 : Extr ((((((h.write x ⟨n.Key, n.Value, n.Color, some pa, n.Left, some rl⟩).write rl
              ⟨m.Key, m.Value, m.Color, some x, m.Left, m.Right⟩).write r
              ⟨nr.Key, nr.Value, nr.Color, some pa, nr.Left, nr.Right⟩).write pa
              ⟨npa.Key, npa.Value, npa.Color, npa.Parent, some r, npa.Right⟩).write r
              ⟨nr.Key, nr.Value, nr.Color, some pa, some x, nr.Right⟩).write x
              ⟨n.Key, n.Value, n.Color, some r, n.Left, some rl⟩) npa.Right (some pa) Rf psrf :=
            ERf.congr (fun y hy => by
              obtain ⟨e1, e2, e3⟩ := hagRf y hy
              have h3 : (y = rl) = False := by
                simp; intro e; exact dRLC rl hrlRL (hsub rl (by simp [e ▸ hy]))
              simp [write_mem, e1, e2, e3, h3])
          have H6 : HExtr ((((((h.write x ⟨n.Key, n.Value, n.Color, some pa, n.Left, some rl⟩).write rl
              ⟨m.Key, m.Value, m.Color, some x, m.Left, m.Right⟩).write r
              ⟨nr.Key, nr.Value, nr.Color, some pa, nr.Left, nr.Right⟩).write pa
              ⟨npa.Key, npa.Value, npa.Color, npa.Parent, some r, npa.Right⟩).write r
              ⟨nr.Key, nr.Value, nr.Color, some pa, some x, nr.Right⟩).write x
              ⟨n.Key, n.Value, n.Color, some r, n.Left, some rl⟩) root none
              (Hole.l pa ⟨npa.Key, npa.Value, npa.Color, npa.Parent, some r, npa.Right⟩
                Rf psrf :: rest) (some r) (some pa) := by
            refine HExtr.left rest pa pe0 _ Rf psrf H0w ?_ hpap ERf6
            simp [write_mem, dpax, dpar, Ne.symm dpax, Ne.symm dpar]
          have := H6.compose Esub
          simpa [plugT, plugPs] using this
        · simp
        · simp [hrlE]
        · simp [drx]
        · intro y hyx2 hyr hyrl hype
          have h3 : (y = rl) = False := by simp; intro e; exact hyrl (by rw [e])
          have h4 : (y = pa) = False := by simp; intro e; exact hype (by rw [e])
          simp [write_mem, hyx2, hyr, h3, h4]
    · subst hfr; subst hpeE
      have hpaC : pa ∈ ctxPtrs (Hole.r pa npa Lf pslf :: rest) := by simp [ctxPtrs]
      have dpax : pa ≠ x := fun e => dxC (e ▸ hpaC)
      have dpar : pa ≠ r := fun e => drC (e ▸ hpaC)
      have hpaRest : pa ∉ pslf ++ ctxPtrs rest := by
        have h5 : (ctxPtrs (Hole.r pa npa Lf pslf :: rest)).Nodup := by
          rw [List.nodup_append] at ND'; exact ND'.2.1
        simp only [ctxPtrs, List.cons_append, List.nodup_cons] at h5
        exact h5.1
      have hsub : ∀ z, z ∈ pslf ++ ctxPtrs rest →
          z ∈ ctxPtrs (Hole.r pa npa Lf pslf :: rest) := fun z hz => by
        simp only [ctxPtrs, List.cons_append, List.mem_cons]
        exact Or.inr hz
      have hxRest : x ∉ ctxPtrs rest := fun hc => dxC (hsub x (by simp [hc]))
      have hrRest : r ∉ ctxPtrs rest := fun hc => drC (hsub r (by simp [hc]))
      have hpaRest2 : pa ∉ ctxPtrs rest := fun hc => hpaRest (by simp [hc])
      have hagLf : ∀ y ∈ pslf, y ≠ x ∧ y ≠ r ∧ y ≠ pa := fun y hy =>
        ⟨fun e => dxC (e ▸ hsub y (by simp [hy])),
         fun e => drC (e ▸ hsub y (by simp [hy])),
         fun e => hpaRest (by simp [e ▸ hy])⟩
      have hnp : n.Parent = some pa := hpx
      have hpaR : npa.Right = some x := hr0.symm
      have hpaLne : ¬ (npa.Left = some x) := fun hc => by
        rw [hc] at ELf
        exact dxC (hsub x (by simp [ELf.root_mem]))
      cases hrlE : nr.Left with
      | none =>
        refine ⟨((((h.write x ⟨n.Key, n.Value, n.Color, some pa, n.Left, none⟩).write r
              ⟨nr.Key, nr.Value, nr.Color, some pa, none, nr.Right⟩).write pa
              ⟨npa.Key, npa.Value, npa.Color, npa.Parent, npa.Left, some r⟩).write r
              ⟨nr.Key, nr.Value, nr.Color, some pa, some x, nr.Right⟩).write x
              ⟨n.Key, n.Value, n.Color, some r, n.Left, none⟩, root, ?_, ?_, ?_, ?_, ?_, ?_⟩
        · simp [Tree.rotateLeft, getN, deref, setL, setR, setP, hmx, hmr, hxr, hrlE, hnp,
            dxr, drx, dpax, dpar, Ne.symm dpax, Ne.symm dpar, hmpa, hpaLne]
        · have Esub : Extr (((((h.write x ⟨n.Key, n.Value, n.Color, some pa, n.Left, none⟩).write r
              ⟨nr.Key, nr.Value, nr.Color, some pa, none, nr.Right⟩).write pa
              ⟨npa.Key, npa.Value, npa.Color, npa.Parent, npa.Left, some r⟩).write r
              ⟨nr.Key, nr.Value, nr.Color, some pa, some x, nr.Right⟩).write x
              ⟨n.Key, n.Value, n.Color, some r, n.Left, none⟩) (some r) (some pa)
              (.node (.node A n.Color n.Key n.Value RL) nr.Color nr.Key nr.Value RR)
              ((psA ++ x :: psRL) ++ r :: psRR) := by
            refine rotL_newsub EA ERL ERR ndRL (by simp [hrlE]) (by simp [drx]) ?_ ?_ ?_ ?_
            · intro y hy
              have h1 : (y = x) = False := by simp; intro e; exact dxA (e ▸ hy)
              have h2 : (y = r) = False := by simp; intro e; exact drA (e ▸ hy)
              have h4 : (y = pa) = False := by simp; intro e; exact dAC y hy (e ▸ hpaC)
              simp [h1, h2, h4]
            · intro y hy
              have h1 : (y = x) = False := by simp; intro e; exact dxRR (e ▸ hy)
              have h2 : (y = r) = False := by simp; intro e; exact drRR (e ▸ hy)
              have h4 : (y = pa) = False := by simp; intro e; exact dRRC y hy (e ▸ hpaC)
              simp [h1, h2, h4]
            · intro y hy _
              have h1 : (y = x) = False := by simp; intro e; exact dxRL (e ▸ hy)
              have h2 : (y = r) = False := by simp; intro e; exact drRL (e ▸ hy)
              have h4 : (y = pa) = False := by simp; intro e; exact dRLC y hy (e ▸ hpaC)
              simp [h1, h2, h4]
            · intro rl2 m2 hc; rw [hrlE] at hc; cases hc
          have H0w : HExtr (((((h.write x ⟨n.Key, n.Value, n.Color, some pa, n.Left, none⟩).write r
              ⟨nr.Key, nr.Value, nr.Color, some pa, none, nr.Right⟩).write pa
              ⟨npa.Key, npa.Value, npa.Color, npa.Parent, npa.Left, some r⟩).write r
              ⟨nr.Key, nr.Value, nr.Color, some pa, some x, nr.Right⟩).write x
              ⟨n.Key, n.Value, n.Color, some r, n.Left, none⟩) root none rest (some pa) pe0 :=
            ((((H0.hwrite_out hxRest _).hwrite_out hrRest _).hwrite_out
              hpaRest2 _).hwrite_out hrRest _).hwrite_out hxRest _
          have ELf6 : Extr (((((h.write x ⟨n.Key, n.Value, n.Color, some pa, n.Left, none⟩).write r
              ⟨nr.Key, nr.Value, nr.Color, some pa, none, nr.Right⟩).write pa
              ⟨npa.Key, npa.Value, npa.Color, npa.Parent, npa.Left, some r⟩).write r
              ⟨nr.Key, nr.Value, nr.Color, some pa, some x, nr.Right⟩).write x
              ⟨n.Key, n.Value, n.Color, some r, n.Left, none⟩) npa.Left (some pa) Lf pslf :=
            ELf.congr (fun y hy => by
              obtain ⟨e1, e2, e3⟩ := hagLf y hy
              simp [write_mem, e1, e2, e3])
          have H6 : HExtr (((((h.write x ⟨n.Key, n.Value, n.Color, some pa, n.Left, none⟩).write r
              ⟨nr.Key, nr.Value, nr.Color, some pa, none, nr.Right⟩).write pa
              ⟨npa.Key, npa.Value, npa.Color, npa.Parent, npa.Left, some r⟩).write r
              ⟨nr.Key, nr.Value, nr.Color, some pa, some x, nr.Right⟩).write x
              ⟨n.Key, n.Value, n.Color, some r, n.Left, none⟩) root none
              (Hole.r pa ⟨npa.Key, npa.Value, npa.Color, npa.Parent, npa.Left, some r⟩
                Lf pslf :: rest) (some r) (some pa) := by
            refine HExtr.right rest pa pe0 _ Lf pslf H0w ?_ hpap ELf6
            simp [write_mem, dpax, dpar, Ne.symm dpax, Ne.symm dpar]
          have := H6.compose Esub
          simpa [plugT, plugPs] using this
        · simp
        · simp [hrlE]
        · simp [drx]
        · intro y hyx2 hyr hyrl hype
          have h4 : (y = pa) = False := by simp; intro e; exact hype (by rw [e])
          simp [write_mem, hyx2, hyr, h4]
      | some rl =>
        have hrlRL : rl ∈ psRL := by rw [hrlE] at ERL; exact ERL.root_mem
        have drlx : rl ≠ x := fun e => dxRL (e ▸ hrlRL)
        have drlr : rl ≠ r := fun e => drRL (e ▸ hrlRL)
        have drlpa : rl ≠ pa := fun e => dRLC rl hrlRL (e ▸ hpaC)
        have hrlRest : rl ∉ ctxPtrs rest := fun hc => dRLC rl hrlRL (hsub rl (by simp [hc]))
        obtain ⟨m, hmrl⟩ := by
          rw [hrlE] at ERL; exact ERL.mem_some rl (by simpa using ERL.root_mem)
        refine ⟨(((((h.write x ⟨n.Key, n.Value, n.Color, some pa, n.Left, some rl⟩).write rl
              ⟨m.Key, m.Value, m.Color, some x, m.Left, m.Right⟩).write r
              ⟨nr.Key, nr.Value, nr.Color, some pa, nr.Left, nr.Right⟩).write pa
              ⟨npa.Key, npa.Value, npa.Color, npa.Parent, npa.Left, some r⟩).write r
              ⟨nr.Key, nr.Value, nr.Color, some pa, some x, nr.Right⟩).write x
              ⟨n.Key, n.Value, n.Color, some r, n.Left, some rl⟩, root, ?_, ?_, ?_, ?_, ?_, ?_⟩
        · simp [Tree.rotateLeft, getN, deref, setL, setR, setP, hmx, hmr, hxr, hrlE, hnp,
            dxr, drx, dpax, dpar, Ne.symm dpax, Ne.symm dpar, hmpa, hpaLne,
            drlx, drlr, drlpa, Ne.symm drlx, Ne.symm drlr, Ne.symm drlpa, hmrl]
        · have Esub : Extr ((((((h.write x ⟨n.Key, n.Value, n.Color, some pa, n.Left, some rl⟩).write rl
              ⟨m.Key, m.Value, m.Color, some x, m.Left, m.Right⟩).write r
              ⟨nr.Key, nr.Value, nr.Color, some pa, nr.Left, nr.Right⟩).write pa
              ⟨npa.Key, npa.Value, npa.Color, npa.Parent, npa.Left, some r⟩).write r
              ⟨nr.Key, nr.Value, nr.Color, some pa, some x, nr.Right⟩).write x
              ⟨n.Key, n.Value, n.Color, some r, n.Left, some rl⟩) (some r) (some pa)
              (.node (.node A n.Color n.Key n.Value RL) nr.Color nr.Key nr.Value RR)
              ((psA ++ x :: psRL) ++ r :: psRR) := by
            refine rotL_newsub EA ERL ERR ndRL (by simp [hrlE]) (by simp [drx]) ?_ ?_ ?_ ?_
            · intro y hy
              have h1 : (y = x) = False := by simp; intro e; exact dxA (e ▸ hy)
              have h2 : (y = r) = False := by simp; intro e; exact drA (e ▸ hy)
              have h3 : (y = rl) = False := by simp; intro e; exact dRLA rl hrlRL (e ▸ hy)
              have h4 : (y = pa) = False := by simp; intro e; exact dAC y hy (e ▸ hpaC)
              simp [h1, h2, h3, h4]
            · intro y hy
              have h1 : (y = x) = False := by simp; intro e; exact dxRR (e ▸ hy)
              have h2 : (y = r) = False := by simp; intro e; exact drRR (e ▸ hy)
              have h3 : (y = rl) = False := by simp; intro e; exact dRRRL rl (e ▸ hy) hrlRL
              have h4 : (y = pa) = False := by simp; intro e; exact dRRC y hy (e ▸ hpaC)
              simp [h1, h2, h3, h4]
            · intro y hy hne
              have h1 : (y = x) = False := by simp; intro e; exact dxRL (e ▸ hy)
              have h2 : (y = r) = False := by simp; intro e; exact drRL (e ▸ hy)
              have h3 : (y = rl) = False := by
                simp; intro e; rw [hrlE] at hne; exact hne (by rw [e])
              have h4 : (y = pa) = False := by simp; intro e; exact dRLC y hy (e ▸ hpaC)
              simp [h1, h2, h3, h4]
            · intro rl2 m2 hc hm2
              rw [hrlE] at hc
              cases hc
              rw [hmrl] at hm2
              cases hm2
              simp [drlx, drlr, drlpa]
          have H0w : HExtr ((((((h.write x ⟨n.Key, n.Value, n.Color, some pa, n.Left, some rl⟩).write rl
              ⟨m.Key, m.Value, m.Color, some x, m.Left, m.Right⟩).write r
              ⟨nr.Key, nr.Value, nr.Color, some pa, nr.Left, nr.Right⟩).write pa
              ⟨npa.Key, npa.Value, npa.Color, npa.Parent, npa.Left, some r⟩).write r
              ⟨nr.Key, nr.Value, nr.Color, some pa, some x, nr.Right⟩).write x
              ⟨n.Key, n.Value, n.Color, some r, n.Left, some rl⟩) root none rest (some pa) pe0 :=
            (((((H0.hwrite_out hxRest _).hwrite_out hrlRest _).hwrite_out hrRest _).hwrite_out
              hpaRest2 _).hwrite_out hrRest _).hwrite_out hxRest _
          have ELf6 : Extr ((((((h.write x ⟨n.Key, n.Value, n.Color, some pa, n.Left, some rl⟩).write rl
              ⟨m.Key, m.Value, m.Color, some x, m.Left, m.Right⟩).write r
              ⟨nr.Key, nr.Value, nr.Color, some pa, nr.Left, nr.Right⟩).write pa
              ⟨npa.Key, npa.Value, npa.Color, npa.Parent, npa.Left, some r⟩).write r
              ⟨nr.Key, nr.Value, nr.Color, some pa, some x, nr.Right⟩).write x
              ⟨n.Key, n.Value, n.Color, some r, n.Left, some rl⟩) npa.Left (some pa) Lf pslf :=
            ELf.congr (fun y hy => by
              obtain ⟨e1, e2, e3⟩ := hagLf y hy
              have h3 : (y = rl) = False := by
                simp; intro e; exact dRLC rl hrlRL (hsub rl (by simp [e ▸ hy]))
              simp [write_mem, e1, e2, e3, h3])
          have H6 : HExtr ((((((h.write x ⟨n.Key, n.Value, n.Color, some pa, n.Left, some rl⟩).write rl
              ⟨m.Key, m.Value, m.Color, some x, m.Left, m.Right⟩).write r
              ⟨nr.Key, nr.Value, nr.Color, some pa, nr.Left, nr.Right⟩).write pa
              ⟨npa.Key, npa.Value, npa.Color, npa.Parent, npa.Left, some r⟩).write r
              ⟨nr.Key, nr.Value, nr.Color, some pa, some x, nr.Right⟩).write x
              ⟨n.Key, n.Value, n.Color, some r, n.Left, some rl⟩) root none
              (Hole.r pa ⟨npa.Key, npa.Value, npa.Color, npa.Parent, npa.Left, some r⟩
                Lf pslf :: rest) (some r) (some pa) := by
            refine HExtr.right rest pa pe0 _ Lf pslf H0w ?_ hpap ELf6
            simp [write_mem, dpax, dpar, Ne.symm dpax, Ne.symm dpar]
          have := H6.compose Esub
          simpa [plugT, plugPs] using this
        · simp
        · simp [hrlE]
        · simp [drx]
        · intro y hyx2 hyr hyrl hype
          have h3 : (y = rl) = False := by simp; intro e; exact hyrl (by rw [e])
          have h4 : (y = pa) = False := by simp; intro e; exact hype (by rw [e])
          simp [write_mem, hyx2, hyr, h3, h4]



/-- Rebuild the subtree extraction after a right rotation at x (with left
child lf), from pointwise facts about the new heap. -/
theorem rotR_newsub {h h6 : Heap V} {x lf : Ptr} {pe : Option Ptr} {n nl : Node V}
    {B : BT V} {psB : List Ptr} {LL : BT V} {psLL : List Ptr} {LR : BT V} {psLR : List Ptr}
    (EB : Extr h n.Right (some x) B psB)
    (ELR : Extr h nl.Right (some lf) LR psLR)
    (ELL : Extr h nl.Left (some lf) LL psLL)
    (ndLR : psLR.Nodup)
    (hm6x : h6.mem x = some ⟨n.Key, n.Value, n.Color, some lf, nl.Right, n.Right⟩)
    (hm6l : h6.mem lf = some ⟨nl.Key, nl.Value, nl.Color, pe, nl.Left, some x⟩)
    (hagB : ∀ y ∈ psB, h6.mem y = h.mem y)
    (hagLL : ∀ y ∈ psLL, h6.mem y = h.mem y)
    (hagLR : ∀ y ∈ psLR, nl.Right ≠ some y → h6.mem y = h.mem y)
    (hlr6 : ∀ lr m, nl.Right = some lr → h.mem lr = some m →
      h6.mem lr = some ⟨m.Key, m.Value, m.Color, some x, m.Left, m.Right⟩) :
    Extr h6 (some lf) pe
      (.node LL nl.Color nl.Key nl.Value (.node LR n.Color n.Key n.Value B))
      (psLL ++ lf :: (psLR ++ x :: psB)) := by
  have EB6 : Extr h6 n.Right (some x) B psB := EB.congr hagB
  have ELL6 : Extr h6 nl.Left (some lf) LL psLL := ELL.congr hagLL
  have ELR6 : Extr h6 nl.Right (some x) LR psLR := by
    cases hlr : nl.Right with
    | none =>
      rw [hlr] at ELR
      obtain ⟨hT, hps⟩ := ELR.inv_none
      rw [hT, hps]
      exact .nil _
    | some lr =>
      rw [hlr] at ELR
      obtain ⟨m, Lm, pslm, Rm, psrm, hmlr, hmp, hT, hps, EmL, EmR⟩ := ELR.inv_some
      rw [hT, hps]
      have ndin : lr ∉ pslm ∧ lr ∉ psrm := by
        rw [hps] at ndLR
        rw [List.nodup_append] at ndLR
        obtain ⟨_, nd2, disj⟩ := ndLR
        rw [List.nodup_cons] at nd2
        exact ⟨fun hc => disj hc (by simp), nd2.1⟩
      have EmL6 : Extr h6 m.Left (some lr) Lm pslm := EmL.congr (fun y hy => by
        refine hagLR y ?_ ?_
        · rw [hps]; simp [hy]
        · rw [hlr]; intro hc; cases hc; exact ndin.1 hy)
      have EmR6 : Extr h6 m.Right (some lr) Rm psrm := EmR.congr (fun y hy => by
        refine hagLR y ?_ ?_
        · rw [hps]; simp [hy]
        · rw [hlr]; intro hc; cases hc; exact ndin.2 hy)
      exact .node lr (some x) ⟨m.Key, m.Value, m.Color, some x, m.Left, m.Right⟩
        Lm pslm Rm psrm (hlr6 lr m hlr hmlr) rfl EmL6 EmR6
  have Ex6 : Extr h6 (some x) (some lf)
      (.node LR n.Color n.Key n.Value B) (psLR ++ x :: psB) :=
    .node x (some lf) ⟨n.Key, n.Value, n.Color, some lf, nl.Right, n.Right⟩
      LR psLR B psB hm6x rfl ELR6 EB6
  exact .node lf pe ⟨nl.Key, nl.Value, nl.Color, pe, nl.Left, some x⟩
    LL psLL (.node LR n.Color n.Key n.Value B) (psLR ++ x :: psB) hm6l rfl ELL6 Ex6

set_option maxHeartbeats 1600000 in
/-- Effect of rotateRight at a node with a left child (mirror of
rotateLeft_spec). -/
theorem rotateRight_spec {h : Heap V} {root : Option Ptr} (sz : Int)
    {ctx : List (Hole V)} {x lf : Ptr} {pe : Option Ptr} {n nl : Node V}
    {B : BT V} {psB : List Ptr} {LL : BT V} {psLL : List Ptr} {LR : BT V} {psLR : List Ptr}
    (H : HExtr h root none ctx (some x) pe)
    (hmx : h.mem x = some n) (hpx : n.Parent = pe)
    (hxl : n.Left = some lf)
    (EB : Extr h n.Right (some x) B psB)
    (hml : h.mem lf = some nl) (hpl : nl.Parent = some x)
    (ELR : Extr h nl.Right (some lf) LR psLR)
    (ELL : Extr h nl.Left (some lf) LL psLL)
    (ND : (plugPs ctx (psLL ++ lf :: (psLR ++ x :: psB))).Nodup) :
    ∃ h' root',
      Tree.rotateRight ⟨h, root, sz⟩ x = .ok ⟨h', root', sz⟩ ∧
      Extr h' root' none
        (plugT ctx (.node LL nl.Color nl.Key nl.Value (.node LR n.Color n.Key n.Value B)))
        (plugPs ctx (psLL ++ lf :: (psLR ++ x :: psB))) ∧
      h'.next = h.next ∧
      h'.mem x = some ⟨n.Key, n.Value, n.Color, some lf, nl.Right, n.Right⟩ ∧
      h'.mem lf = some ⟨nl.Key, nl.Value, nl.Color, pe, nl.Left, some x⟩ ∧
      (∀ y, y ≠ x → y ≠ lf → nl.Right ≠ some y → pe ≠ some y → h'.mem y = h.mem y) := by
  have ND' : ((psLL ++ lf :: (psLR ++ x :: psB)) ++ ctxPtrs ctx).Nodup :=
    (plugPs_nodup _ _).1 ND
  obtain ⟨dlx, dlLL, dlLR, dlB, dlC, dxLL, dxLR, dxB, dxCc,
    dLLC, dLRC, dBC, dLRLL, dBLL, dBLR⟩ := nodup_shape ND'
  have dxl : x ≠ lf := Ne.symm dlx
  have ndLR : psLR.Nodup := by
    have h1 := ND'
    rw [List.nodup_append] at h1
    have h2 := h1.1
    rw [List.nodup_append] at h2
    have h3 := h2.2.1
    rw [List.nodup_cons] at h3
    have h4 := h3.2
    rw [List.nodup_append] at h4
    exact h4.1
  cases ctx with
  | nil =>
    obtain ⟨hroot, hpe⟩ := H.inv_nil
    subst hpe
    have hnp : n.Parent = none := hpx
    cases hlrE : nl.Right with
    | none =>
      refine ⟨(((h.write x ⟨n.Key, n.Value, n.Color, none, none, n.Right⟩).write lf
          ⟨nl.Key, nl.Value, nl.Color, none, nl.Left, none⟩).write lf
          ⟨nl.Key, nl.Value, nl.Color, none, nl.Left, some x⟩).write x
          ⟨n.Key, n.Value, n.Color, some lf, none, n.Right⟩, some lf, ?_, ?_, ?_, ?_, ?_, ?_⟩
      · simp [Tree.rotateRight, getN, deref, setL, setR, setP, hmx, hml, hxl, hlrE, hnp,
          dlx, dxl]
      · simp only [plugT, plugPs]
        refine rotR_newsub EB ELR ELL ndLR ?_ ?_ ?_ ?_ ?_ ?_
        · simp [hlrE]
        · simp [dlx]
        · intro y hy
          have h1 : (y = x) = False := by simp; intro e; exact dxB (e ▸ hy)
          have h2 : (y = lf) = False := by simp; intro e; exact dlB (e ▸ hy)
          simp [h1, h2]
        · intro y hy
          have h1 : (y = x) = False := by simp; intro e; exact dxLL (e ▸ hy)
          have h2 : (y = lf) = False := by simp; intro e; exact dlLL (e ▸ hy)
          simp [h1, h2]
        · intro y hy _
          have h1 : (y = x) = False := by simp; intro e; exact dxLR (e ▸ hy)
          have h2 : (y = lf) = False := by simp; intro e; exact dlLR (e ▸ hy)
          simp [h1, h2]
        · intro lr m hc; rw [hlrE] at hc; cases hc
      · simp
      · simp [hlrE]
      · simp [dlx]
      · intro y hyx2 hyl hylr hype
        simp [write_mem, hyx2, hyl]
    | some lr =>
      have hlrLR : lr ∈ psLR := by
        rw [hlrE] at ELR; exact ELR.root_mem
      have dlrx : lr ≠ x := fun e => dxLR (e ▸ hlrLR)
      have dlrl : lr ≠ lf := fun e => dlLR (e ▸ hlrLR)
      obtain ⟨m, hmlr⟩ := by
        rw [hlrE] at ELR; exact ELR.mem_some lr (by simpa using ELR.root_mem)
      refine ⟨((((h.write x ⟨n.Key, n.Value, n.Color, none, some lr, n.Right⟩).write lr
          ⟨m.Key, m.Value, m.Color, some x, m.Left, m.Right⟩).write lf
          ⟨nl.Key, nl.Value, nl.Color, none, nl.Left, nl.Right⟩).write lf
          ⟨nl.Key, nl.Value, nl.Color, none, nl.Left, some x⟩).write x
          ⟨n.Key, n.Value, n.Color, some lf, some lr, n.Right⟩, some lf, ?_, ?_, ?_, ?_, ?_, ?_⟩
      · simp [Tree.rotateRight, getN, deref, setL, setR, setP, hmx, hml, hxl, hlrE, hnp,
          dlx, dxl, dlrx, dlrl, hmlr, Ne.symm dlrx, Ne.symm dlrl]
      · simp only [plugT, plugPs]
        refine rotR_newsub EB ELR ELL ndLR ?_ ?_ ?_ ?_ ?_ ?_
        · simp [hlrE]
        · simp [dlx]
        · intro y hy
          have h1 : (y = x) = False := by simp; intro e; exact dxB (e ▸ hy)
          have h2 : (y = lf) = False := by simp; intro e; exact dlB (e ▸ hy)
          have h3 : (y = lr) = False := by
            simp; intro e; exact dBLR lr (e ▸ hy) hlrLR
          simp [h1, h2, h3]
        · intro y hy
          have h1 : (y = x) = False := by simp; intro e; exact dxLL (e ▸ hy)
          have h2 : (y = lf) = False := by simp; intro e; exact dlLL (e ▸ hy)
          have h3 : (y = lr) = False := by
            simp; intro e; exact dLRLL lr hlrLR (e ▸ hy)
          simp [h1, h2, h3]
        · intro y hy hne
          have h1 : (y = x) = False := by simp; intro e; exact dxLR (e ▸ hy)
          have h2 : (y = lf) = False := by simp; intro e; exact dlLR (e ▸ hy)
          have h3 : (y = lr) = False := by
            simp; intro e; rw [hlrE] at hne; exact hne (by rw [e])
          simp [h1, h2, h3]
        · intro lr2 m2 hc hm2
          rw [hlrE] at hc
          cases hc
          rw [hmlr] at hm2
          cases hm2
          simp [dlrx, dlrl]
      · simp
      · simp [hlrE]
      · simp [dlx]
      · intro y hyx2 hyl hylr hype
        have h3 : (y = lr) = False := by
          simp; intro e; exact hylr (by rw [e])
        simp [write_mem, hyx2, hyl, h3]
  | cons fr rest =>
    rcases H.inv_cons with ⟨pa, npa, Rf, psrf, pe0, hfr, hr0, hpeE, hmpa, hpap, ERf, H0⟩ |
      ⟨pa, npa, Lf, pslf, pe0, hfr, hr0, hpeE, hmpa, hpap, ELf, H0⟩
    · subst hfr; subst hpeE
      have hpaC : pa ∈ ctxPtrs (Hole.l pa npa Rf psrf :: rest) := by simp [ctxPtrs]
      have dpax : pa ≠ x := fun e => dxCc (e ▸ hpaC)
      have dpal : pa ≠ lf := fun e => dlC (e ▸ hpaC)
      have hpaRest : pa ∉ psrf ++ ctxPtrs rest := by
        have h5 : (ctxPtrs (Hole.l pa npa Rf psrf :: rest)).Nodup := by
          rw [List.nodup_append] at ND'; exact ND'.2.1
        simp only [ctxPtrs, List.cons_append, List.nodup_cons] at h5
        exact h5.1
      have hsub : ∀ z, z ∈ psrf ++ ctxPtrs rest →
          z ∈ ctxPtrs (Hole.l pa npa Rf psrf :: rest) := fun z hz => by
        simp only [ctxPtrs, List.cons_append, List.mem_cons]
        exact Or.inr hz
      have hxRest : x ∉ ctxPtrs rest := fun hc => dxCc (hsub x (by simp [hc]))
      have hlRest : lf ∉ ctxPtrs rest := fun hc => dlC (hsub lf (by simp [hc]))
      have hpaRest2 : pa ∉ ctxPtrs rest := fun hc => hpaRest (by simp [hc])
      have hagRf : ∀ y ∈ psrf, y ≠ x ∧ y ≠ lf ∧ y ≠ pa := fun y hy =>
        ⟨fun e => dxCc (e ▸ hsub y (by simp [hy])),
         fun e => dlC (e ▸ hsub y (by simp [hy])),
         fun e => hpaRest (by simp [e ▸ hy])⟩
      have hnp : n.Parent = some pa := hpx
      have hpaL : npa.Left = some x := hr0.symm
      have hpaRne : ¬ (npa.Right = some x) := fun hc => by
        rw [hc] at ERf
        exact dxCc (hsub x (by simp [ERf.root_mem]))
      cases hlrE : nl.Right with
      | none =>
        refine ⟨((((h.write x ⟨n.Key, n.Value, n.Color, some pa, none, n.Right⟩).write lf
            ⟨nl.Key, nl.Value, nl.Color, some pa, nl.Left, none⟩).write pa
            ⟨npa.Key, npa.Value, npa.Color, npa.Parent, some lf, npa.Right⟩).write lf
            ⟨nl.Key, nl.Value, nl.Color, some pa, nl.Left, some x⟩).write x
            ⟨n.Key, n.Value, n.Color, some lf, none, n.Right⟩, root, ?_, ?_, ?_, ?_, ?_, ?_⟩
        · simp [Tree.rotateRight, getN, deref, setL, setR, setP, hmx, hml, hxl, hlrE, hnp,
            dlx, dxl, dpax, dpal, Ne.symm dpax, Ne.symm dpal, hmpa, hpaRne]
        · have Esub : Extr (((((h.write x ⟨n.Key, n.Value, n.Color, some pa, none,
              n.Right⟩).write lf ⟨nl.Key, nl.Value, nl.Color, some pa, nl.Left,
              none⟩).write pa ⟨npa.Key, npa.Value, npa.Color, npa.Parent, some lf,
              npa.Right⟩).write lf ⟨nl.Key, nl.Value, nl.Color, some pa, nl.Left,
              some x⟩).write x ⟨n.Key, n.Value, n.Color, some lf, none, n.Right⟩)
              (some lf) (some pa)
              (.node LL nl.Color nl.Key nl.Value (.node LR n.Color n.Key n.Value B))
              (psLL ++ lf :: (psLR ++ x :: psB)) := by
            refine rotR_newsub EB ELR ELL ndLR (by simp [hlrE]) (by simp [dlx]) ?_ ?_ ?_ ?_
            · intro y hy
              have h1 : (y = x) = False := by simp; intro e; exact dxB (e ▸ hy)
              have h2 : (y = lf) = False := by simp; intro e; exact dlB (e ▸ hy)
              have h4 : (y = pa) = False := by simp; intro e; exact dBC y hy (e ▸ hpaC)
              simp [h1, h2, h4]
            · intro y hy
              have h1 : (y = x) = False := by simp; intro e; exact dxLL (e ▸ hy)
              have h2 : (y = lf) = False := by simp; intro e; exact dlLL (e ▸ hy)
              have h4 : (y = pa) = False := by simp; intro e; exact dLLC y hy (e ▸ hpaC)
              simp [h1, h2, h4]
            · intro y hy _
              have h1 : (y = x) = False := by simp; intro e; exact dxLR (e ▸ hy)
              have h2 : (y = lf) = False := by simp; intro e; exact dlLR (e ▸ hy)
              have h4 : (y = pa) = False := by simp; intro e; exact dLRC y hy (e ▸ hpaC)
              simp [h1, h2, h4]
            · intro lr2 m2 hc; rw [hlrE] at hc; cases hc
          have H0w : HExtr (((((h.write x ⟨n.Key, n.Value, n.Color, some pa, none,
              n.Right⟩).write lf ⟨nl.Key, nl.Value, nl.Color, some pa, nl.Left,
              none⟩).write pa ⟨npa.Key, npa.Value, npa.Color, npa.Parent, some lf,
              npa.Right⟩).write lf ⟨nl.Key, nl.Value, nl.Color, some pa, nl.Left,
              some x⟩).write x ⟨n.Key, n.Value, n.Color, some lf, none, n.Right⟩)
              root none rest (some pa) pe0 :=
            ((((H0.hwrite_out hxRest _).hwrite_out hlRest _).hwrite_out
              hpaRest2 _).hwrite_out hlRest _).hwrite_out hxRest _
          have ERf6 : Extr (((((h.write x ⟨n.Key, n.Value, n.Color, some pa, none,
              n.Right⟩).write lf ⟨nl.Key, nl.Value, nl.Color, some pa, nl.Left,
              none⟩).write pa ⟨npa.Key, npa.Value, npa.Color, npa.Parent, some lf,
              npa.Right⟩).write lf ⟨nl.Key, nl.Value, nl.Color, some pa, nl.Left,
              some x⟩).write x ⟨n.Key, n.Value, n.Color, some lf, none, n.Right⟩)
              npa.Right (some pa) Rf psrf :=
            ERf.congr (fun y hy => by
              obtain ⟨e1, e2, e3⟩ := hagRf y hy
              simp [write_mem, e1, e2, e3])
          have H6 : HExtr (((((h.write x ⟨n.Key, n.Value, n.Color, some pa, none,
              n.Right⟩).write lf ⟨nl.Key, nl.Value, nl.Color, some pa, nl.Left,
              none⟩).write pa ⟨npa.Key, npa.Value, npa.Color, npa.Parent, some lf,
              npa.Right⟩).write lf ⟨nl.Key, nl.Value, nl.Color, some pa, nl.Left,
              some x⟩).write x ⟨n.Key, n.Value, n.Color, some lf, none, n.Right⟩)
              root none
              (Hole.l pa ⟨npa.Key, npa.Value, npa.Color, npa.Parent, some lf, npa.Right⟩
                Rf psrf :: rest) (some lf) (some pa) := by
            refine HExtr.left rest pa pe0 _ Rf psrf H0w ?_ hpap ERf6
            simp [write_mem, dpax, dpal, Ne.symm dpax, Ne.symm dpal]
          have := H6.compose Esub
          simpa [plugT, plugPs] using this
        · simp
        · simp [hlrE]
        · simp [dlx]
        · intro y hyx2 hyl hylr hype
          have h4 : (y = pa) = False := by simp; intro e; exact hype (by rw [e])
          simp [write_mem, hyx2, hyl, h4]
      | some lr =>
        have hlrLR : lr ∈ psLR := by rw [hlrE] at ELR; exact ELR.root_mem
        have dlrx : lr ≠ x := fun e => dxLR (e ▸ hlrLR)
        have dlrl : lr ≠ lf := fun e => dlLR (e ▸ hlrLR)
        have dlrpa : lr ≠ pa := fun e => dLRC lr hlrLR (e ▸ hpaC)
        have hlrRest : lr ∉ ctxPtrs rest := fun hc => dLRC lr hlrLR (hsub lr (by simp [hc]))
        obtain ⟨m, hmlr⟩ := by
          rw [hlrE] at ELR; exact ELR.mem_some lr (by simpa using ELR.root_mem)
        refine ⟨(((((h.write x ⟨n.Key, n.Value, n.Color, some pa, some lr, n.Right⟩).write lr
            ⟨m.Key, m.Value, m.Color, some x, m.Left, m.Right⟩).write lf
            ⟨nl.Key, nl.Value, nl.Color, some pa, nl.Left, nl.Right⟩).write pa
            ⟨npa.Key, npa.Value, npa.Color, npa.Parent, some lf, npa.Right⟩).write lf
            ⟨nl.Key, nl.Value, nl.Color, some pa, nl.Left, some x⟩).write x
            ⟨n.Key, n.Value, n.Color, some lf, some lr, n.Right⟩, root, ?_, ?_, ?_, ?_, ?_, ?_⟩
        · simp [Tree.rotateRight, getN, deref, setL, setR, setP, hmx, hml, hxl, hlrE, hnp,
            dlx, dxl, dpax, dpal, Ne.symm dpax, Ne.symm dpal, hmpa, hpaRne,
            dlrx, dlrl, dlrpa, Ne.symm dlrx, Ne.symm dlrl, Ne.symm dlrpa, hmlr]
        · have Esub : Extr ((((((h.write x ⟨n.Key, n.Value, n.Color, some pa, some lr,
              n.Right⟩).write lr ⟨m.Key, m.Value, m.Color, some x, m.Left, m.Right⟩).write lf
              ⟨nl.Key, nl.Value, nl.Color, some pa, nl.Left, nl.Right⟩).write pa
              ⟨npa.Key, npa.Value, npa.Color, npa.Parent, some lf, npa.Right⟩).write lf
              ⟨nl.Key, nl.Value, nl.Color, some pa, nl.Left, some x⟩).write x
              ⟨n.Key, n.Value, n.Color, some lf, some lr, n.Right⟩)
              (some lf) (some pa)
              (.node LL nl.Color nl.Key nl.Value (.node LR n.Color n.Key n.Value B))
              (psLL ++ lf :: (psLR ++ x :: psB)) := by
            refine rotR_newsub EB ELR ELL ndLR (by simp [hlrE]) (by simp [dlx]) ?_ ?_ ?_ ?_
            · intro y hy
              have h1 : (y = x) = False := by simp; intro e; exact dxB (e ▸ hy)
              have h2 : (y = lf) = False := by simp; intro e; exact dlB (e ▸ hy)
              have h3 : (y = lr) = False := by simp; intro e; exact dBLR lr (e ▸ hy) hlrLR
              have h4 : (y = pa) = False := by simp; intro e; exact dBC y hy (e ▸ hpaC)
              simp [h1, h2, h3, h4]
            · intro y hy
              have h1 : (y = x) = False := by simp; intro e; exact dxLL (e ▸ hy)
              have h2 : (y = lf) = False := by simp; intro e; exact dlLL (e ▸ hy)
              have h3 : (y = lr) = False := by simp; intro e; exact dLRLL lr hlrLR (e ▸ hy)
              have h4 : (y = pa) = False := by simp; intro e; exact dLLC y hy (e ▸ hpaC)
              simp [h1, h2, h3, h4]
            · intro y hy hne
              have h1 : (y = x) = False := by simp; intro e; exact dxLR (e ▸ hy)
              have h2 : (y = lf) = False := by simp; intro e; exact dlLR (e ▸ hy)
              have h3 : (y = lr) = False := by
                simp; intro e; rw [hlrE] at hne; exact hne (by rw [e])
              have h4 : (y = pa) = False := by simp; intro e; exact dLRC y hy (e ▸ hpaC)
              simp [h1, h2, h3, h4]
            · intro lr2 m2 hc hm2
              rw [hlrE] at hc
              cases hc
              rw [hmlr] at hm2
              cases hm2
              simp [dlrx, dlrl, dlrpa]
          have H0w : HExtr ((((((h.write x ⟨n.Key, n.Value, n.Color, some pa, some lr,
              n.Right⟩).write lr ⟨m.Key, m.Value, m.Color, some x, m.Left, m.Right⟩).write lf
              ⟨nl.Key, nl.Value, nl.Color, some pa, nl.Left, nl.Right⟩).write pa
              ⟨npa.Key, npa.Value, npa.Color, npa.Parent, some lf, npa.Right⟩).write lf
              ⟨nl.Key, nl.Value, nl.Color, some pa, nl.Left, some x⟩).write x
              ⟨n.Key, n.Value, n.Color, some lf, some lr, n.Right⟩)
              root none rest (some pa) pe0 :=
            (((((H0.hwrite_out hxRest _).hwrite_out hlrRest _).hwrite_out hlRest _).hwrite_out
              hpaRest2 _).hwrite_out hlRest _).hwrite_out hxRest _
          have ERf6 : Extr ((((((h.write x ⟨n.Key, n.Value, n.Color, some pa, some lr,
              n.Right⟩).write lr ⟨m.Key, m.Value, m.Color, some x, m.Left, m.Right⟩).write lf
              ⟨nl.Key, nl.Value, nl.Color, some pa, nl.Left, nl.Right⟩).write pa
              ⟨npa.Key, npa.Value, npa.Color, npa.Parent, some lf, npa.Right⟩).write lf
              ⟨nl.Key, nl.Value, nl.Color, some pa, nl.Left, some x⟩).write x
              ⟨n.Key, n.Value, n.Color, some lf, some lr, n.Right⟩)
              npa.Right (some pa) Rf psrf :=
            ERf.congr (fun y hy => by
              obtain ⟨e1, e2, e3⟩ := hagRf y hy
              have h3 : (y = lr) = False := by
                simp; intro e; exact dLRC lr hlrLR (hsub lr (by simp [e ▸ hy]))
              simp [write_mem, e1, e2, e3, h3])
          have H6 : HExtr ((((((h.write x ⟨n.Key, n.Value, n.Color, some pa, some lr,
              n.Right⟩).write lr ⟨m.Key, m.Value, m.Color, some x, m.Left, m.Right⟩).write lf
              ⟨nl.Key, nl.Value, nl.Color, some pa, nl.Left, nl.Right⟩).write pa
              ⟨npa.Key, npa.Value, npa.Color, npa.Parent, some lf, npa.Right⟩).write lf
              ⟨nl.Key, nl.Value, nl.Color, some pa, nl.Left, some x⟩).write x
              ⟨n.Key, n.Value, n.Color, some lf, some lr, n.Right⟩)
              root none
              (Hole.l pa ⟨npa.Key, npa.Value, npa.Color, npa.Parent, some lf, npa.Right⟩
                Rf psrf :: rest) (some lf) (some pa) := by
            refine HExtr.left rest pa pe0 _ Rf psrf H0w ?_ hpap ERf6
            simp [write_mem, dpax, dpal, Ne.symm dpax, Ne.symm dpal]
          have := H6.compose Esub
          simpa [plugT, plugPs] using this
        · simp
        · simp [hlrE]
        · simp [dlx]
        · intro y hyx2 hyl hylr hype
          have h3 : (y = lr) = False := by simp; intro e; exact hylr (by rw [e])
          have h4 : (y = pa) = False := by simp; intro e; exact hype (by rw [e])
          simp [write_mem, hyx2, hyl, h3, h4]
    · subst hfr; subst hpeE
      have hpaC : pa ∈ ctxPtrs (Hole.r pa npa Lf pslf :: rest) := by simp [ctxPtrs]
      have dpax : pa ≠ x := fun e => dxCc (e ▸ hpaC)
      have dpal : pa ≠ lf := fun e => dlC (e ▸ hpaC)
      have hpaRest : pa ∉ pslf ++ ctxPtrs rest := by
        have h5 : (ctxPtrs (Hole.r pa npa Lf pslf :: rest)).Nodup := by
          rw [List.nodup_append] at ND'; exact ND'.2.1
        simp only [ctxPtrs, List.cons_append, List.nodup_cons] at h5
        exact h5.1
      have hsub : ∀ z, z ∈ pslf ++ ctxPtrs rest →
          z ∈ ctxPtrs (Hole.r pa npa Lf pslf :: rest) := fun z hz => by
        simp only [ctxPtrs, List.cons_append, List.mem_cons]
        exact Or.inr hz
      have hxRest : x ∉ ctxPtrs rest := fun hc => dxCc (hsub x (by simp [hc]))
      have hlRest : lf ∉ ctxPtrs rest := fun hc => dlC (hsub lf (by simp [hc]))
      have hpaRest2 : pa ∉ ctxPtrs rest := fun hc => hpaRest (by simp [hc])
      have hagLf : ∀ y ∈ pslf, y ≠ x ∧ y ≠ lf ∧ y ≠ pa := fun y hy =>
        ⟨fun e => dxCc (e ▸ hsub y (by simp [hy])),
         fun e => dlC (e ▸ hsub y (by simp [hy])),
         fun e => hpaRest (by simp [e ▸ hy])⟩
      have hnp : n.Parent = some pa := hpx
      have hpaR : npa.Right = some x := hr0.symm
      cases hlrE : nl.Right with
      | none =>
        refine ⟨((((h.write x ⟨n.Key, n.Value, n.Color, some pa, none, n.Right⟩).write lf
            ⟨nl.Key, nl.Value, nl.Color, some pa, nl.Left, none⟩).write pa
            ⟨npa.Key, npa.Value, npa.Color, npa.Parent, npa.Left, some lf⟩).write lf
            ⟨nl.Key, nl.Value, nl.Color, some pa, nl.Left, some x⟩).write x
            ⟨n.Key, n.Value, n.Color, some lf, none, n.Right⟩, root, ?_, ?_, ?_, ?_, ?_, ?_⟩
        · simp [Tree.rotateRight, getN, deref, setL, setR, setP, hmx, hml, hxl, hlrE, hnp,
            dlx, dxl, dpax, dpal, Ne.symm dpax, Ne.symm dpal, hmpa, hpaR]
        · have Esub : Extr (((((h.write x ⟨n.Key, n.Value, n.Color, some pa, none,
              n.Right⟩).write lf ⟨nl.Key, nl.Value, nl.Color, some pa, nl.Left,
              none⟩).write pa ⟨npa.Key, npa.Value, npa.Color, npa.Parent, npa.Left,
              some lf⟩).write lf ⟨nl.Key, nl.Value, nl.Color, some pa, nl.Left,
              some x⟩).write x ⟨n.Key, n.Value, n.Color, some lf, none, n.Right⟩)
              (some lf) (some pa)
              (.node LL nl.Color nl.Key nl.Value (.node LR n.Color n.Key n.Value B))
              (psLL ++ lf :: (psLR ++ x :: psB)) := by
            refine rotR_newsub EB ELR ELL ndLR (by simp [hlrE]) (by simp [dlx]) ?_ ?_ ?_ ?_
            · intro y hy
              have h1 : (y = x) = False := by simp; intro e; exact dxB (e ▸ hy)
              have h2 : (y = lf) = False := by simp; intro e; exact dlB (e ▸ hy)
              have h4 : (y = pa) = False := by simp; intro e; exact dBC y hy (e ▸ hpaC)
              simp [h1, h2, h4]
            · intro y hy
              have h1 : (y = x) = False := by simp; intro e; exact dxLL (e ▸ hy)
              have h2 : (y = lf) = False := by simp; intro e; exact dlLL (e ▸ hy)
              have h4 : (y = pa) = False := by simp; intro e; exact dLLC y hy (e ▸ hpaC)
              simp [h1, h2, h4]
            · intro y hy _
              have h1 : (y = x) = False := by simp; intro e; exact dxLR (e ▸ hy)
              have h2 : (y = lf) = False := by simp; intro e; exact dlLR (e ▸ hy)
              have h4 : (y = pa) = False := by simp; intro e; exact dLRC y hy (e ▸ hpaC)
              simp [h1, h2, h4]
            · intro lr2 m2 hc; rw [hlrE] at hc; cases hc
          have H0w : HExtr (((((h.write x ⟨n.Key, n.Value, n.Color, some pa, none,
              n.Right⟩).write lf ⟨nl.Key, nl.Value, nl.Color, some pa, nl.Left,
              none⟩).write pa ⟨npa.Key, npa.Value, npa.Color, npa.Parent, npa.Left,
              some lf⟩).write lf ⟨nl.Key, nl.Value, nl.Color, some pa, nl.Left,
              some x⟩).write x ⟨n.Key, n.Value, n.Color, some lf, none, n.Right⟩)
              root none rest (some pa) pe0 :=
            ((((H0.hwrite_out hxRest _).hwrite_out hlRest _).hwrite_out
              hpaRest2 _).hwrite_out hlRest _).hwrite_out hxRest _
          have ELf6 : Extr (((((h.write x ⟨n.Key, n.Value, n.Color, some pa, none,
              n.Right⟩).write lf ⟨nl.Key, nl.Value, nl.Color, some pa, nl.Left,
              none⟩).write pa ⟨npa.Key, npa.Value, npa.Color, npa.Parent, npa.Left,
              some lf⟩).write lf ⟨nl.Key, nl.Value, nl.Color, some pa, nl.Left,
              some x⟩).write x ⟨n.Key, n.Value, n.Color, some lf, none, n.Right⟩)
              npa.Left (some pa) Lf pslf :=
            ELf.congr (fun y hy => by
              obtain ⟨e1, e2, e3⟩ := hagLf y hy
              simp [write_mem, e1, e2, e3])
          have H6 : HExtr (((((h.write x ⟨n.Key, n.Value, n.Color, some pa, none,
              n.Right⟩).write lf ⟨nl.Key, nl.Value, nl.Color, some pa, nl.Left,
              none⟩).write pa ⟨npa.Key, npa.Value, npa.Color, npa.Parent, npa.Left,
              some lf⟩).write lf ⟨nl.Key, nl.Value, nl.Color, some pa, nl.Left,
              some x⟩).write x ⟨n.Key, n.Value, n.Color, some lf, none, n.Right⟩)
              root none
              (Hole.r pa ⟨npa.Key, npa.Value, npa.Color, npa.Parent, npa.Left, some lf⟩
                Lf pslf :: rest) (some lf) (some pa) := by
            refine HExtr.right rest pa pe0 _ Lf pslf H0w ?_ hpap ELf6
            simp [write_mem, dpax, dpal, Ne.symm dpax, Ne.symm dpal]
          have := H6.compose Esub
          simpa [plugT, plugPs] using this
        · simp
        · simp [hlrE]
        · simp [dlx]
        · intro y hyx2 hyl hylr hype
          have h4 : (y = pa) = False := by simp; intro e; exact hype (by rw [e])
          simp [write_mem, hyx2, hyl, h4]
      | some lr =>
        have hlrLR : lr ∈ psLR := by rw [hlrE] at ELR; exact ELR.root_mem
        have dlrx : lr ≠ x := fun e => dxLR (e ▸ hlrLR)
        have dlrl : lr ≠ lf := fun e => dlLR (e ▸ hlrLR)
        have dlrpa : lr ≠ pa := fun e => dLRC lr hlrLR (e ▸ hpaC)
        have hlrRest : lr ∉ ctxPtrs rest := fun hc => dLRC lr hlrLR (hsub lr (by simp [hc]))
        obtain ⟨m, hmlr⟩ := by
          rw [hlrE] at ELR; exact ELR.mem_some lr (by simpa using ELR.root_mem)
        refine ⟨(((((h.write x ⟨n.Key, n.Value, n.Color, some pa, some lr, n.Right⟩).write lr
            ⟨m.Key, m.Value, m.Color, some x, m.Left, m.Right⟩).write lf
            ⟨nl.Key, nl.Value, nl.Color, some pa, nl.Left, nl.Right⟩).write pa
            ⟨npa.Key, npa.Value, npa.Color, npa.Parent, npa.Left, some lf⟩).write lf
            ⟨nl.Key, nl.Value, nl.Color, some pa, nl.Left, some x⟩).write x
            ⟨n.Key, n.Value, n.Color, some lf, some lr, n.Right⟩, root, ?_, ?_, ?_, ?_, ?_, ?_⟩
        · simp [Tree.rotateRight, getN, deref, setL, setR, setP, hmx, hml, hxl, hlrE, hnp,
            dlx, dxl, dpax, dpal, Ne.symm dpax, Ne.symm dpal, hmpa, hpaR,
            dlrx, dlrl, dlrpa, Ne.symm dlrx, Ne.symm dlrl, Ne.symm dlrpa, hmlr]
        · have Esub : Extr ((((((h.write x ⟨n.Key, n.Value, n.Color, some pa, some lr,
              n.Right⟩).write lr ⟨m.Key, m.Value, m.Color, some x, m.Left, m.Right⟩).write lf
              ⟨nl.Key, nl.Value, nl.Color, some pa, nl.Left, nl.Right⟩).write pa
              ⟨npa.Key, npa.Value, npa.Color, npa.Parent, npa.Left, some lf⟩).write lf
              ⟨nl.Key, nl.Value, nl.Color, some pa, nl.Left, some x⟩).write x
              ⟨n.Key, n.Value, n.Color, some lf, some lr, n.Right⟩)
              (some lf) (some pa)
              (.node LL nl.Color nl.Key nl.Value (.node LR n.Color n.Key n.Value B))
              (psLL ++ lf :: (psLR ++ x :: psB)) := by
            refine rotR_newsub EB ELR ELL ndLR (by simp [hlrE]) (by simp [dlx]) ?_ ?_ ?_ ?_
            · intro y hy
              have h1 : (y = x) = False := by simp; intro e; exact dxB (e ▸ hy)
              have h2 : (y = lf) = False := by simp; intro e; exact dlB (e ▸ hy)
              have h3 : (y = lr) = False := by simp; intro e; exact dBLR lr (e ▸ hy) hlrLR
              have h4 : (y = pa) = False := by simp; intro e; exact dBC y hy (e ▸ hpaC)
              simp [h1, h2, h3, h4]
            · intro y hy
              have h1 : (y = x) = False := by simp; intro e; exact dxLL (e ▸ hy)
              have h2 : (y = lf) = False := by simp; intro e; exact dlLL (e ▸ hy)
              have h3 : (y = lr) = False := by simp; intro e; exact dLRLL lr hlrLR (e ▸ hy)
              have h4 : (y = pa) = False := by simp; intro e; exact dLLC y hy (e ▸ hpaC)
              simp [h1, h2, h3, h4]
            · intro y hy hne
              have h1 : (y = x) = False := by simp; intro e; exact dxLR (e ▸ hy)
              have h2 : (y = lf) = False := by simp; intro e; exact dlLR (e ▸ hy)
              have h3 : (y = lr) = False := by
                simp; intro e; rw [hlrE] at hne; exact hne (by rw [e])
              have h4 : (y = pa) = False := by simp; intro e; exact dLRC y hy (e ▸ hpaC)
              simp [h1, h2, h3, h4]
            · intro lr2 m2 hc hm2
              rw [hlrE] at hc
              cases hc
              rw [hmlr] at hm2
              cases hm2
              simp [dlrx, dlrl, dlrpa]
          have H0w : HExtr ((((((h.write x ⟨n.Key, n.Value, n.Color, some pa, some lr,
              n.Right⟩).write lr ⟨m.Key, m.Value, m.Color, some x, m.Left, m.Right⟩).write lf
              ⟨nl.Key, nl.Value, nl.Color, some pa, nl.Left, nl.Right⟩).write pa
              ⟨npa.Key, npa.Value, npa.Color, npa.Parent, npa.Left, some lf⟩).write lf
              ⟨nl.Key, nl.Value, nl.Color, some pa, nl.Left, some x⟩).write x
              ⟨n.Key, n.Value, n.Color, some lf, some lr, n.Right⟩)
              root none rest (some pa) pe0 :=
            (((((H0.hwrite_out hxRest _).hwrite_out hlrRest _).hwrite_out hlRest _).hwrite_out
              hpaRest2 _).hwrite_out hlRest _).hwrite_out hxRest _
          have ELf6 : Extr ((((((h.write x ⟨n.Key, n.Value, n.Color, some pa, some lr,
              n.Right⟩).write lr ⟨m.Key, m.Value, m.Color, some x, m.Left, m.Right⟩).write lf
              ⟨nl.Key, nl.Value, nl.Color, some pa, nl.Left, nl.Right⟩).write pa
              ⟨npa.Key, npa.Value, npa.Color, npa.Parent, npa.Left, some lf⟩).write lf
              ⟨nl.Key, nl.Value, nl.Color, some pa, nl.Left, some x⟩).write x
              ⟨n.Key, n.Value, n.Color, some lf, some lr, n.Right⟩)
              npa.Left (some pa) Lf pslf :=
            ELf.congr (fun y hy => by
              obtain ⟨e1, e2, e3⟩ := hagLf y hy
              have h3 : (y = lr) = False := by
                simp; intro e; exact dLRC lr hlrLR (hsub lr (by simp [e ▸ hy]))
              simp [write_mem, e1, e2, e3, h3])
          have H6 : HExtr ((((((h.write x ⟨n.Key, n.Value, n.Color, some pa, some lr,
              n.Right⟩).write lr ⟨m.Key, m.Value, m.Color, some x, m.Left, m.Right⟩).write lf
              ⟨nl.Key, nl.Value, nl.Color, some pa, nl.Left, nl.Right⟩).write pa
              ⟨npa.Key, npa.Value, npa.Color, npa.Parent, npa.Left, some lf⟩).write lf
              ⟨nl.Key, nl.Value, nl.Color, some pa, nl.Left, some x⟩).write x
              ⟨n.Key, n.Value, n.Color, some lf, some lr, n.Right⟩)
              root none
              (Hole.r pa ⟨npa.Key, npa.Value, npa.Color, npa.Parent, npa.Left, some lf⟩
                Lf pslf :: rest) (some lf) (some pa) := by
            refine HExtr.right rest pa pe0 _ Lf pslf H0w ?_ hpap ELf6
            simp [write_mem, dpax, dpal, Ne.symm dpax, Ne.symm dpal]
          have := H6.compose Esub
          simpa [plugT, plugPs] using this
        · simp
        · simp [hlrE]
        · simp [dlx]
        · intro y hyx2 hyl hylr hype
          have h3 : (y = lr) = False := by simp; intro e; exact hylr (by rw [e])
          have h4 : (y = pa) = False := by simp; intro e; exact hype (by rw [e])
          simp [write_mem, hyx2, hyl, h3, h4]


theorem plugT_inorder (ctx : List (Hole V)) (S : BT V) :
    (plugT ctx S).inorder = ctxInL ctx ++ S.inorder ++ ctxInR ctx := by
  induction ctx generalizing S with
  | nil => simp [plugT, ctxInL, ctxInR]
  | cons f ctx ih =>
    cases f with
    | l p n R psr =>
      rw [plugT, ih]
      simp [ctxInL, ctxInR, BT.inorder, List.append_assoc]
    | r p n L psl =>
      rw [plugT, ih]
      simp [ctxInL, ctxInR, BT.inorder, List.append_assoc]

/-- rotateLeft at an in-tree node with a right child: succeeds, keeps the
address list, the in-order sequence, size and the allocation counter. -/
theorem rotateLeft_good {t : Tree V} {T ps p n r}
    (ext : Extr t.heap t.root none T ps) (nd : ps.Nodup)
    (hp : p ∈ ps) (hmp : t.heap.mem p = some n) (hr : n.Right = some r) :
    ∃ t' T', Tree.rotateLeft t p = .ok t' ∧
      Extr t'.heap t'.root none T' ps ∧ T'.inorder = T.inorder ∧
      t'.size = t.size ∧ t'.heap.next = t.heap.next := by
  obtain ⟨ctx, S, ps0, pe, H, Esub, hT, hps⟩ := ext.decompose p hp
  obtain ⟨n', A, psA, R, psr, hm', hpar, hS, hps0, EA, ER⟩ := Esub.inv_some
  rw [hmp] at hm'; cases hm'
  rw [hr] at ER
  obtain ⟨nr, RL, psRL, RR, psRR, hmr, hpr, hR, hpsr, ERL, ERR⟩ := ER.inv_some
  have hps0' : ps0 = psA ++ p :: (psRL ++ r :: psRR) := by rw [hps0, hpsr]
  have ND2 : (plugPs ctx (psA ++ p :: (psRL ++ r :: psRR))).Nodup := by
    rw [← hps0', ← hps]; exact nd
  obtain ⟨h', root', hexec, hextr, hnext, hmx', hmr', hout⟩ :=
    rotateLeft_spec t.size H hmp hpar hr EA hmr hpr ERL ERR ND2
  refine ⟨⟨h', root', t.size⟩,
    plugT ctx (.node (.node A n.Color n.Key n.Value RL) nr.Color nr.Key nr.Value RR),
    ?_, ?_, ?_, rfl, hnext⟩
  · have : (⟨t.heap, t.root, t.size⟩ : Tree V) = t := rfl
    rw [← this]; exact hexec
  · have hlist : (psA ++ p :: psRL) ++ r :: psRR = psA ++ p :: (psRL ++ r :: psRR) := by
      simp [List.append_assoc]
    rw [hlist] at hextr
    rw [hps, hps0']
    exact hextr
  · rw [hT, hS, hR]
    rw [plugT_inorder, plugT_inorder]
    simp [BT.inorder, List.append_assoc]

/-- rotateRight at an in-tree node with a left child (mirror). -/
theorem rotateRight_good {t : Tree V} {T ps p n lf}
    (ext : Extr t.heap t.root none T ps) (nd : ps.Nodup)
    (hp : p ∈ ps) (hmp : t.heap.mem p = some n) (hl : n.Left = some lf) :
    ∃ t' T', Tree.rotateRight t p = .ok t' ∧
      Extr t'.heap t'.root none T' ps ∧ T'.inorder = T.inorder ∧
      t'.size = t.size ∧ t'.heap.next = t.heap.next := by
  obtain ⟨ctx, S, ps0, pe, H, Esub, hT, hps⟩ := ext.decompose p hp
  obtain ⟨n', L, psl, B, psB, hm', hpar, hS, hps0, EL, EB⟩ := Esub.inv_some
  rw [hmp] at hm'; cases hm'
  rw [hl] at EL
  obtain ⟨nl, LL, psLL, LR, psLR, hml, hpl, hL, hpsl, ELL, ELR⟩ := EL.inv_some
  have hps0' : ps0 = psLL ++ lf :: (psLR ++ p :: psB) := by
    rw [hps0, hpsl]; simp [List.append_assoc]
  have ND2 : (plugPs ctx (psLL ++ lf :: (psLR ++ p :: psB))).Nodup := by
    rw [← hps0', ← hps]; exact nd
  obtain ⟨h', root', hexec, hextr, hnext, hmx', hml', hout⟩ :=
    rotateRight_spec t.size H hmp hpar hl EB hml hpl ELR ELL ND2
  refine ⟨⟨h', root', t.size⟩,
    plugT ctx (.node LL nl.Color nl.Key nl.Value (.node LR n.Color n.Key n.Value B)),
    ?_, ?_, ?_, rfl, hnext⟩
  · have : (⟨t.heap, t.root, t.size⟩ : Tree V) = t := rfl
    rw [← this]; exact hexec
  · rw [hps, hps0']
    exact hextr
  · rw [hT, hS, hL]
    rw [plugT_inorder, plugT_inorder]
    simp [BT.inorder, List.append_assoc]

/-- Overwriting color and value of an in-tree node (links and key kept):
the extraction keeps its shape and address list; only that entry of the
in-order sequence changes. -/
theorem overwrite_good {t : Tree V} {T ps p n} (ext : Extr t.heap t.root none T ps)
    (nd : ps.Nodup) (hp : p ∈ ps) (hmp : t.heap.mem p = some n) (c : Color) (v : V) :
    ∃ T' IA IB,
      Extr (t.heap.write p ⟨n.Key, v, c, n.Parent, n.Left, n.Right⟩) t.root none T' ps ∧
      T.inorder = IA ++ (n.Key, n.Value) :: IB ∧
      T'.inorder = IA ++ (n.Key, v) :: IB := by
  obtain ⟨ctx, S, ps0, pe, H, Esub, hT, hps⟩ := ext.decompose p hp
  obtain ⟨n', A, psA, B, psB, hm', hpar, hS, hps0, EA, EB⟩ := Esub.inv_some
  rw [hmp] at hm'; cases hm'
  have ndps0C : (ps0 ++ ctxPtrs ctx).Nodup := by
    rw [hps] at nd; exact (plugPs_nodup _ _).1 nd
  have hpC : p ∉ ctxPtrs ctx := by
    rw [List.nodup_append] at ndps0C
    exact fun hc => ndps0C.2.2 (hps0 ▸ (by simp : p ∈ psA ++ p :: psB)) hc
  have hpA : p ∉ psA ∧ p ∉ psB := by
    have := ndps0C
    rw [List.nodup_append] at this
    have h0 := this.1
    rw [hps0, List.nodup_append, List.nodup_cons] at h0
    exact ⟨fun hc => h0.2.2 hc (by simp), h0.2.1.1⟩
  have EA' : Extr (t.heap.write p ⟨n.Key, v, c, n.Parent, n.Left, n.Right⟩)
      n.Left (some p) A psA :=
    EA.write_out (fun hc => hpA.1 hc) _
  have EB' : Extr (t.heap.write p ⟨n.Key, v, c, n.Parent, n.Left, n.Right⟩)
      n.Right (some p) B psB :=
    EB.write_out (fun hc => hpA.2 hc) _
  have H' : HExtr (t.heap.write p ⟨n.Key, v, c, n.Parent, n.Left, n.Right⟩)
      t.root none ctx (some p) pe :=
    H.hwrite_out hpC _
  have Esub' : Extr (t.heap.write p ⟨n.Key, v, c, n.Parent, n.Left, n.Right⟩)
      (some p) pe (.node A c n.Key v B) (psA ++ p :: psB) :=
    .node p pe ⟨n.Key, v, c, n.Parent, n.Left, n.Right⟩ A psA B psB
      (by simp) hpar EA' EB'
  refine ⟨plugT ctx (.node A c n.Key v B), ctxInL ctx ++ A.inorder,
    B.inorder ++ ctxInR ctx, ?_, ?_, ?_⟩
  · rw [hps, hps0]
    exact H'.compose Esub'
  · rw [hT, hS, plugT_inorder]
    simp [BT.inorder, List.append_assoc]
  · rw [plugT_inorder]
    simp [BT.inorder, List.append_assoc]

theorem sorted_node_iff {L R : BT V} {c : Color} {k : String} {v : V} :
    List.Sorted (· < ·) (BT.keys (.node L c k v R)) ↔
      List.Sorted (· < ·) (BT.keys L) ∧ List.Sorted (· < ·) (BT.keys R) ∧
      (∀ a ∈ BT.keys L, a < k) ∧ (∀ b ∈ BT.keys R, k < b) := by
  have hkeys : BT.keys (.node L c k v R) = BT.keys L ++ k :: BT.keys R := by
    simp [BT.keys, BT.inorder]
  rw [hkeys]
  unfold List.Sorted
  rw [List.pairwise_append, List.pairwise_cons]
  constructor
  · rintro ⟨h1, ⟨h2, h3⟩, h4⟩
    exact ⟨h1, h3, fun a ha => h4 a ha k (by simp), h2⟩
  · rintro ⟨h1, h2, h3, h4⟩
    refine ⟨h1, ⟨h4, h2⟩, ?_⟩
    intro a ha b hb
    rcases List.mem_cons.1 hb with hb' | hb
    · rw [hb']; exact h3 a ha
    · exact lt_trans (h3 a ha) (h4 b hb)

/-- BST search descent: on a sorted extracted subtree, searchLoop finds
the node holding the key exactly when the key occurs. -/
theorem searchLoop_spec {h : Heap V} {c par : Option Ptr} {T : BT V} {ps}
    (E : Extr h c par T ps) (srt : List.Sorted (· < ·) (BT.keys T)) (key : String) :
    ∀ fuel, ps.length < fuel →
      (key ∉ BT.keys T ∧ searchLoop h key c fuel = .ok none) ∨
      (∃ p n, p ∈ ps ∧ h.mem p = some n ∧ n.Key = key ∧
        (key, n.Value) ∈ T.inorder ∧ searchLoop h key c fuel = .ok (some p)) := by
  induction E with
  | nil par => intro fuel hf; left; simp [BT.keys, BT.inorder, searchLoop]
  | node p par n L psl R psr hm hp EL ER ihL ihR =>
    intro fuel hf
    rw [sorted_node_iff] at srt
    have hknode : key ∈ BT.keys (BT.node L n.Color n.Key n.Value R) ↔
        key ∈ BT.keys L ∨ key = n.Key ∨ key ∈ BT.keys R := by
      simp [BT.keys, BT.inorder]
    cases fuel with
    | zero => simp at hf
    | succ f =>
      have hf2 : psl.length + (psr.length + 1) < f + 1 := by simpa using hf
      have hfl : psl.length < f := by omega
      have hfr : psr.length < f := by omega
      by_cases h1 : key < n.Key
      · rcases ihL srt.1 f hfl with ⟨hnot, hrun⟩ | ⟨q, m, hq, hmq, hkq, hin, hrun⟩
        · left
          refine ⟨?_, by
            simp only [searchLoop, getN_ok hm, ok_bind]
            rw [if_pos h1]; exact hrun⟩
          intro hc
          rw [hknode] at hc
          rcases hc with hc | hc | hc
          · exact hnot hc
          · rw [hc] at h1; exact lt_irrefl _ h1
          · exact absurd (lt_trans h1 (srt.2.2.2 key hc)) (lt_irrefl _)
        · right
          exact ⟨q, m, by simp [hq], hmq, hkq, by simp [BT.inorder, hin],
            by
              simp only [searchLoop, getN_ok hm, ok_bind]
              rw [if_pos h1]; exact hrun⟩
      · by_cases h2 : n.Key < key
        · rcases ihR srt.2.1 f hfr with ⟨hnot, hrun⟩ | ⟨q, m, hq, hmq, hkq, hin, hrun⟩
          · left
            refine ⟨?_, by
              simp only [searchLoop, getN_ok hm, ok_bind]
              rw [if_neg h1, if_pos h2]; exact hrun⟩
            intro hc
            rw [hknode] at hc
            rcases hc with hc | hc | hc
            · exact absurd (lt_trans h2 (srt.2.2.1 key hc)) (lt_irrefl _)
            · rw [hc] at h2; exact lt_irrefl _ h2
            · exact hnot hc
          · right
            exact ⟨q, m, by simp [hq], hmq, hkq, by simp [BT.inorder, hin],
              by
                simp only [searchLoop, getN_ok hm, ok_bind]
                rw [if_neg h1, if_pos h2]; exact hrun⟩
        · have hkey : n.Key = key := le_antisymm (not_lt.1 h1) (not_lt.1 h2)
          right
          exact ⟨p, n, by simp, hm, hkey, by simp [BT.inorder, ← hkey],
            by
              simp only [searchLoop, getN_ok hm, ok_bind]
              rw [if_neg h1, if_neg h2]⟩

theorem ctxInL_append (c1 c2 : List (Hole V)) :
    ctxInL (c1 ++ c2) = ctxInL c2 ++ ctxInL c1 := by
  induction c1 with
  | nil => simp [ctxInL]
  | cons f c1 ih => cases f <;> simp [ctxInL, ih, List.append_assoc]

theorem ctxInR_append (c1 c2 : List (Hole V)) :
    ctxInR (c1 ++ c2) = ctxInR c1 ++ ctxInR c2 := by
  induction c1 with
  | nil => simp [ctxInR]
  | cons f c1 ih => cases f <;> simp [ctxInR, ih, List.append_assoc]

/-- minimum follows Left links to the first in-order node of a subtree. -/
theorem minimumLoop_spec {h : Heap V} :
    ∀ {c par : Option Ptr} {T : BT V} {ps}, Extr h c par T ps →
    ∀ b, c = some b → ∀ fuel, ps.length < fuel →
      ∃ s ns, minimumLoop h b fuel = .ok s ∧ h.mem s = some ns ∧
        ns.Left = none ∧ ps.head? = some s := by
  intro c par T ps E
  induction E with
  | nil par => intro b hb; cases hb
  | node p par n L psl R psr hm hp EL ER ihL ihR =>
    intro b hb fuel hf
    cases hb
    cases fuel with
    | zero => simp at hf
    | succ f =>
      have hf2 : psl.length + (psr.length + 1) < f + 1 := by simpa using hf
      cases hL : n.Left with
      | none =>
        have := EL
        rw [hL] at this
        obtain ⟨hT, hps⟩ := this.inv_none
        refine ⟨p, n, ?_, hm, hL, ?_⟩
        · simp [minimumLoop, getN_ok hm, hL]
        · rw [hps]; simp
      | some l =>
        obtain ⟨s, ns, hrun, hms, hnsl, hhead⟩ := ihL l hL f (by omega)
        have hpsl : psl ≠ [] := by
          intro hc; rw [hc] at hhead; cases hhead
        refine ⟨s, ns, ?_, hms, hnsl, ?_⟩
        · simp [minimumLoop, getN_ok hm, hL, hrun]
        · cases psl with
          | nil => exact absurd rfl hpsl
          | cons q tl => simpa using hhead

/-- BST insert descent: either finds the key in place, or reaches the
correctly-bounded nil position, reporting its parent pointer. -/
theorem insertLoop_spec {h : Heap V} {c par : Option Ptr} {T : BT V} {ps}
    (E : Extr h c par T ps) (srt : List.Sorted (· < ·) (BT.keys T)) (key : String) :
    ∀ fuel, ps.length < fuel →
      (∃ p n, insertLoop h key c par fuel = .ok (.inl p) ∧ p ∈ ps ∧
        h.mem p = some n ∧ n.Key = key) ∨
      (∃ ctx2 peA, insertLoop h key c par fuel = .ok (.inr peA) ∧
        HExtr h c par ctx2 none peA ∧ T = plugT ctx2 .nil ∧ ps = plugPs ctx2 [] ∧
        key ∉ BT.keys T ∧
        (∀ e ∈ ctxInL ctx2, e.1 < key) ∧ (∀ e ∈ ctxInR ctx2, key < e.1) ∧
        (ctx2 = [] → peA = par) ∧
        (∀ fr rest2, ctx2 = fr :: rest2 →
          ∃ pa npa, peA = some pa ∧ h.mem pa = some npa ∧
            ((∃ Rf psrf, fr = Hole.l pa npa Rf psrf ∧ key < npa.Key) ∨
             (∃ Lf pslf, fr = Hole.r pa npa Lf pslf ∧ ¬ key < npa.Key)))) := by
  induction E with
  | nil par =>
    intro fuel hf
    right
    refine ⟨[], par, by simp [insertLoop], .refl, rfl, rfl, ?_, ?_, ?_, fun _ => rfl, ?_⟩
    · simp [BT.keys, BT.inorder]
    · simp [ctxInL]
    · simp [ctxInR]
    · intro fr rest2 hc; cases hc
  | node p par n L psl R psr hm hp EL ER ihL ihR =>
    intro fuel hf
    rw [sorted_node_iff] at srt
    have hknode : key ∈ BT.keys (BT.node L n.Color n.Key n.Value R) ↔
        key ∈ BT.keys L ∨ key = n.Key ∨ key ∈ BT.keys R := by
      simp [BT.keys, BT.inorder]
    cases fuel with
    | zero => simp at hf
    | succ f =>
      have hf2 : psl.length + (psr.length + 1) < f + 1 := by simpa using hf
      by_cases h1 : key < n.Key
      · rcases ihL srt.1 f (by omega) with ⟨q, m, hrun, hq, hmq, hkq⟩ |
          ⟨ctx2, peA, hrun, H2, hT2, hps2, hnk, hbL, hbR, hnil, hcons⟩
        · left
          refine ⟨q, m, ?_, by simp [hq], hmq, hkq⟩
          simp only [insertLoop, getN_ok hm, ok_bind]
          rw [if_pos h1]; exact hrun
        · right
          refine ⟨ctx2 ++ [Hole.l p n R psr], peA, ?_, ?_, ?_, ?_, ?_, ?_, ?_, ?_, ?_⟩
          · simp only [insertLoop, getN_ok hm, ok_bind]
            rw [if_pos h1]; exact hrun
          · exact H2.snocL hm hp ER
          · rw [plugT_append, ← hT2]; rfl
          · rw [plugPs_append, ← hps2]; rfl
          · intro hc
            rw [hknode] at hc
            rcases hc with hc | hc | hc
            · exact hnk hc
            · rw [hc] at h1; exact lt_irrefl _ h1
            · exact absurd (lt_trans h1 (srt.2.2.2 key hc)) (lt_irrefl _)
          · rw [ctxInL_append]
            intro e he
            rcases List.mem_append.1 he with he | he
            · simp [ctxInL] at he
            · exact hbL e he
          · rw [ctxInR_append]
            intro e he
            rcases List.mem_append.1 he with he | he
            · exact hbR e he
            · simp only [ctxInR, ctxInL] at he
              simp only [List.cons_append, List.mem_cons] at he
              rcases he with he | he
              · rw [he]; exact h1
              · have hek : e.1 ∈ BT.keys R := by
                  simp [BT.keys]
                  exact ⟨e.2, by simpa using he⟩
                exact lt_trans h1 (srt.2.2.2 e.1 hek)
          · intro hc
            rcases List.append_eq_nil.mp hc with ⟨_, hc2⟩
            cases hc2
          · intro fr rest2 hfr
            cases hctx2 : ctx2 with
            | nil =>
              rw [hctx2] at hfr
              simp at hfr
              exact ⟨p, n, hnil hctx2, hm, Or.inl ⟨R, psr, hfr.1.symm, h1⟩⟩
            | cons fr2 rest3 =>
              rw [hctx2] at hfr
              simp only [List.cons_append, List.cons.injEq] at hfr
              obtain ⟨pa, npa, hpe, hmpa, hside⟩ := hcons fr2 rest3 hctx2
              exact ⟨pa, npa, hpe, hmpa, by rw [← hfr.1]; exact hside⟩
      · by_cases h2 : n.Key < key
        · rcases ihR srt.2.1 f (by omega) with ⟨q, m, hrun, hq, hmq, hkq⟩ |
            ⟨ctx2, peA, hrun, H2, hT2, hps2, hnk, hbL, hbR, hnil, hcons⟩
          · left
            refine ⟨q, m, ?_, by simp [hq], hmq, hkq⟩
            simp only [insertLoop, getN_ok hm, ok_bind]
            rw [if_neg h1, if_pos h2]; exact hrun
          · right
            refine ⟨ctx2 ++ [Hole.r p n L psl], peA, ?_, ?_, ?_, ?_, ?_, ?_, ?_, ?_, ?_⟩
            · simp only [insertLoop, getN_ok hm, ok_bind]
              rw [if_neg h1, if_pos h2]; exact hrun
            · exact H2.snocR hm hp EL
            · rw [plugT_append, ← hT2]; rfl
            · rw [plugPs_append, ← hps2]; rfl
            · intro hc
              rw [hknode] at hc
              rcases hc with hc | hc | hc
              · exact absurd (lt_trans h2 (srt.2.2.1 key hc)) (lt_irrefl _)
              · rw [hc] at h2; exact lt_irrefl _ h2
              · exact hnk hc
            · rw [ctxInL_append]
              intro e he
              rcases List.mem_append.1 he with he | he
              · have he2 : e ∈ L.inorder ∨ e = (n.Key, n.Value) := by
                  simpa [ctxInL] using he
                rcases he2 with he2 | he2
                · have hek : e.1 ∈ BT.keys L := by
                    simp [BT.keys]
                    exact ⟨e.2, by simpa using he2⟩
                  exact lt_trans (srt.2.2.1 e.1 hek) h2
                · rw [he2]; exact h2
              · exact hbL e he
            · rw [ctxInR_append]
              intro e he
              rcases List.mem_append.1 he with he | he
              · exact hbR e he
              · simp [ctxInR] at he
            · intro hc
              rcases List.append_eq_nil.mp hc with ⟨_, hc2⟩
              cases hc2
            · intro fr rest2 hfr
              cases hctx2 : ctx2 with
              | nil =>
                rw [hctx2] at hfr
                simp at hfr
                exact ⟨p, n, hnil hctx2, hm, Or.inr ⟨L, psl, hfr.1.symm, h1⟩⟩
              | cons fr2 rest3 =>
                rw [hctx2] at hfr
                simp only [List.cons_append, List.cons.injEq] at hfr
                obtain ⟨pa, npa, hpe, hmpa, hside⟩ := hcons fr2 rest3 hctx2
                exact ⟨pa, npa, hpe, hmpa, by rw [← hfr.1]; exact hside⟩
        · have hkey : n.Key = key := le_antisymm (not_lt.1 h1) (not_lt.1 h2)
          left
          refine ⟨p, n, ?_, by simp, hm, hkey⟩
          simp only [insertLoop, getN_ok hm, ok_bind]
          rw [if_neg h1, if_neg h2]

/-- Color write at an in-tree address: extraction keeps its shape,
address list and in-order sequence. -/
theorem setC_step {t : Tree V} {T ps p n} (ext : Extr t.heap t.root none T ps)
    (nd : ps.Nodup) (hp : p ∈ ps) (hmp : t.heap.mem p = some n) (c : Color) :
    ∃ h' T', setC t.heap p c = .ok h' ∧
      Extr h' t.root none T' ps ∧ T'.inorder = T.inorder ∧ h'.next = t.heap.next := by
  obtain ⟨T', IA, IB, ext', hold, hnew⟩ := overwrite_good ext nd hp hmp c n.Value
  exact ⟨_, T', setC_ok hmp c, ext', by rw [hnew, ← hold], by simp⟩

/-- The parent pointer of an in-tree node is nil or again in the tree. -/
theorem Extr.parent_mem {h : Heap V} {root : Option Ptr} {T ps}
    (ext : Extr h root none T ps) {p n}
    (hp : p ∈ ps) (hm : h.mem p = some n) :
    n.Parent = none ∨ ∃ q, n.Parent = some q ∧ q ∈ ps := by
  obtain ⟨ctx, S, ps0, pe, H, Esub, hT, hps⟩ := ext.decompose p hp
  obtain ⟨n', A, psA, B, psB, hm', hpar, hS, hps0, EA, EB⟩ := Esub.inv_some
  rw [hm] at hm'; cases hm'
  cases ctx with
  | nil =>
    obtain ⟨_, hpe⟩ := H.inv_nil
    exact .inl (hpar.trans hpe)
  | cons fr rest =>
    rcases H.inv_cons with ⟨pa, npa, Rf, psrf, pe0, hfr, hr0, hpeE, hmpa, hpap, ERf, H0⟩ |
      ⟨pa, npa, Lf, pslf, pe0, hfr, hr0, hpeE, hmpa, hpap, ELf, H0⟩ <;>
    · refine .inr ⟨pa, by rw [hpar, hpeE], ?_⟩
      rw [hps]
      rw [mem_plugPs]
      right
      rw [hfr]
      simp [ctxPtrs]

/-- The child pointers of an in-tree node are nil or again in the tree. -/
theorem Extr.child_mem {h : Heap V} {root par0 : Option Ptr} {T ps}
    (ext : Extr h root par0 T ps) {p n}
    (hp : p ∈ ps) (hm : h.mem p = some n) :
    (∀ q, n.Left = some q → q ∈ ps) ∧ (∀ q, n.Right = some q → q ∈ ps) := by
  obtain ⟨ctx, S, ps0, pe, H, Esub, hT, hps⟩ := ext.decompose p hp
  obtain ⟨n', A, psA, B, psB, hm', hpar, hS, hps0, EA, EB⟩ := Esub.inv_some
  rw [hm] at hm'; cases hm'
  constructor
  · intro q hq
    rw [hq] at EA
    rw [hps, mem_plugPs]
    exact .inl (by rw [hps0]; simp [EA.root_mem])
  · intro q hq
    rw [hq] at EB
    rw [hps, mem_plugPs]
    exact .inl (by rw [hps0]; simp [EB.root_mem])

/-- The root pointer of a nonempty extraction is in the list. -/
theorem Extr.root_mem_opt {h : Heap V} {root par0 : Option Ptr} {T ps}
    (ext : Extr h root par0 T ps) : ∀ q, root = some q → q ∈ ps := by
  intro q hq
  rw [hq] at ext
  exact ext.root_mem

theorem rotateLeft_err {t : Tree V} {p n} (hm : t.heap.mem p = some n)
    (hr : n.Right = none) : Tree.rotateLeft t p = .error .nilDeref := by
  simp [Tree.rotateLeft, getN_ok hm, hr, deref]

theorem rotateRight_err {t : Tree V} {p n} (hm : t.heap.mem p = some n)
    (hl : n.Left = none) : Tree.rotateRight t p = .error .nilDeref := by
  simp [Tree.rotateRight, getN_ok hm, hl, deref]

theorem deref_some (p : Ptr) : deref (some p) = Except.ok p := rfl

theorem deref_none : deref none = Except.error Err.nilDeref := rfl

theorem unit_bind {B : Type} (k : PUnit → Except Err B) :
    (pure PUnit.unit >>= k) = k PUnit.unit := rfl

/-- Shared tail of the terminal insert-fixup cases that end in rotateRight:
recolor parent black, grandparent red, rotate right at the grandparent,
then continue the loop. -/
theorem fixupTailR {f : Nat}
    (ih : ∀ (t : Tree V) (nd : Ptr) (t' : Tree V) (T : BT V) (ps : List Ptr),
      Extr t.heap t.root none T ps → ps.Nodup → nd ∈ ps →
      Tree.insertFixupLoop t nd f = .ok t' →
      ∃ T', Extr t'.heap t'.root none T' ps ∧ T'.inorder = T.inorder ∧
        t'.size = t.size ∧ t'.heap.next = t.heap.next)
    {t : Tree V} {m : Ptr} {t' : Tree V} {T : BT V} {ps : List Ptr}
    (ext : Extr t.heap t.root none T ps) (nodup : ps.Nodup) (hm : m ∈ ps)
    (hrun : (do
        let a ← getN t.heap m
        let p2 ← deref a.Parent
        let h1 ← setC t.heap p2 black
        let b ← getN h1 p2
        let gp2 ← deref b.Parent
        let h2 ← setC h1 gp2 red
        let tr ← Tree.rotateRight (⟨h2, t.root, t.size⟩ : Tree V) gp2
        Tree.insertFixupLoop tr m f) = .ok t') :
    ∃ T', Extr t'.heap t'.root none T' ps ∧ T'.inorder = T.inorder ∧
      t'.size = t.size ∧ t'.heap.next = t.heap.next := by
  obtain ⟨a, hma⟩ := ext.mem_some m hm
  rw [getN_ok hma, ok_bind] at hrun
  cases hp2o : a.Parent with
  | none => rw [hp2o, deref_none, error_bind] at hrun; cases hrun
  | some p2 =>
    rw [hp2o, deref_some, ok_bind] at hrun
    have hp2 : p2 ∈ ps := by
      rcases ext.parent_mem hm hma with hc | ⟨q, hq, hqps⟩
      · rw [hp2o] at hc; cases hc
      · rw [hp2o] at hq; cases hq; exact hqps
    obtain ⟨np2, hmp2⟩ := ext.mem_some p2 hp2
    obtain ⟨h1, T1, e1, ext1, hi1, hn1⟩ := setC_step (t := t) ext nodup hp2 hmp2 black
    rw [e1, ok_bind] at hrun
    obtain ⟨b, hmb⟩ := ext1.mem_some p2 hp2
    rw [getN_ok hmb, ok_bind] at hrun
    cases hgp2o : b.Parent with
    | none => rw [hgp2o, deref_none, error_bind] at hrun; cases hrun
    | some gp2 =>
      rw [hgp2o, deref_some, ok_bind] at hrun
      have hgp2 : gp2 ∈ ps := by
        rcases ext1.parent_mem hp2 hmb with hc | ⟨q, hq, hqps⟩
        · rw [hgp2o] at hc; cases hc
        · rw [hgp2o] at hq; cases hq; exact hqps
      obtain ⟨c, hmc⟩ := ext1.mem_some gp2 hgp2
      obtain ⟨h2, T2, e2, ext2, hi2, hn2⟩ :=
        setC_step (t := ⟨h1, t.root, t.size⟩) ext1 nodup hgp2 hmc red
      have e2x : setC h1 gp2 red = Except.ok h2 := e2
      rw [e2x, ok_bind] at hrun
      obtain ⟨c2, hmc2⟩ := ext2.mem_some gp2 hgp2
      have ext2x : Extr h2 t.root none T2 ps := ext2
      cases hLo : c2.Left with
      | none =>
        rw [rotateRight_err (t := ⟨h2, t.root, t.size⟩) hmc2 hLo, error_bind] at hrun
        cases hrun
      | some lf =>
        obtain ⟨t3, T3, e3, ext3, hi3, hs3, hn3⟩ :=
          rotateRight_good (t := ⟨h2, t.root, t.size⟩) ext2x nodup hgp2 hmc2 hLo
        rw [e3, ok_bind] at hrun
        obtain ⟨T', ext', hi', hs', hn'⟩ := ih t3 m t' T3 ps ext3 nodup hm hrun
        exact ⟨T', ext', by rw [hi', hi3, hi2, hi1], by rw [hs']; exact hs3,
          by rw [hn', hn3]; exact hn2.trans hn1⟩

/-- Mirror of fixupTailR ending in rotateLeft. -/
theorem fixupTailL {f : Nat}
    (ih : ∀ (t : Tree V) (nd : Ptr) (t' : Tree V) (T : BT V) (ps : List Ptr),
      Extr t.heap t.root none T ps → ps.Nodup → nd ∈ ps →
      Tree.insertFixupLoop t nd f = .ok t' →
      ∃ T', Extr t'.heap t'.root none T' ps ∧ T'.inorder = T.inorder ∧
        t'.size = t.size ∧ t'.heap.next = t.heap.next)
    {t : Tree V} {m : Ptr} {t' : Tree V} {T : BT V} {ps : List Ptr}
    (ext : Extr t.heap t.root none T ps) (nodup : ps.Nodup) (hm : m ∈ ps)
    (hrun : (do
        let a ← getN t.heap m
        let p2 ← deref a.Parent
        let h1 ← setC t.heap p2 black
        let b ← getN h1 p2
        let gp2 ← deref b.Parent
        let h2 ← setC h1 gp2 red
        let tr ← Tree.rotateLeft (⟨h2, t.root, t.size⟩ : Tree V) gp2
        Tree.insertFixupLoop tr m f) = .ok t') :
    ∃ T', Extr t'.heap t'.root none T' ps ∧ T'.inorder = T.inorder ∧
      t'.size = t.size ∧ t'.heap.next = t.heap.next := by
  obtain ⟨a, hma⟩ := ext.mem_some m hm
  rw [getN_ok hma, ok_bind] at hrun
  cases hp2o : a.Parent with
  | none => rw [hp2o, deref_none, error_bind] at hrun; cases hrun
  | some p2 =>
    rw [hp2o, deref_some, ok_bind] at hrun
    have hp2 : p2 ∈ ps := by
      rcases ext.parent_mem hm hma with hc | ⟨q, hq, hqps⟩
      · rw [hp2o] at hc; cases hc
      · rw [hp2o] at hq; cases hq; exact hqps
    obtain ⟨np2, hmp2⟩ := ext.mem_some p2 hp2
    obtain ⟨h1, T1, e1, ext1, hi1, hn1⟩ := setC_step (t := t) ext nodup hp2 hmp2 black
    rw [e1, ok_bind] at hrun
    obtain ⟨b, hmb⟩ := ext1.mem_some p2 hp2
    rw [getN_ok hmb, ok_bind] at hrun
    cases hgp2o : b.Parent with
    | none => rw [hgp2o, deref_none, error_bind] at hrun; cases hrun
    | some gp2 =>
      rw [hgp2o, deref_some, ok_bind] at hrun
      have hgp2 : gp2 ∈ ps := by
        rcases ext1.parent_mem hp2 hmb with hc | ⟨q, hq, hqps⟩
        · rw [hgp2o] at hc; cases hc
        · rw [hgp2o] at hq; cases hq; exact hqps
      obtain ⟨c, hmc⟩ := ext1.mem_some gp2 hgp2
      obtain ⟨h2, T2, e2, ext2, hi2, hn2⟩ :=
        setC_step (t := ⟨h1, t.root, t.size⟩) ext1 nodup hgp2 hmc red
      have e2x : setC h1 gp2 red = Except.ok h2 := e2
      rw [e2x, ok_bind] at hrun
      obtain ⟨c2, hmc2⟩ := ext2.mem_some gp2 hgp2
      have ext2x : Extr h2 t.root none T2 ps := ext2
      cases hRo : c2.Right with
      | none =>
        rw [rotateLeft_err (t := ⟨h2, t.root, t.size⟩) hmc2 hRo, error_bind] at hrun
        cases hrun
      | some r =>
        obtain ⟨t3, T3, e3, ext3, hi3, hs3, hn3⟩ :=
          rotateLeft_good (t := ⟨h2, t.root, t.size⟩) ext2x nodup hgp2 hmc2 hRo
        rw [e3, ok_bind] at hrun
        obtain ⟨T', ext', hi', hs', hn'⟩ := ih t3 m t' T3 ps ext3 nodup hm hrun
        exact ⟨T', ext', by rw [hi', hi3, hi2, hi1], by rw [hs']; exact hs3,
          by rw [hn', hn3]; exact hn2.trans hn1⟩

/-- The insertFixup loop only recolors and rotates: on success the
address list, in-order sequence, size and allocation counter survive. -/
theorem insertFixupLoop_good :
    ∀ (fuel : Nat) (t : Tree V) (nd : Ptr) (t' : Tree V) (T : BT V) (ps : List Ptr),
      Extr t.heap t.root none T ps → ps.Nodup → nd ∈ ps →
      Tree.insertFixupLoop t nd fuel = .ok t' →
      ∃ T', Extr t'.heap t'.root none T' ps ∧ T'.inorder = T.inorder ∧
        t'.size = t.size ∧ t'.heap.next = t.heap.next := by
  intro fuel
  induction fuel with
  | zero =>
    intro t nd t' T ps ext nodup hnd hrun
    simp [Tree.insertFixupLoop] at hrun
  | succ f ih =>
    intro t nd t' T ps ext nodup hnd hrun
    rw [Tree.insertFixupLoop] at hrun
    by_cases hroot : some nd = t.root
    · rw [if_pos hroot] at hrun
      cases hrun
      exact ⟨T, ext, rfl, rfl, rfl⟩
    · rw [if_neg hroot] at hrun
      obtain ⟨n, hmn⟩ := ext.mem_some nd hnd
      rw [getN_ok hmn, ok_bind] at hrun
      cases hpar : n.Parent with
      | none =>
        rw [hpar] at hrun
        simp only [colorOf, ok_bind] at hrun
        rw [if_neg (by simp [black, red])] at hrun
        cases hrun
        exact ⟨T, ext, rfl, rfl, rfl⟩
      | some p =>
        rw [hpar] at hrun
        simp only [] at hrun
        have hpps : p ∈ ps := by
          rcases ext.parent_mem hnd hmn with hc | ⟨q, hq, hqps⟩
          · rw [hpar] at hc; cases hc
          · rw [hpar] at hq; cases hq; exact hqps
        obtain ⟨np, hmp⟩ := ext.mem_some p hpps
        rw [colorOf_some hmp, ok_bind] at hrun
        by_cases hpc : np.Color = red
        · rw [if_pos hpc] at hrun
          rw [deref_some, ok_bind] at hrun
          rw [getN_ok hmp, ok_bind] at hrun
          cases hgp : np.Parent with
          | none =>
            rw [hgp, deref_none, error_bind] at hrun
            cases hrun
          | some gp =>
            rw [hgp, deref_some, ok_bind] at hrun
            have hgpps : gp ∈ ps := by
              rcases ext.parent_mem hpps hmp with hc | ⟨q, hq, hqps⟩
              · rw [hgp] at hc; cases hc
              · rw [hgp] at hq; cases hq; exact hqps
            obtain ⟨ngp, hmgp⟩ := ext.mem_some gp hgpps
            rw [getN_ok hmgp, ok_bind] at hrun
            by_cases hside : ngp.Left = some p
            · rw [if_pos hside] at hrun
              rw [ok_bind] at hrun
              cases huo : ngp.Right with
              | none =>
                rw [huo] at hrun
                rw [colorOf_none, ok_bind] at hrun
                rw [if_neg (by simp [black, red])] at hrun
                rw [ok_bind] at hrun
                rw [huo] at hrun
                rw [if_neg (by simp)] at hrun
                simp only [unit_bind] at hrun
                exact fixupTailR ih ext nodup hnd hrun
              | some u =>
                rw [huo] at hrun
                have huold : u ∈ ps := (ext.child_mem hgpps hmgp).2 u huo
                obtain ⟨nu, hmu⟩ := ext.mem_some u huold
                rw [colorOf_some hmu, ok_bind] at hrun
                by_cases huc : nu.Color = red
                · rw [if_pos huc] at hrun
                  obtain ⟨h1, T1, e1, ext1, hi1, hn1⟩ :=
                    setC_step (t := t) ext nodup hpps hmp black
                  rw [e1, ok_bind] at hrun
                  rw [deref_some, ok_bind] at hrun
                  obtain ⟨nu1, hmu1⟩ := ext1.mem_some u huold
                  obtain ⟨h2, T2, e2, ext2, hi2, hn2⟩ :=
                    setC_step (t := ⟨h1, t.root, t.size⟩) ext1 nodup huold hmu1 black
                  have e2x : setC h1 u black = Except.ok h2 := e2
                  rw [e2x, ok_bind] at hrun
                  obtain ⟨ngp2, hmgp2⟩ := ext2.mem_some gp hgpps
                  have ext2x : Extr h2 t.root none T2 ps := ext2
                  obtain ⟨h3, T3, e3, ext3, hi3, hn3⟩ :=
                    setC_step (t := ⟨h2, t.root, t.size⟩) ext2x nodup hgpps hmgp2 red
                  have e3x : setC h2 gp red = Except.ok h3 := e3
                  rw [e3x, ok_bind] at hrun
                  simp only [unit_bind] at hrun
                  have ext3x : Extr h3 t.root none T3 ps := ext3
                  obtain ⟨T', ext', hi', hs', hn'⟩ :=
                    ih ⟨h3, t.root, t.size⟩ gp t' T3 ps ext3x nodup hgpps hrun
                  exact ⟨T', ext', by rw [hi', hi3, hi2, hi1], hs',
                    by rw [hn']; exact hn3.trans (hn2.trans hn1)⟩
                · rw [if_neg huc] at hrun
                  rw [ok_bind] at hrun
                  rw [huo] at hrun
                  by_cases hbug : some u = some nd
                  · rw [if_pos hbug] at hrun
                    simp only [unit_bind] at hrun
                    cases hR : np.Right with
                    | none =>
                      rw [rotateLeft_err hmp hR, error_bind] at hrun
                      cases hrun
                    | some r =>
                      obtain ⟨t1, T1, e1, ext1, hi1, hs1, hn1⟩ :=
                        rotateLeft_good ext nodup hpps hmp hR
                      rw [e1, ok_bind] at hrun
                      obtain ⟨T', ext', hi', hs', hn'⟩ :=
                        fixupTailR ih ext1 nodup hpps hrun
                      exact ⟨T', ext', by rw [hi', hi1], by rw [hs']; exact hs1,
                        by rw [hn']; exact hn1⟩
                  · rw [if_neg hbug] at hrun
                    simp only [unit_bind] at hrun
                    exact fixupTailR ih ext nodup hnd hrun
            · rw [if_neg hside] at hrun
              rw [ok_bind] at hrun
              cases huo : ngp.Left with
              | none =>
                rw [huo] at hrun
                rw [colorOf_none, ok_bind] at hrun
                rw [if_neg (by simp [black, red])] at hrun
                rw [ok_bind] at hrun
                by_cases hin : np.Left = some nd
                · rw [if_pos hin] at hrun
                  simp only [unit_bind] at hrun
                  obtain ⟨t1, T1, e1, ext1, hi1, hs1, hn1⟩ :=
                    rotateRight_good ext nodup hpps hmp hin
                  rw [e1, ok_bind] at hrun
                  obtain ⟨T', ext', hi', hs', hn'⟩ :=
                    fixupTailL ih ext1 nodup hpps hrun
                  exact ⟨T', ext', by rw [hi', hi1], by rw [hs']; exact hs1,
                    by rw [hn']; exact hn1⟩
                · rw [if_neg hin] at hrun
                  simp only [unit_bind] at hrun
                  exact fixupTailL ih ext nodup hnd hrun
              | some u =>
                rw [huo] at hrun
                have huold : u ∈ ps := (ext.child_mem hgpps hmgp).1 u huo
                obtain ⟨nu, hmu⟩ := ext.mem_some u huold
                rw [colorOf_some hmu, ok_bind] at hrun
                by_cases huc : nu.Color = red
                · rw [if_pos huc] at hrun
                  obtain ⟨h1, T1, e1, ext1, hi1, hn1⟩ :=
                    setC_step (t := t) ext nodup hpps hmp black
                  rw [e1, ok_bind] at hrun
                  rw [deref_some, ok_bind] at hrun
                  obtain ⟨nu1, hmu1⟩ := ext1.mem_some u huold
                  obtain ⟨h2, T2, e2, ext2, hi2, hn2⟩ :=
                    setC_step (t := ⟨h1, t.root, t.size⟩) ext1 nodup huold hmu1 black
                  have e2x : setC h1 u black = Except.ok h2 := e2
                  rw [e2x, ok_bind] at hrun
                  obtain ⟨ngp2, hmgp2⟩ := ext2.mem_some gp hgpps
                  have ext2x : Extr h2 t.root none T2 ps := ext2
                  obtain ⟨h3, T3, e3, ext3, hi3, hn3⟩ :=
                    setC_step (t := ⟨h2, t.root, t.size⟩) ext2x nodup hgpps hmgp2 red
                  have e3x : setC h2 gp red = Except.ok h3 := e3
                  rw [e3x, ok_bind] at hrun
                  simp only [unit_bind] at hrun
                  have ext3x : Extr h3 t.root none T3 ps := ext3
                  obtain ⟨T', ext', hi', hs', hn'⟩ :=
                    ih ⟨h3, t.root, t.size⟩ gp t' T3 ps ext3x nodup hgpps hrun
                  exact ⟨T', ext', by rw [hi', hi3, hi2, hi1], hs',
                    by rw [hn']; exact hn3.trans (hn2.trans hn1)⟩
                · rw [if_neg huc] at hrun
                  rw [ok_bind] at hrun
                  by_cases hin : np.Left = some nd
                  · rw [if_pos hin] at hrun
                    simp only [unit_bind] at hrun
                    obtain ⟨t1, T1, e1, ext1, hi1, hs1, hn1⟩ :=
                      rotateRight_good ext nodup hpps hmp hin
                    rw [e1, ok_bind] at hrun
                    obtain ⟨T', ext', hi', hs', hn'⟩ :=
                      fixupTailL ih ext1 nodup hpps hrun
                    exact ⟨T', ext', by rw [hi', hi1], by rw [hs']; exact hs1,
                      by rw [hn']; exact hn1⟩
                  · rw [if_neg hin] at hrun
                    simp only [unit_bind] at hrun
                    exact fixupTailL ih ext nodup hnd hrun
        · rw [if_neg hpc] at hrun
          cases hrun
          exact ⟨T, ext, rfl, rfl, rfl⟩

/-- Source insertFixup preserves the address list, in-order sequence,
size and allocation counter. -/
theorem insertFixup_good {t : Tree V} {nd : Ptr} {t' : Tree V} {T : BT V} {ps : List Ptr}
    (ext : Extr t.heap t.root none T ps) (nodup : ps.Nodup) (hnd : nd ∈ ps)
    (hrun : t.insertFixup nd = .ok t') :
    ∃ T', Extr t'.heap t'.root none T' ps ∧ T'.inorder = T.inorder ∧
      t'.size = t.size ∧ t'.heap.next = t.heap.next := by
  rw [Tree.insertFixup] at hrun
  cases hl : Tree.insertFixupLoop t nd t.fuel with
  | error e => rw [hl, error_bind] at hrun; cases hrun
  | ok t2 =>
    rw [hl, ok_bind] at hrun
    obtain ⟨T2, ext2, hi2, hs2, hn2⟩ :=
      insertFixupLoop_good t.fuel t nd t2 T ps ext nodup hnd hl
    cases hr : t2.root with
    | none => rw [hr, deref_none, error_bind] at hrun; cases hrun
    | some r =>
      rw [hr, deref_some, ok_bind] at hrun
      have hrps : r ∈ ps := ext2.root_mem_opt r hr
      obtain ⟨nr, hmr⟩ := ext2.mem_some r hrps
      obtain ⟨h3, T3, e3, ext3, hi3, hn3⟩ := setC_step (t := t2) ext2 nodup hrps hmr black
      rw [e3, ok_bind] at hrun
      cases hrun
      exact ⟨T3, hr ▸ ext3, hi3.trans hi2, hs2, hn3.trans hn2⟩

theorem upsert_notmem {key : String} {v : V} :
    ∀ {A B : List (String × V)}, (∀ e ∈ A, e.1 < key) → (∀ e ∈ B, key < e.1) →
      upsert key v (A ++ B) = A ++ (key, v) :: B := by
  intro A
  induction A with
  | nil =>
    intro B hA hB
    cases B with
    | nil => rfl
    | cons b rest =>
      obtain ⟨k, w⟩ := b
      simp only [List.nil_append, upsert]
      rw [if_pos (hB (k, w) (by simp))]
  | cons a A ih =>
    intro B hA hB
    obtain ⟨k, w⟩ := a
    have hk : k < key := hA (k, w) (by simp)
    simp only [List.cons_append, upsert]
    rw [if_neg (asymm hk), if_pos hk]
    simp only [List.append_eq]
    rw [ih (fun e he => hA e (by simp [he])) hB]

theorem upsert_found {key : String} {v w : V} :
    ∀ {A B : List (String × V)}, (∀ e ∈ A, e.1 < key) →
      upsert key v (A ++ (key, w) :: B) = A ++ (key, v) :: B := by
  intro A
  induction A with
  | nil =>
    intro B hA
    simp only [List.nil_append, upsert]
    rw [if_neg (lt_irrefl key), if_neg (lt_irrefl key)]
  | cons a A ih =>
    intro B hA
    obtain ⟨k, u⟩ := a
    have hk : k < key := hA (k, u) (by simp)
    simp only [List.cons_append, upsert]
    rw [if_neg (asymm hk), if_pos hk]
    simp only [List.append_eq]
    rw [ih (fun e he => hA e (by simp [he]))]

theorem mem_keys_upsert {key : String} {v : V} {x : String} :
    ∀ {l : List (String × V)}, x ∈ (upsert key v l).map Prod.fst →
      x = key ∨ x ∈ l.map Prod.fst := by
  intro l
  induction l with
  | nil => intro hx; simp [upsert] at hx; exact .inl hx
  | cons a rest ih =>
    obtain ⟨k, w⟩ := a
    intro hx
    by_cases h1 : key < k
    · simp only [upsert, if_pos h1] at hx
      simp only [List.map_cons, List.mem_cons] at hx ⊢
      tauto
    · by_cases h2 : k < key
      · simp only [upsert, if_neg h1, if_pos h2] at hx
        simp only [List.map_cons, List.mem_cons] at hx ⊢
        rcases hx with hx | hx
        · exact .inr (.inl hx)
        · rcases ih hx with hx | hx
          · exact .inl hx
          · exact .inr (.inr hx)
      · simp only [upsert, if_neg h1, if_neg h2] at hx
        simp only [List.map_cons, List.mem_cons] at hx ⊢
        tauto

theorem upsert_sorted {key : String} {v : V} :
    ∀ {l : List (String × V)}, List.Sorted (· < ·) (l.map Prod.fst) →
      List.Sorted (· < ·) ((upsert key v l).map Prod.fst) := by
  intro l
  induction l with
  | nil => intro _; simp [upsert]
  | cons a rest ih =>
    obtain ⟨k, w⟩ := a
    intro hs
    simp only [List.map_cons, List.sorted_cons] at hs
    by_cases h1 : key < k
    · simp only [upsert, if_pos h1, List.map_cons, List.sorted_cons]
      refine ⟨?_, hs.1, hs.2⟩
      intro b hb
      rcases List.mem_cons.1 hb with hb | hb
      · rw [hb]; exact h1
      · exact lt_trans h1 (hs.1 b hb)
    · by_cases h2 : k < key
      · simp only [upsert, if_neg h1, if_pos h2, List.map_cons, List.sorted_cons]
        refine ⟨?_, ih hs.2⟩
        intro b hb
        rcases mem_keys_upsert hb with hb | hb
        · rw [hb]; exact h2
        · exact hs.1 b hb
      · have hkk : key = k := le_antisymm (not_lt.1 h2) (not_lt.1 h1)
        simp only [upsert, if_neg h1, if_neg h2, List.map_cons, List.sorted_cons]
        exact ⟨fun b hb => hkk ▸ hs.1 b hb, hs.2⟩

theorem sorted_split {k : String} :
    ∀ {xs ys : List String}, List.Sorted (· < ·) (xs ++ k :: ys) →
      (∀ x ∈ xs, x < k) ∧ (∀ y ∈ ys, k < y) := by
  intro xs ys hs
  unfold List.Sorted at hs
  rw [List.pairwise_append] at hs
  rw [List.pairwise_cons] at hs
  exact ⟨fun x hx => hs.2.2 x hx k (by simp), hs.2.1.1⟩

theorem nodup_bound_length {ps : List Nat} {n : Nat}
    (nd : ps.Nodup) (hb : ∀ q ∈ ps, q < n) : ps.length ≤ n := by
  have h1 : ps.toFinset ⊆ Finset.range n := by
    intro q hq
    rw [List.mem_toFinset] at hq
    rw [Finset.mem_range]
    exact hb q hq
  have h2 := Finset.card_le_card h1
  rwa [List.toFinset_card_of_nodup nd, Finset.card_range] at h2

/-- Abstract effect of Insert on a well-formed state. -/
theorem Insert_spec {t : Tree V} {T : BT V} {ps : List Ptr} {key : String} {value : V}
    {t' : Tree V}
    (ext : Extr t.heap t.root none T ps) (nodup : ps.Nodup)
    (bound : ∀ q ∈ ps, q < t.heap.next)
    (srt : List.Sorted (· < ·) (BT.keys T))
    (hrun : t.Insert key value = .ok t') :
    ∃ T' ps', Extr t'.heap t'.root none T' ps' ∧ ps'.Nodup ∧
      (∀ q ∈ ps', q < t'.heap.next) ∧
      T'.inorder = upsert key value T.inorder ∧
      ((key ∈ BT.keys T ∧ t'.size = t.size ∧ ps' = ps ∧ t'.heap.next = t.heap.next) ∨
       (key ∉ BT.keys T ∧ t'.size = t.size + 1 ∧ ps'.length = ps.length + 1 ∧
         t'.heap.next = t.heap.next + 1)) := by
  have hlen := nodup_bound_length nodup bound
  have hfuel : ps.length < t.fuel := by
    show ps.length < t.heap.next + 2
    omega
  rcases insertLoop_spec ext srt key t.fuel hfuel with
    ⟨p, n, hIL, hpps, hmp, hkey⟩ |
    ⟨ctx2, peA, hIL, H2, hT2, hps2, hnk, hbL, hbR, hnil, hcons⟩
  · -- key found in place: overwrite the value
    rw [Tree.Insert] at hrun
    rw [hIL, ok_bind] at hrun
    simp only [] at hrun
    rw [setV_ok hmp value, ok_bind] at hrun
    cases hrun
    obtain ⟨T', IA, IB, ext', hold, hnew⟩ := overwrite_good ext nodup hpps hmp n.Color value
    have hkmem : key ∈ BT.keys T := by
      rw [BT.keys, hold, ← hkey]
      simp
    have hIAlt : ∀ e ∈ IA, e.1 < key := by
      have hsrt2 := srt
      rw [BT.keys, hold] at hsrt2
      simp only [List.map_append, List.map_cons] at hsrt2
      intro e he
      have := (sorted_split hsrt2).1 e.1 (List.mem_map_of_mem Prod.fst he)
      rwa [hkey] at this
    refine ⟨T', ps, ext', nodup, bound, ?_, .inl ⟨hkmem, rfl, rfl, rfl⟩⟩
    rw [hnew, hold, ← hkey]
    exact (upsert_found (w := n.Value) (fun e he => hkey ▸ hIAlt e he)).symm
  · -- key absent: attach a fresh red leaf at the hole, then fix up
    rw [Tree.Insert] at hrun
    rw [hIL, ok_bind] at hrun
    simp only [Heap.alloc, unit_bind] at hrun
    generalize hH0 : (⟨fun q => if q = t.heap.next then
        some ⟨key, value, red, peA, none, none⟩ else t.heap.mem q,
        t.heap.next + 1⟩ : Heap V) = h0 at hrun
    have hm0 : ∀ q, h0.mem q = if q = t.heap.next then
        some ⟨key, value, red, peA, none, none⟩ else t.heap.mem q := by
      rw [← hH0]; intro q; rfl
    have hn0 : h0.next = t.heap.next + 1 := by rw [← hH0]
    have hioT : T.inorder = ctxInL ctx2 ++ ctxInR ctx2 := by
      rw [hT2, plugT_inorder]
      simp [BT.inorder]
    have hup : upsert key value T.inorder = ctxInL ctx2 ++ (key, value) :: ctxInR ctx2 := by
      rw [hioT]
      exact upsert_notmem hbL hbR
    cases hc2 : ctx2 with
    | nil =>
      subst hc2
      have hpeA := hnil rfl
      subst hpeA
      simp only [] at hrun
      obtain ⟨hroot, -⟩ := H2.inv_nil
      have hm0self : h0.mem t.heap.next = some ⟨key, value, red, none, none, none⟩ := by
        rw [hm0]; simp
      have ext0 : Extr h0 (some t.heap.next) none
          (.node .nil red key value .nil) ([] ++ t.heap.next :: []) :=
        .node t.heap.next none ⟨key, value, red, none, none, none⟩ .nil [] .nil []
          hm0self rfl (.nil _) (.nil _)
      cases hfx : Tree.insertFixup ⟨h0, some t.heap.next, t.size⟩ t.heap.next with
      | error e => rw [hfx, error_bind] at hrun; cases hrun
      | ok t3 =>
        rw [hfx, ok_bind] at hrun
        cases hrun
        obtain ⟨T3, ext3, hi3, hs3, hn3⟩ :=
          insertFixup_good (t := ⟨h0, some t.heap.next, t.size⟩) ext0 (by simp) (by simp) hfx
        refine ⟨T3, [] ++ t.heap.next :: [], ext3, by simp, ?_, ?_,
          .inr ⟨hnk, ?_, ?_, ?_⟩⟩
        · intro q hq
          simp only [List.nil_append, List.mem_singleton] at hq
          subst hq
          have : t3.heap.next = t.heap.next + 1 := hn3.trans hn0
          rw [this]
          exact Nat.lt_succ_self _
        · rw [hi3, hup]
          simp [ctxInL, ctxInR, BT.inorder]
        · exact congrArg (fun z => z + (1 : Int)) hs3
        · rw [hps2]
          simp [plugPs]
        · exact hn3.trans hn0
    | cons fr rest =>
      subst hc2
      obtain ⟨pa, npa, hpeA, hmpa, hside⟩ := hcons fr rest rfl
      subst hpeA
      simp only [] at hrun
      have hctxlt : ∀ x ∈ ctxPtrs (fr :: rest), x < t.heap.next := by
        intro x hx
        refine bound x ?_
        rw [hps2, mem_plugPs]
        exact .inr hx
      have hndctx : (ctxPtrs (fr :: rest)).Nodup := by
        have h1 : (([] : List Ptr) ++ ctxPtrs (fr :: rest)).Nodup := by
          rw [← plugPs_nodup, ← hps2]; exact nodup
        simpa using h1
      have hag0 : ∀ x, x < t.heap.next → h0.mem x = t.heap.mem x := by
        intro x hx
        rw [hm0, if_neg (Nat.ne_of_lt hx)]
      have hlenps : ps.length = (ctxPtrs (fr :: rest)).length := by
        rw [hps2]
        have := (plugPs_perm (fr :: rest) ([] : List Ptr)).length_eq
        simpa using this
      rcases hside with ⟨Rf, psrf, hfr, hklt⟩ | ⟨Lf, pslf, hfr, hkge⟩
      · -- attach as left child of pa
        subst hfr
        have hpalt : pa < t.heap.next :=
          hctxlt pa (by simp [ctxPtrs])
        have hmpa0 : h0.mem pa = some npa := by
          rw [hag0 pa hpalt]; exact hmpa
        rw [getN_ok hmpa0, ok_bind] at hrun
        rw [if_pos hklt] at hrun
        rw [setL_ok hmpa0 (some t.heap.next), ok_bind] at hrun
        rcases H2.inv_cons with
          ⟨p9, n9, Rf, psrf, pe0, hfreq, hr0, hpe9, hm9, hpar9, ERf, H09⟩ |
          ⟨p9, n9, Lf, pslf, pe0, hfreq, hr0, hpe9, hm9, hpar9, ELf, H09⟩
        swap
        · cases hfreq
        cases hfreq
        simp only [ctxPtrs, List.cons_append, List.nodup_cons] at hndctx
        have hpaout := hndctx.1
        have hndr := hndctx.2
        have hpanr : pa ∉ ctxPtrs rest := fun hc => hpaout (by simp [hc])
        have hpans : pa ∉ psrf := fun hc => hpaout (by simp [hc])
        have hrestlt : ∀ x ∈ ctxPtrs rest, x < t.heap.next := by
          intro x hx; exact hctxlt x (by simp [ctxPtrs, hx])
        have hpsrlt : ∀ x ∈ psrf, x < t.heap.next := by
          intro x hx; exact hctxlt x (by simp [ctxPtrs, hx])
        have H0w : HExtr (h0.write pa ⟨npa.Key, npa.Value, npa.Color, npa.Parent,
            some t.heap.next, npa.Right⟩) t.root none rest (some pa) pe0 :=
          (H09.hcongr fun x hx => hag0 x (hrestlt x hx)).hwrite_out hpanr _
        have ERw : Extr (h0.write pa ⟨npa.Key, npa.Value, npa.Color, npa.Parent,
            some t.heap.next, npa.Right⟩) npa.Right (some pa) Rf psrf :=
          (ERf.congr fun x hx => hag0 x (hpsrlt x hx)).write_out hpans _
        have hmpaw : (h0.write pa ⟨npa.Key, npa.Value, npa.Color, npa.Parent,
            some t.heap.next, npa.Right⟩).mem pa = some ⟨npa.Key, npa.Value, npa.Color,
            npa.Parent, some t.heap.next, npa.Right⟩ := by simp
        have H1 : HExtr (h0.write pa ⟨npa.Key, npa.Value, npa.Color, npa.Parent,
            some t.heap.next, npa.Right⟩) t.root none
            (.l pa ⟨npa.Key, npa.Value, npa.Color, npa.Parent, some t.heap.next,
              npa.Right⟩ Rf psrf :: rest) (some t.heap.next) (some pa) :=
          .left rest pa pe0 _ Rf psrf H0w hmpaw hpar9 ERw
        have hmleaf : (h0.write pa ⟨npa.Key, npa.Value, npa.Color, npa.Parent,
            some t.heap.next, npa.Right⟩).mem t.heap.next =
            some ⟨key, value, red, some pa, none, none⟩ := by
          rw [write_mem, if_neg (Nat.ne_of_gt hpalt)]
          rw [hm0]; simp
        have extL : Extr (h0.write pa ⟨npa.Key, npa.Value, npa.Color, npa.Parent,
            some t.heap.next, npa.Right⟩) (some t.heap.next) (some pa)
            (.node .nil red key value .nil) ([] ++ t.heap.next :: []) :=
          .node t.heap.next (some pa) ⟨key, value, red, some pa, none, none⟩ .nil [] .nil []
            hmleaf rfl (.nil _) (.nil _)
        have EXT1 := H1.compose extL
        have hndps1 : (plugPs rest (([] ++ t.heap.next :: []) ++ pa :: psrf)).Nodup := by
          rw [plugPs_nodup]
          simp only [List.nil_append, List.cons_append, List.singleton_append]
          rw [List.nodup_cons]
          refine ⟨?_, List.nodup_cons.2 ⟨hpaout, hndr⟩⟩
          intro hc
          rcases List.mem_cons.1 hc with hc | hc
          · exact absurd (hc ▸ hpalt) (lt_irrefl _)
          · rcases List.mem_append.1 hc with hc | hc
            · exact absurd (hpsrlt _ hc) (lt_irrefl _)
            · exact absurd (hrestlt _ hc) (lt_irrefl _)
        have hmemnode : t.heap.next ∈ plugPs rest (([] ++ t.heap.next :: []) ++ pa :: psrf) := by
          rw [mem_plugPs]
          exact .inl (by simp)
        cases hfx : Tree.insertFixup ⟨h0.write pa ⟨npa.Key, npa.Value, npa.Color, npa.Parent,
            some t.heap.next, npa.Right⟩, t.root, t.size⟩ t.heap.next with
        | error e => rw [hfx, error_bind] at hrun; cases hrun
        | ok t3 =>
          rw [hfx, ok_bind] at hrun
          cases hrun
          obtain ⟨T3, ext3, hi3, hs3, hn3⟩ :=
            insertFixup_good (t := ⟨h0.write pa ⟨npa.Key, npa.Value, npa.Color, npa.Parent,
              some t.heap.next, npa.Right⟩, t.root, t.size⟩) EXT1 hndps1 hmemnode hfx
          have hnext3 : t3.heap.next = t.heap.next + 1 := by
            rw [hn3]
            show (h0.write pa _).next = t.heap.next + 1
            rw [write_next, hn0]
          refine ⟨T3, _, ext3, hndps1, ?_, ?_, .inr ⟨hnk, ?_, ?_, ?_⟩⟩
          · intro q hq
            rw [mem_plugPs] at hq
            show q < t3.heap.next
            rw [hnext3]
            rcases hq with hq | hq
            · simp only [List.nil_append, List.mem_singleton] at hq
              rw [hq]
              exact Nat.lt_succ_self _
            · simp only [ctxPtrs, List.cons_append, List.mem_cons, List.mem_append] at hq
              rcases hq with hq | hq | hq
              · rw [hq]
                exact Nat.lt_succ_of_lt hpalt
              · exact Nat.lt_succ_of_lt (hpsrlt q hq)
              · exact Nat.lt_succ_of_lt (hrestlt q hq)
          · rw [hi3, plugT_inorder, hup]
            simp [ctxInL, ctxInR, BT.inorder]
          · exact congrArg (fun z => z + (1 : Int)) hs3
          · show (plugPs rest (([] ++ t.heap.next :: []) ++ pa :: psrf)).length = ps.length + 1
            have hp1 := (plugPs_perm rest (([] ++ t.heap.next :: []) ++ pa :: psrf)).length_eq
            rw [hp1, hlenps]
            simp only [ctxPtrs, List.length_append, List.length_cons, List.length_nil,
              List.nil_append, List.cons_append, List.singleton_append]
            try omega
          · exact hnext3
      · -- attach as right child of pa
        subst hfr
        have hpalt : pa < t.heap.next :=
          hctxlt pa (by simp [ctxPtrs])
        have hmpa0 : h0.mem pa = some npa := by
          rw [hag0 pa hpalt]; exact hmpa
        rw [getN_ok hmpa0, ok_bind] at hrun
        rw [if_neg hkge] at hrun
        rw [setR_ok hmpa0 (some t.heap.next), ok_bind] at hrun
        rcases H2.inv_cons with
          ⟨p9, n9, Rf, psrf, pe0, hfreq, hr0, hpe9, hm9, hpar9, ERf, H09⟩ |
          ⟨p9, n9, Lf, pslf, pe0, hfreq, hr0, hpe9, hm9, hpar9, ELf, H09⟩
        · cases hfreq
        cases hfreq
        simp only [ctxPtrs, List.cons_append, List.nodup_cons] at hndctx
        have hpaout := hndctx.1
        have hndr := hndctx.2
        have hpanr : pa ∉ ctxPtrs rest := fun hc => hpaout (by simp [hc])
        have hpans : pa ∉ pslf := fun hc => hpaout (by simp [hc])
        have hrestlt : ∀ x ∈ ctxPtrs rest, x < t.heap.next := by
          intro x hx; exact hctxlt x (by simp [ctxPtrs, hx])
        have hpsllt : ∀ x ∈ pslf, x < t.heap.next := by
          intro x hx; exact hctxlt x (by simp [ctxPtrs, hx])
        have H0w : HExtr (h0.write pa ⟨npa.Key, npa.Value, npa.Color, npa.Parent,
            npa.Left, some t.heap.next⟩) t.root none rest (some pa) pe0 :=
          (H09.hcongr fun x hx => hag0 x (hrestlt x hx)).hwrite_out hpanr _
        have ELw : Extr (h0.write pa ⟨npa.Key, npa.Value, npa.Color, npa.Parent,
            npa.Left, some t.heap.next⟩) npa.Left (some pa) Lf pslf :=
          (ELf.congr fun x hx => hag0 x (hpsllt x hx)).write_out hpans _
        have hmpaw : (h0.write pa ⟨npa.Key, npa.Value, npa.Color, npa.Parent,
            npa.Left, some t.heap.next⟩).mem pa = some ⟨npa.Key, npa.Value, npa.Color,
            npa.Parent, npa.Left, some t.heap.next⟩ := by simp
        have H1 : HExtr (h0.write pa ⟨npa.Key, npa.Value, npa.Color, npa.Parent,
            npa.Left, some t.heap.next⟩) t.root none
            (.r pa ⟨npa.Key, npa.Value, npa.Color, npa.Parent, npa.Left,
              some t.heap.next⟩ Lf pslf :: rest) (some t.heap.next) (some pa) :=
          .right rest pa pe0 _ Lf pslf H0w hmpaw hpar9 ELw
        have hmleaf : (h0.write pa ⟨npa.Key, npa.Value, npa.Color, npa.Parent,
            npa.Left, some t.heap.next⟩).mem t.heap.next =
            some ⟨key, value, red, some pa, none, none⟩ := by
          rw [write_mem, if_neg (Nat.ne_of_gt hpalt)]
          rw [hm0]; simp
        have extL : Extr (h0.write pa ⟨npa.Key, npa.Value, npa.Color, npa.Parent,
            npa.Left, some t.heap.next⟩) (some t.heap.next) (some pa)
            (.node .nil red key value .nil) ([] ++ t.heap.next :: []) :=
          .node t.heap.next (some pa) ⟨key, value, red, some pa, none, none⟩ .nil [] .nil []
            hmleaf rfl (.nil _) (.nil _)
        have EXT1 := H1.compose extL
        have hndps1 : (plugPs rest (pslf ++ pa :: ([] ++ t.heap.next :: []))).Nodup := by
          rw [plugPs_nodup]
          have h2 : pa ∉ pslf ++ ctxPtrs rest := hpaout
          rw [List.nodup_append]
          rw [List.nodup_append] at hndr
          obtain ⟨hndl, hndrest, hdisj⟩ := hndr
          refine ⟨?_, hndrest, ?_⟩
          · rw [List.nodup_append]
            refine ⟨hndl, ?_, ?_⟩
            · simp only [List.nil_append, List.nodup_cons]
              refine ⟨?_, by simp⟩
              simp only [List.mem_singleton]
              exact Nat.ne_of_lt hpalt
            · intro a ha hb
              simp at hb
              rcases hb with hb | hb
              · rw [hb] at ha; exact h2 (by simp [ha])
              · rw [hb] at ha; exact absurd (hpsllt _ ha) (lt_irrefl _)
          · intro a ha hb
            rcases List.mem_append.1 ha with ha | ha
            · exact hdisj ha hb
            · simp at ha
              rcases ha with ha | ha
              · rw [ha] at hb; exact h2 (by simp [hb])
              · rw [ha] at hb; exact absurd (hrestlt _ hb) (lt_irrefl _)
        have hmemnode : t.heap.next ∈ plugPs rest (pslf ++ pa :: ([] ++ t.heap.next :: [])) := by
          rw [mem_plugPs]
          exact .inl (by simp)
        cases hfx : Tree.insertFixup ⟨h0.write pa ⟨npa.Key, npa.Value, npa.Color, npa.Parent,
            npa.Left, some t.heap.next⟩, t.root, t.size⟩ t.heap.next with
        | error e => rw [hfx, error_bind] at hrun; cases hrun
        | ok t3 =>
          rw [hfx, ok_bind] at hrun
          cases hrun
          obtain ⟨T3, ext3, hi3, hs3, hn3⟩ :=
            insertFixup_good (t := ⟨h0.write pa ⟨npa.Key, npa.Value, npa.Color, npa.Parent,
              npa.Left, some t.heap.next⟩, t.root, t.size⟩) EXT1 hndps1 hmemnode hfx
          have hnext3 : t3.heap.next = t.heap.next + 1 := by
            rw [hn3]
            show (h0.write pa _).next = t.heap.next + 1
            rw [write_next, hn0]
          refine ⟨T3, _, ext3, hndps1, ?_, ?_, .inr ⟨hnk, ?_, ?_, ?_⟩⟩
          · intro q hq
            rw [mem_plugPs] at hq
            show q < t3.heap.next
            rw [hnext3]
            rcases hq with hq | hq
            · simp only [List.nil_append, List.mem_append, List.mem_cons,
                List.mem_singleton] at hq
              have hq2 : q = t.heap.next ∨ q = pa ∨ q ∈ pslf := by tauto
              rcases hq2 with hq2 | hq2 | hq2
              · rw [hq2]
                exact Nat.lt_succ_self _
              · rw [hq2]
                exact Nat.lt_succ_of_lt hpalt
              · exact Nat.lt_succ_of_lt (hpsllt q hq2)
            · simp only [ctxPtrs, List.cons_append, List.mem_cons, List.mem_append] at hq
              rcases hq with hq | hq | hq
              · rw [hq]
                exact Nat.lt_succ_of_lt hpalt
              · exact Nat.lt_succ_of_lt (hpsllt q hq)
              · exact Nat.lt_succ_of_lt (hrestlt q hq)
          · rw [hi3, plugT_inorder, hup]
            simp [ctxInL, ctxInR, BT.inorder]
          · exact congrArg (fun z => z + (1 : Int)) hs3
          · show (plugPs rest (pslf ++ pa :: ([] ++ t.heap.next :: []))).length = ps.length + 1
            have hp1 := (plugPs_perm rest (pslf ++ pa :: ([] ++ t.heap.next :: []))).length_eq
            rw [hp1, hlenps]
            simp only [ctxPtrs, List.length_append, List.length_cons, List.length_nil,
              List.nil_append, List.cons_append, List.singleton_append]
            try omega
          · exact hnext3

theorem leftOf_ok_some {h : Heap V} {o : Option Ptr} {s : Ptr}
    (hr : leftOf h o = .ok (some s)) :
    ∃ pa n, o = some pa ∧ h.mem pa = some n ∧ n.Left = some s := by
  cases o with
  | none => simp [leftOf] at hr
  | some pa =>
    cases hm : h.mem pa with
    | none => simp [leftOf, getN, hm] at hr
    | some n =>
      simp [leftOf, getN_ok hm] at hr
      exact ⟨pa, n, rfl, hm, hr⟩

theorem rightOf_ok_some {h : Heap V} {o : Option Ptr} {s : Ptr}
    (hr : rightOf h o = .ok (some s)) :
    ∃ pa n, o = some pa ∧ h.mem pa = some n ∧ n.Right = some s := by
  cases o with
  | none => simp [rightOf] at hr
  | some pa =>
    cases hm : h.mem pa with
    | none => simp [rightOf, getN, hm] at hr
    | some n =>
      simp [rightOf, getN_ok hm] at hr
      exact ⟨pa, n, rfl, hm, hr⟩

theorem colorOf_red_some {h : Heap V} {o : Option Ptr}
    (hc : colorOf h o = .ok red) :
    ∃ p n, o = some p ∧ h.mem p = some n ∧ n.Color = red := by
  cases o with
  | none =>
    rw [colorOf_none] at hc
    cases hc
  | some p =>
    cases hm : h.mem p with
    | none => simp [colorOf, getN, hm] at hc
    | some n =>
      rw [colorOf_some hm] at hc
      injection hc with h
      exact ⟨p, n, rfl, hm, h⟩

/-- Terminal case of the left arm of deleteFixup: recolor the sibling to
the parent color, parent and the sibling right child black, rotate left
at the parent, continue from the root. -/
theorem delTermL {f : Nat}
    (ih : ∀ (t : Tree V) (x par : Option Ptr) (t' : Tree V) (x' : Option Ptr)
      (T : BT V) (ps : List Ptr),
      Extr t.heap t.root none T ps → ps.Nodup →
      (par = none ∨ ∃ pa, par = some pa ∧ pa ∈ ps) →
      (x = none ∨ ∃ q, x = some q ∧ q ∈ ps) →
      Tree.deleteFixupLoop t x par f = .ok (t', x') →
      ∃ T', Extr t'.heap t'.root none T' ps ∧ T'.inorder = T.inorder ∧
        t'.size = t.size ∧ t'.heap.next = t.heap.next ∧
        (x' = none ∨ ∃ q, x' = some q ∧ q ∈ ps))
    {t0 : Tree V} {par : Option Ptr} {t' : Tree V} {x' : Option Ptr}
    {T : BT V} {ps : List Ptr}
    (ext : Extr t0.heap t0.root none T ps) (nodup : ps.Nodup)
    (hpar : par = none ∨ ∃ pa, par = some pa ∧ pa ∈ ps)
    {s2 : Ptr} (hs2ps : s2 ∈ ps)
    (hrun : (do
        let c ← colorOf t0.heap par
        let h6 ← setC t0.heap s2 c
        let pa ← deref par
        let h7 ← setC h6 pa black
        let n8 ← getN h7 s2
        match n8.Right with
        | some sr => do
          let h9 ← setC h7 sr black
          let tr2 ← Tree.rotateLeft (⟨h9, t0.root, t0.size⟩ : Tree V) pa
          Tree.deleteFixupLoop tr2 tr2.root none f
        | none => do
          let tr2 ← Tree.rotateLeft (⟨h7, t0.root, t0.size⟩ : Tree V) pa
          Tree.deleteFixupLoop tr2 tr2.root none f) = .ok (t', x')) :
    ∃ T', Extr t'.heap t'.root none T' ps ∧ T'.inorder = T.inorder ∧
      t'.size = t0.size ∧ t'.heap.next = t0.heap.next ∧
      (x' = none ∨ ∃ q, x' = some q ∧ q ∈ ps) := by
  cases hcp : colorOf t0.heap par with
    | error e => rw [hcp, error_bind] at hrun; cases hrun
    | ok c5 =>
      rw [hcp, ok_bind] at hrun
      obtain ⟨ns2, hms2⟩ := ext.mem_some s2 hs2ps
      obtain ⟨h6, T6, e6, ext6, hi6, hn6⟩ := setC_step (t := t0) ext nodup hs2ps hms2 c5
      rw [e6, ok_bind] at hrun
      cases hpp : par with
      | none => rw [hpp, deref_none, error_bind] at hrun; cases hrun
      | some pa =>
        rw [hpp] at hrun
        rw [deref_some, ok_bind] at hrun
        have hpaps : pa ∈ ps := by
          rcases hpar with h | ⟨pa2, hpa2, hm2⟩
          · rw [hpp] at h; cases h
          · rw [hpp] at hpa2; cases hpa2; exact hm2
        obtain ⟨npa6, hmpa6⟩ := ext6.mem_some pa hpaps
        obtain ⟨h7, T7, e7, ext7, hi7, hn7⟩ :=
          setC_step (t := ⟨h6, t0.root, t0.size⟩) ext6 nodup hpaps hmpa6 black
        have e7x : setC h6 pa black = Except.ok h7 := e7
        rw [e7x, ok_bind] at hrun
        have ext7x : Extr h7 t0.root none T7 ps := ext7
        obtain ⟨ns27, hms27⟩ := ext7x.mem_some s2 hs2ps
        rw [getN_ok hms27, ok_bind] at hrun
        cases hnr : ns27.Right with
        | some sr =>
          rw [hnr] at hrun
          simp only [] at hrun
          have hsrps : sr ∈ ps := (ext7x.child_mem hs2ps hms27).2 sr hnr
          obtain ⟨nsr, hmsr⟩ := ext7x.mem_some sr hsrps
          obtain ⟨h9, T9, e9, ext9, hi9, hn9⟩ :=
            setC_step (t := ⟨h7, t0.root, t0.size⟩) ext7x nodup hsrps hmsr black
          have e9x : setC h7 sr black = Except.ok h9 := e9
          rw [e9x, ok_bind] at hrun
          have ext9x : Extr h9 t0.root none T9 ps := ext9
          obtain ⟨npa9, hmpa9⟩ := ext9x.mem_some pa hpaps
          cases hR : npa9.Right with
          | none =>
            rw [rotateLeft_err (t := ⟨h9, t0.root, t0.size⟩) hmpa9 hR, error_bind] at hrun
            cases hrun
          | some r =>
            obtain ⟨t5, T5, e5, ext5, hi5, hs5, hn5⟩ :=
              rotateLeft_good (t := ⟨h9, t0.root, t0.size⟩) ext9x nodup hpaps hmpa9 hR
            rw [e5, ok_bind] at hrun
            have hxinv : t5.root = none ∨ ∃ q, t5.root = some q ∧ q ∈ ps := by
              cases hr5 : t5.root with
              | none => exact .inl rfl
              | some q => exact .inr ⟨q, rfl, ext5.root_mem_opt q hr5⟩
            obtain ⟨T', ext', hi', hs', hn', hxo⟩ :=
              ih t5 t5.root none t' x' T5 ps ext5 nodup (.inl rfl) hxinv hrun
            refine ⟨T', ext', by rw [hi', hi5, hi9, hi7, hi6], ?_, ?_, hxo⟩
            · rw [hs']; exact hs5
            · rw [hn', hn5]; exact hn9.trans (hn7.trans hn6)
        | none =>
          rw [hnr] at hrun
          simp only [] at hrun
          obtain ⟨npa7, hmpa7⟩ := ext7x.mem_some pa hpaps
          cases hR : npa7.Right with
          | none =>
            rw [rotateLeft_err (t := ⟨h7, t0.root, t0.size⟩) hmpa7 hR, error_bind] at hrun
            cases hrun
          | some r =>
            obtain ⟨t5, T5, e5, ext5, hi5, hs5, hn5⟩ :=
              rotateLeft_good (t := ⟨h7, t0.root, t0.size⟩) ext7x nodup hpaps hmpa7 hR
            rw [e5, ok_bind] at hrun
            have hxinv : t5.root = none ∨ ∃ q, t5.root = some q ∧ q ∈ ps := by
              cases hr5 : t5.root with
              | none => exact .inl rfl
              | some q => exact .inr ⟨q, rfl, ext5.root_mem_opt q hr5⟩
            obtain ⟨T', ext', hi', hs', hn', hxo⟩ :=
              ih t5 t5.root none t' x' T5 ps ext5 nodup (.inl rfl) hxinv hrun
            refine ⟨T', ext', by rw [hi', hi5, hi7, hi6], ?_, ?_, hxo⟩
            · rw [hs']; exact hs5
            · rw [hn', hn5]; exact hn7.trans hn6

/-- Terminal case of the right arm of deleteFixup (mirror of delTermL). -/
theorem delTermR {f : Nat}
    (ih : ∀ (t : Tree V) (x par : Option Ptr) (t' : Tree V) (x' : Option Ptr)
      (T : BT V) (ps : List Ptr),
      Extr t.heap t.root none T ps → ps.Nodup →
      (par = none ∨ ∃ pa, par = some pa ∧ pa ∈ ps) →
      (x = none ∨ ∃ q, x = some q ∧ q ∈ ps) →
      Tree.deleteFixupLoop t x par f = .ok (t', x') →
      ∃ T', Extr t'.heap t'.root none T' ps ∧ T'.inorder = T.inorder ∧
        t'.size = t.size ∧ t'.heap.next = t.heap.next ∧
        (x' = none ∨ ∃ q, x' = some q ∧ q ∈ ps))
    {t0 : Tree V} {par : Option Ptr} {t' : Tree V} {x' : Option Ptr}
    {T : BT V} {ps : List Ptr}
    (ext : Extr t0.heap t0.root none T ps) (nodup : ps.Nodup)
    (hpar : par = none ∨ ∃ pa, par = some pa ∧ pa ∈ ps)
    {s2 : Ptr} (hs2ps : s2 ∈ ps)
    (hrun : (do
        let c ← colorOf t0.heap par
        let h6 ← setC t0.heap s2 c
        let pa ← deref par
        let h7 ← setC h6 pa black
        let n8 ← getN h7 s2
        match n8.Left with
        | some sl => do
          let h9 ← setC h7 sl black
          let tr2 ← Tree.rotateRight (⟨h9, t0.root, t0.size⟩ : Tree V) pa
          Tree.deleteFixupLoop tr2 tr2.root none f
        | none => do
          let tr2 ← Tree.rotateRight (⟨h7, t0.root, t0.size⟩ : Tree V) pa
          Tree.deleteFixupLoop tr2 tr2.root none f) = .ok (t', x')) :
    ∃ T', Extr t'.heap t'.root none T' ps ∧ T'.inorder = T.inorder ∧
      t'.size = t0.size ∧ t'.heap.next = t0.heap.next ∧
      (x' = none ∨ ∃ q, x' = some q ∧ q ∈ ps) := by
  cases hcp : colorOf t0.heap par with
    | error e => rw [hcp, error_bind] at hrun; cases hrun
    | ok c5 =>
      rw [hcp, ok_bind] at hrun
      obtain ⟨ns2, hms2⟩ := ext.mem_some s2 hs2ps
      obtain ⟨h6, T6, e6, ext6, hi6, hn6⟩ := setC_step (t := t0) ext nodup hs2ps hms2 c5
      rw [e6, ok_bind] at hrun
      cases hpp : par with
      | none => rw [hpp, deref_none, error_bind] at hrun; cases hrun
      | some pa =>
        rw [hpp] at hrun
        rw [deref_some, ok_bind] at hrun
        have hpaps : pa ∈ ps := by
          rcases hpar with h | ⟨pa2, hpa2, hm2⟩
          · rw [hpp] at h; cases h
          · rw [hpp] at hpa2; cases hpa2; exact hm2
        obtain ⟨npa6, hmpa6⟩ := ext6.mem_some pa hpaps
        obtain ⟨h7, T7, e7, ext7, hi7, hn7⟩ :=
          setC_step (t := ⟨h6, t0.root, t0.size⟩) ext6 nodup hpaps hmpa6 black
        have e7x : setC h6 pa black = Except.ok h7 := e7
        rw [e7x, ok_bind] at hrun
        have ext7x : Extr h7 t0.root none T7 ps := ext7
        obtain ⟨ns27, hms27⟩ := ext7x.mem_some s2 hs2ps
        rw [getN_ok hms27, ok_bind] at hrun
        cases hnl : ns27.Left with
        | some sl =>
          rw [hnl] at hrun
          simp only [] at hrun
          have hslps : sl ∈ ps := (ext7x.child_mem hs2ps hms27).1 sl hnl
          obtain ⟨nsl, hmsl⟩ := ext7x.mem_some sl hslps
          obtain ⟨h9, T9, e9, ext9, hi9, hn9⟩ :=
            setC_step (t := ⟨h7, t0.root, t0.size⟩) ext7x nodup hslps hmsl black
          have e9x : setC h7 sl black = Except.ok h9 := e9
          rw [e9x, ok_bind] at hrun
          have ext9x : Extr h9 t0.root none T9 ps := ext9
          obtain ⟨npa9, hmpa9⟩ := ext9x.mem_some pa hpaps
          cases hL : npa9.Left with
          | none =>
            rw [rotateRight_err (t := ⟨h9, t0.root, t0.size⟩) hmpa9 hL, error_bind] at hrun
            cases hrun
          | some lf =>
            obtain ⟨t5, T5, e5, ext5, hi5, hs5, hn5⟩ :=
              rotateRight_good (t := ⟨h9, t0.root, t0.size⟩) ext9x nodup hpaps hmpa9 hL
            rw [e5, ok_bind] at hrun
            have hxinv : t5.root = none ∨ ∃ q, t5.root = some q ∧ q ∈ ps := by
              cases hr5 : t5.root with
              | none => exact .inl rfl
              | some q => exact .inr ⟨q, rfl, ext5.root_mem_opt q hr5⟩
            obtain ⟨T', ext', hi', hs', hn', hxo⟩ :=
              ih t5 t5.root none t' x' T5 ps ext5 nodup (.inl rfl) hxinv hrun
            refine ⟨T', ext', by rw [hi', hi5, hi9, hi7, hi6], ?_, ?_, hxo⟩
            · rw [hs']; exact hs5
            · rw [hn', hn5]; exact hn9.trans (hn7.trans hn6)
        | none =>
          rw [hnl] at hrun
          simp only [] at hrun
          obtain ⟨npa7, hmpa7⟩ := ext7x.mem_some pa hpaps
          cases hL : npa7.Left with
          | none =>
            rw [rotateRight_err (t := ⟨h7, t0.root, t0.size⟩) hmpa7 hL, error_bind] at hrun
            cases hrun
          | some lf =>
            obtain ⟨t5, T5, e5, ext5, hi5, hs5, hn5⟩ :=
              rotateRight_good (t := ⟨h7, t0.root, t0.size⟩) ext7x nodup hpaps hmpa7 hL
            rw [e5, ok_bind] at hrun
            have hxinv : t5.root = none ∨ ∃ q, t5.root = some q ∧ q ∈ ps := by
              cases hr5 : t5.root with
              | none => exact .inl rfl
              | some q => exact .inr ⟨q, rfl, ext5.root_mem_opt q hr5⟩
            obtain ⟨T', ext', hi', hs', hn', hxo⟩ :=
              ih t5 t5.root none t' x' T5 ps ext5 nodup (.inl rfl) hxinv hrun
            refine ⟨T', ext', by rw [hi', hi5, hi7, hi6], ?_, ?_, hxo⟩
            · rw [hs']; exact hs5
            · rw [hn', hn5]; exact hn7.trans hn6

/-- Left arm of the deleteFixup loop after the sibling has been fetched
(and after the red-sibling pre-rotation, when it applies). -/
theorem delTailL {f : Nat}
    (ih : ∀ (t : Tree V) (x par : Option Ptr) (t' : Tree V) (x' : Option Ptr)
      (T : BT V) (ps : List Ptr),
      Extr t.heap t.root none T ps → ps.Nodup →
      (par = none ∨ ∃ pa, par = some pa ∧ pa ∈ ps) →
      (x = none ∨ ∃ q, x = some q ∧ q ∈ ps) →
      Tree.deleteFixupLoop t x par f = .ok (t', x') →
      ∃ T', Extr t'.heap t'.root none T' ps ∧ T'.inorder = T.inorder ∧
        t'.size = t.size ∧ t'.heap.next = t.heap.next ∧
        (x' = none ∨ ∃ q, x' = some q ∧ q ∈ ps))
    {t0 : Tree V} {sv par : Option Ptr} {t' : Tree V} {x' : Option Ptr}
    {T : BT V} {ps : List Ptr}
    (ext : Extr t0.heap t0.root none T ps) (nodup : ps.Nodup)
    (hpar : par = none ∨ ∃ pa, par = some pa ∧ pa ∈ ps)
    (hsv : ∀ z, sv = some z → z ∈ ps)
    (hrun : (do
        let s ← deref sv
        let bothBlack ← (do
          let a ← getN t0.heap s
          let c ← colorOf t0.heap a.Left
          if c = black then do
            let b ← getN t0.heap s
            let d ← colorOf t0.heap b.Right
            Except.ok (decide (d = black))
          else Except.ok false)
        if bothBlack = true then do
          let h1 ← setC t0.heap s red
          let xp ← deref par
          let n2 ← getN h1 xp
          Tree.deleteFixupLoop (⟨h1, t0.root, t0.size⟩ : Tree V) par n2.Parent f
        else do
          let a2 ← getN t0.heap s
          let c3 ← colorOf t0.heap a2.Right
          if c3 = black then do
            let a3 ← getN t0.heap s
            match a3.Left with
            | some sl => do
              let h1 ← setC t0.heap sl black
              let h2 ← setC h1 s red
              let tr ← Tree.rotateRight (⟨h2, t0.root, t0.size⟩ : Tree V) s
              let sv2 ← rightOf tr.heap par
              let s2 ← deref sv2
              let c5 ← colorOf tr.heap par
              let h6 ← setC tr.heap s2 c5
              let pa ← deref par
              let h7 ← setC h6 pa black
              let n8 ← getN h7 s2
              match n8.Right with
              | some sr => do
                let h9 ← setC h7 sr black
                let tr2 ← Tree.rotateLeft (⟨h9, tr.root, tr.size⟩ : Tree V) pa
                Tree.deleteFixupLoop tr2 tr2.root none f
              | none => do
                let tr2 ← Tree.rotateLeft (⟨h7, tr.root, tr.size⟩ : Tree V) pa
                Tree.deleteFixupLoop tr2 tr2.root none f
            | none => do
              let h2 ← setC t0.heap s red
              let tr ← Tree.rotateRight (⟨h2, t0.root, t0.size⟩ : Tree V) s
              let sv2 ← rightOf tr.heap par
              let s2 ← deref sv2
              let c5 ← colorOf tr.heap par
              let h6 ← setC tr.heap s2 c5
              let pa ← deref par
              let h7 ← setC h6 pa black
              let n8 ← getN h7 s2
              match n8.Right with
              | some sr => do
                let h9 ← setC h7 sr black
                let tr2 ← Tree.rotateLeft (⟨h9, tr.root, tr.size⟩ : Tree V) pa
                Tree.deleteFixupLoop tr2 tr2.root none f
              | none => do
                let tr2 ← Tree.rotateLeft (⟨h7, tr.root, tr.size⟩ : Tree V) pa
                Tree.deleteFixupLoop tr2 tr2.root none f
          else do
            let s2 ← deref sv
            let c5 ← colorOf t0.heap par
            let h6 ← setC t0.heap s2 c5
            let pa ← deref par
            let h7 ← setC h6 pa black
            let n8 ← getN h7 s2
            match n8.Right with
            | some sr => do
              let h9 ← setC h7 sr black
              let tr2 ← Tree.rotateLeft (⟨h9, t0.root, t0.size⟩ : Tree V) pa
              Tree.deleteFixupLoop tr2 tr2.root none f
            | none => do
              let tr2 ← Tree.rotateLeft (⟨h7, t0.root, t0.size⟩ : Tree V) pa
              Tree.deleteFixupLoop tr2 tr2.root none f) = .ok (t', x')) :
    ∃ T', Extr t'.heap t'.root none T' ps ∧ T'.inorder = T.inorder ∧
      t'.size = t0.size ∧ t'.heap.next = t0.heap.next ∧
      (x' = none ∨ ∃ q, x' = some q ∧ q ∈ ps) := by
  cases hso : sv with
  | none => rw [hso, deref_none, error_bind] at hrun; cases hrun
  | some s =>
    rw [hso, deref_some, ok_bind] at hrun
    have hsps : s ∈ ps := hsv s hso
    obtain ⟨ns, hms⟩ := ext.mem_some s hsps
    rw [getN_ok hms, ok_bind] at hrun
    cases hcl : colorOf t0.heap ns.Left with
    | error e =>
      rw [hcl] at hrun
      simp only [error_bind] at hrun
      cases hrun
    | ok cL =>
      rw [hcl, ok_bind] at hrun
      by_cases hcLb : cL = black
      · rw [if_pos hcLb] at hrun
        rw [ok_bind] at hrun
        cases hcr : colorOf t0.heap ns.Right with
        | error e =>
          rw [hcr] at hrun
          simp only [error_bind] at hrun
          cases hrun
        | ok cR =>
          rw [hcr, ok_bind, ok_bind] at hrun
          by_cases hcRb : cR = black
          · rw [decide_eq_true hcRb] at hrun
            rw [if_pos rfl] at hrun
            obtain ⟨h1, T1, e1, ext1, hi1, hn1⟩ := setC_step (t := t0) ext nodup hsps hms red
            rw [e1, ok_bind] at hrun
            cases hpp : par with
            | none => rw [hpp, deref_none, error_bind] at hrun; cases hrun
            | some pa =>
              rw [hpp] at hrun
              rw [deref_some, ok_bind] at hrun
              have hpaps : pa ∈ ps := by
                rcases hpar with h | ⟨pa2, hpa2, hm2⟩
                · rw [hpp] at h; cases h
                · rw [hpp] at hpa2; cases hpa2; exact hm2
              obtain ⟨npa1, hmpa1⟩ := ext1.mem_some pa hpaps
              rw [getN_ok hmpa1, ok_bind] at hrun
              have hpinv : npa1.Parent = none ∨ ∃ q, npa1.Parent = some q ∧ q ∈ ps :=
                ext1.parent_mem hpaps hmpa1
              obtain ⟨T', ext', hi', hs', hn', hxo⟩ :=
                ih ⟨h1, t0.root, t0.size⟩ (some pa) npa1.Parent t' x' T1 ps ext1 nodup
                  hpinv (.inr ⟨pa, rfl, hpaps⟩) hrun
              refine ⟨T', ext', by rw [hi', hi1], hs', by rw [hn']; exact hn1, hxo⟩
          · rw [decide_eq_false hcRb] at hrun
            rw [if_neg (by simp)] at hrun
            rw [ok_bind] at hrun
            rw [hcr, ok_bind] at hrun
            rw [if_neg hcRb] at hrun
            rw [ok_bind] at hrun
            exact delTermL ih ext nodup hpar hsps hrun
      · rw [if_neg hcLb] at hrun
        rw [ok_bind] at hrun
        rw [if_neg (by simp)] at hrun
        rw [ok_bind] at hrun
        cases hcr2 : colorOf t0.heap ns.Right with
        | error e => rw [hcr2, error_bind] at hrun; cases hrun
        | ok c3 =>
          rw [hcr2, ok_bind] at hrun
          by_cases hc3b : c3 = black
          · rw [if_pos hc3b] at hrun
            rw [ok_bind] at hrun
            cases hnl : ns.Left with
            | some sl =>
              rw [hnl] at hrun
              simp only [] at hrun
              have hslps : sl ∈ ps := (ext.child_mem hsps hms).1 sl hnl
              obtain ⟨nsl, hmsl⟩ := ext.mem_some sl hslps
              obtain ⟨h1, T1, e1, ext1, hi1, hn1⟩ :=
                setC_step (t := t0) ext nodup hslps hmsl black
              rw [e1, ok_bind] at hrun
              obtain ⟨ns1, hms1⟩ := ext1.mem_some s hsps
              obtain ⟨h2, T2, e2, ext2, hi2, hn2⟩ :=
                setC_step (t := ⟨h1, t0.root, t0.size⟩) ext1 nodup hsps hms1 red
              have e2x : setC h1 s red = Except.ok h2 := e2
              rw [e2x, ok_bind] at hrun
              have ext2x : Extr h2 t0.root none T2 ps := ext2
              obtain ⟨ns2, hms2b⟩ := ext2x.mem_some s hsps
              cases hL : ns2.Left with
              | none =>
                rw [rotateRight_err (t := ⟨h2, t0.root, t0.size⟩) hms2b hL, error_bind] at hrun
                cases hrun
              | some lf =>
                obtain ⟨tr, Tr, e3, extr, hir, hsr, hnr2⟩ :=
                  rotateRight_good (t := ⟨h2, t0.root, t0.size⟩) ext2x nodup hsps hms2b hL
                rw [e3, ok_bind] at hrun
                cases hro2 : rightOf tr.heap par with
                | error e => rw [hro2, error_bind] at hrun; cases hrun
                | ok sv2 =>
                  rw [hro2, ok_bind] at hrun
                  cases hsv2o : sv2 with
                  | none => rw [hsv2o, deref_none, error_bind] at hrun; cases hrun
                  | some s2 =>
                    rw [hsv2o, deref_some, ok_bind] at hrun
                    have hs2ps : s2 ∈ ps := by
                      rw [hsv2o] at hro2
                      obtain ⟨pa2, npa2, hpa2, hmpa2, hr2⟩ := rightOf_ok_some hro2
                      have hpa2ps : pa2 ∈ ps := by
                        rcases hpar with h | ⟨pa3, hpa3, hm3⟩
                        · rw [h] at hpa2; cases hpa2
                        · rw [hpa3] at hpa2; injection hpa2 with hh; rw [← hh]; exact hm3
                      exact (extr.child_mem hpa2ps hmpa2).2 s2 hr2
                    obtain ⟨T', ext', hi', hs', hn', hxo⟩ :=
                      delTermL ih extr nodup hpar hs2ps hrun
                    refine ⟨T', ext', by rw [hi', hir, hi2, hi1], ?_, ?_, hxo⟩
                    · rw [hs']; exact hsr
                    · rw [hn', hnr2]; exact hn2.trans hn1
            | none =>
              rw [hnl] at hrun
              simp only [] at hrun
              obtain ⟨h2, T2, e2, ext2, hi2, hn2⟩ := setC_step (t := t0) ext nodup hsps hms red
              rw [e2, ok_bind] at hrun
              obtain ⟨ns2, hms2b⟩ := ext2.mem_some s hsps
              cases hL : ns2.Left with
              | none =>
                rw [rotateRight_err (t := ⟨h2, t0.root, t0.size⟩) hms2b hL, error_bind] at hrun
                cases hrun
              | some lf =>
                obtain ⟨tr, Tr, e3, extr, hir, hsr, hnr2⟩ :=
                  rotateRight_good (t := ⟨h2, t0.root, t0.size⟩) ext2 nodup hsps hms2b hL
                rw [e3, ok_bind] at hrun
                cases hro2 : rightOf tr.heap par with
                | error e => rw [hro2, error_bind] at hrun; cases hrun
                | ok sv2 =>
                  rw [hro2, ok_bind] at hrun
                  cases hsv2o : sv2 with
                  | none => rw [hsv2o, deref_none, error_bind] at hrun; cases hrun
                  | some s2 =>
                    rw [hsv2o, deref_some, ok_bind] at hrun
                    have hs2ps : s2 ∈ ps := by
                      rw [hsv2o] at hro2
                      obtain ⟨pa2, npa2, hpa2, hmpa2, hr2⟩ := rightOf_ok_some hro2
                      have hpa2ps : pa2 ∈ ps := by
                        rcases hpar with h | ⟨pa3, hpa3, hm3⟩
                        · rw [h] at hpa2; cases hpa2
                        · rw [hpa3] at hpa2; injection hpa2 with hh; rw [← hh]; exact hm3
                      exact (extr.child_mem hpa2ps hmpa2).2 s2 hr2
                    obtain ⟨T', ext', hi', hs', hn', hxo⟩ :=
                      delTermL ih extr nodup hpar hs2ps hrun
                    refine ⟨T', ext', by rw [hi', hir, hi2], ?_, ?_, hxo⟩
                    · rw [hs']; exact hsr
                    · rw [hn', hnr2]; exact hn2
          · rw [if_neg hc3b] at hrun
            rw [ok_bind] at hrun
            exact delTermL ih ext nodup hpar hsps hrun

/-- Right arm of the deleteFixup loop after the sibling has been fetched
(mirror of delTailL). -/
theorem delTailR {f : Nat}
    (ih : ∀ (t : Tree V) (x par : Option Ptr) (t' : Tree V) (x' : Option Ptr)
      (T : BT V) (ps : List Ptr),
      Extr t.heap t.root none T ps → ps.Nodup →
      (par = none ∨ ∃ pa, par = some pa ∧ pa ∈ ps) →
      (x = none ∨ ∃ q, x = some q ∧ q ∈ ps) →
      Tree.deleteFixupLoop t x par f = .ok (t', x') →
      ∃ T', Extr t'.heap t'.root none T' ps ∧ T'.inorder = T.inorder ∧
        t'.size = t.size ∧ t'.heap.next = t.heap.next ∧
        (x' = none ∨ ∃ q, x' = some q ∧ q ∈ ps))
    {t0 : Tree V} {sv par : Option Ptr} {t' : Tree V} {x' : Option Ptr}
    {T : BT V} {ps : List Ptr}
    (ext : Extr t0.heap t0.root none T ps) (nodup : ps.Nodup)
    (hpar : par = none ∨ ∃ pa, par = some pa ∧ pa ∈ ps)
    (hsv : ∀ z, sv = some z → z ∈ ps)
    (hrun : (do
        let s ← deref sv
        let bothBlack ← (do
          let a ← getN t0.heap s
          let c ← colorOf t0.heap a.Left
          if c = black then do
            let b ← getN t0.heap s
            let d ← colorOf t0.heap b.Right
            Except.ok (decide (d = black))
          else Except.ok false)
        if bothBlack = true then do
          let h1 ← setC t0.heap s red
          let xp ← deref par
          let n2 ← getN h1 xp
          Tree.deleteFixupLoop (⟨h1, t0.root, t0.size⟩ : Tree V) par n2.Parent f
        else do
          let a2 ← getN t0.heap s
          let c3 ← colorOf t0.heap a2.Left
          if c3 = black then do
            let a3 ← getN t0.heap s
            match a3.Right with
            | some sr => do
              let h1 ← setC t0.heap sr black
              let h2 ← setC h1 s red
              let tr ← Tree.rotateLeft (⟨h2, t0.root, t0.size⟩ : Tree V) s
              let sv2 ← leftOf tr.heap par
              let s2 ← deref sv2
              let c5 ← colorOf tr.heap par
              let h6 ← setC tr.heap s2 c5
              let pa ← deref par
              let h7 ← setC h6 pa black
              let n8 ← getN h7 s2
              match n8.Left with
              | some sl => do
                let h9 ← setC h7 sl black
                let tr2 ← Tree.rotateRight (⟨h9, tr.root, tr.size⟩ : Tree V) pa
                Tree.deleteFixupLoop tr2 tr2.root none f
              | none => do
                let tr2 ← Tree.rotateRight (⟨h7, tr.root, tr.size⟩ : Tree V) pa
                Tree.deleteFixupLoop tr2 tr2.root none f
            | none => do
              let h2 ← setC t0.heap s red
              let tr ← Tree.rotateLeft (⟨h2, t0.root, t0.size⟩ : Tree V) s
              let sv2 ← leftOf tr.heap par
              let s2 ← deref sv2
              let c5 ← colorOf tr.heap par
              let h6 ← setC tr.heap s2 c5
              let pa ← deref par
              let h7 ← setC h6 pa black
              let n8 ← getN h7 s2
              match n8.Left with
              | some sl => do
                let h9 ← setC h7 sl black
                let tr2 ← Tree.rotateRight (⟨h9, tr.root, tr.size⟩ : Tree V) pa
                Tree.deleteFixupLoop tr2 tr2.root none f
              | none => do
                let tr2 ← Tree.rotateRight (⟨h7, tr.root, tr.size⟩ : Tree V) pa
                Tree.deleteFixupLoop tr2 tr2.root none f
          else do
            let s2 ← deref sv
            let c5 ← colorOf t0.heap par
            let h6 ← setC t0.heap s2 c5
            let pa ← deref par
            let h7 ← setC h6 pa black
            let n8 ← getN h7 s2
            match n8.Left with
            | some sl => do
              let h9 ← setC h7 sl black
              let tr2 ← Tree.rotateRight (⟨h9, t0.root, t0.size⟩ : Tree V) pa
              Tree.deleteFixupLoop tr2 tr2.root none f
            | none => do
              let tr2 ← Tree.rotateRight (⟨h7, t0.root, t0.size⟩ : Tree V) pa
              Tree.deleteFixupLoop tr2 tr2.root none f) = .ok (t', x')) :
    ∃ T', Extr t'.heap t'.root none T' ps ∧ T'.inorder = T.inorder ∧
      t'.size = t0.size ∧ t'.heap.next = t0.heap.next ∧
      (x' = none ∨ ∃ q, x' = some q ∧ q ∈ ps) := by
  cases hso : sv with
  | none => rw [hso, deref_none, error_bind] at hrun; cases hrun
  | some s =>
    rw [hso, deref_some, ok_bind] at hrun
    have hsps : s ∈ ps := hsv s hso
    obtain ⟨ns, hms⟩ := ext.mem_some s hsps
    rw [getN_ok hms, ok_bind] at hrun
    cases hcl : colorOf t0.heap ns.Left with
    | error e =>
      rw [hcl] at hrun
      simp only [error_bind] at hrun
      cases hrun
    | ok cL =>
      rw [hcl, ok_bind] at hrun
      by_cases hcLb : cL = black
      · rw [if_pos hcLb] at hrun
        rw [ok_bind] at hrun
        cases hcr : colorOf t0.heap ns.Right with
        | error e =>
          rw [hcr] at hrun
          simp only [error_bind] at hrun
          cases hrun
        | ok cR =>
          rw [hcr, ok_bind, ok_bind] at hrun
          by_cases hcRb : cR = black
          · rw [decide_eq_true hcRb] at hrun
            rw [if_pos rfl] at hrun
            obtain ⟨h1, T1, e1, ext1, hi1, hn1⟩ := setC_step (t := t0) ext nodup hsps hms red
            rw [e1, ok_bind] at hrun
            cases hpp : par with
            | none => rw [hpp, deref_none, error_bind] at hrun; cases hrun
            | some pa =>
              rw [hpp] at hrun
              rw [deref_some, ok_bind] at hrun
              have hpaps : pa ∈ ps := by
                rcases hpar with h | ⟨pa2, hpa2, hm2⟩
                · rw [hpp] at h; cases h
                · rw [hpp] at hpa2; cases hpa2; exact hm2
              obtain ⟨npa1, hmpa1⟩ := ext1.mem_some pa hpaps
              rw [getN_ok hmpa1, ok_bind] at hrun
              have hpinv : npa1.Parent = none ∨ ∃ q, npa1.Parent = some q ∧ q ∈ ps :=
                ext1.parent_mem hpaps hmpa1
              obtain ⟨T', ext', hi', hs', hn', hxo⟩ :=
                ih ⟨h1, t0.root, t0.size⟩ (some pa) npa1.Parent t' x' T1 ps ext1 nodup
                  hpinv (.inr ⟨pa, rfl, hpaps⟩) hrun
              refine ⟨T', ext', by rw [hi', hi1], hs', by rw [hn']; exact hn1, hxo⟩
          · rw [decide_eq_false hcRb] at hrun
            rw [if_neg (by simp)] at hrun
            rw [ok_bind] at hrun
            rw [hcl, ok_bind] at hrun
            rw [if_pos hcLb] at hrun
            rw [ok_bind] at hrun
            cases hnr : ns.Right with
            | some sr =>
              rw [hnr] at hrun
              simp only [] at hrun
              have hsrps : sr ∈ ps := (ext.child_mem hsps hms).2 sr hnr
              obtain ⟨nsr, hmsr⟩ := ext.mem_some sr hsrps
              obtain ⟨h1, T1, e1, ext1, hi1, hn1⟩ :=
                setC_step (t := t0) ext nodup hsrps hmsr black
              rw [e1, ok_bind] at hrun
              obtain ⟨ns1, hms1⟩ := ext1.mem_some s hsps
              obtain ⟨h2, T2, e2, ext2, hi2, hn2⟩ :=
                setC_step (t := ⟨h1, t0.root, t0.size⟩) ext1 nodup hsps hms1 red
              have e2x : setC h1 s red = Except.ok h2 := e2
              rw [e2x, ok_bind] at hrun
              have ext2x : Extr h2 t0.root none T2 ps := ext2
              obtain ⟨ns2, hms2b⟩ := ext2x.mem_some s hsps
              cases hR : ns2.Right with
              | none =>
                rw [rotateLeft_err (t := ⟨h2, t0.root, t0.size⟩) hms2b hR, error_bind] at hrun
                cases hrun
              | some r =>
                obtain ⟨tr, Tr, e3, extr, hir, hsr2, hnr2⟩ :=
                  rotateLeft_good (t := ⟨h2, t0.root, t0.size⟩) ext2x nodup hsps hms2b hR
                rw [e3, ok_bind] at hrun
                cases hro2 : leftOf tr.heap par with
                | error e => rw [hro2, error_bind] at hrun; cases hrun
                | ok sv2 =>
                  rw [hro2, ok_bind] at hrun
                  cases hsv2o : sv2 with
                  | none => rw [hsv2o, deref_none, error_bind] at hrun; cases hrun
                  | some s2 =>
                    rw [hsv2o, deref_some, ok_bind] at hrun
                    have hs2ps : s2 ∈ ps := by
                      rw [hsv2o] at hro2
                      obtain ⟨pa2, npa2, hpa2, hmpa2, hr2⟩ := leftOf_ok_some hro2
                      have hpa2ps : pa2 ∈ ps := by
                        rcases hpar with h | ⟨pa3, hpa3, hm3⟩
                        · rw [h] at hpa2; cases hpa2
                        · rw [hpa3] at hpa2; injection hpa2 with hh; rw [← hh]; exact hm3
                      exact (extr.child_mem hpa2ps hmpa2).1 s2 hr2
                    obtain ⟨T', ext', hi', hs', hn', hxo⟩ :=
                      delTermR ih extr nodup hpar hs2ps hrun
                    refine ⟨T', ext', by rw [hi', hir, hi2, hi1], ?_, ?_, hxo⟩
                    · rw [hs']; exact hsr2
                    · rw [hn', hnr2]; exact hn2.trans hn1
            | none =>
              rw [hnr] at hrun
              simp only [] at hrun
              obtain ⟨h2, T2, e2, ext2, hi2, hn2⟩ := setC_step (t := t0) ext nodup hsps hms red
              rw [e2, ok_bind] at hrun
              obtain ⟨ns2, hms2b⟩ := ext2.mem_some s hsps
              cases hR : ns2.Right with
              | none =>
                rw [rotateLeft_err (t := ⟨h2, t0.root, t0.size⟩) hms2b hR, error_bind] at hrun
                cases hrun
              | some r =>
                obtain ⟨tr, Tr, e3, extr, hir, hsr2, hnr2⟩ :=
                  rotateLeft_good (t := ⟨h2, t0.root, t0.size⟩) ext2 nodup hsps hms2b hR
                rw [e3, ok_bind] at hrun
                cases hro2 : leftOf tr.heap par with
                | error e => rw [hro2, error_bind] at hrun; cases hrun
                | ok sv2 =>
                  rw [hro2, ok_bind] at hrun
                  cases hsv2o : sv2 with
                  | none => rw [hsv2o, deref_none, error_bind] at hrun; cases hrun
                  | some s2 =>
                    rw [hsv2o, deref_some, ok_bind] at hrun
                    have hs2ps : s2 ∈ ps := by
                      rw [hsv2o] at hro2
                      obtain ⟨pa2, npa2, hpa2, hmpa2, hr2⟩ := leftOf_ok_some hro2
                      have hpa2ps : pa2 ∈ ps := by
                        rcases hpar with h | ⟨pa3, hpa3, hm3⟩
                        · rw [h] at hpa2; cases hpa2
                        · rw [hpa3] at hpa2; injection hpa2 with hh; rw [← hh]; exact hm3
                      exact (extr.child_mem hpa2ps hmpa2).1 s2 hr2
                    obtain ⟨T', ext', hi', hs', hn', hxo⟩ :=
                      delTermR ih extr nodup hpar hs2ps hrun
                    refine ⟨T', ext', by rw [hi', hir, hi2], ?_, ?_, hxo⟩
                    · rw [hs']; exact hsr2
                    · rw [hn', hnr2]; exact hn2
      · rw [if_neg hcLb] at hrun
        rw [ok_bind] at hrun
        rw [if_neg (by simp)] at hrun
        rw [ok_bind] at hrun
        rw [hcl, ok_bind] at hrun
        rw [if_neg hcLb] at hrun
        rw [ok_bind] at hrun
        exact delTermR ih ext nodup hpar hsps hrun

/-- The deleteFixup loop only recolors and rotates: on success the
address list, in-order sequence, size and allocation counter survive,
and the returned x pointer is nil or an in-tree address. -/
theorem deleteFixupLoop_good :
    ∀ (fuel : Nat) (t : Tree V) (x par : Option Ptr) (t' : Tree V) (x' : Option Ptr)
      (T : BT V) (ps : List Ptr),
      Extr t.heap t.root none T ps → ps.Nodup →
      (par = none ∨ ∃ pa, par = some pa ∧ pa ∈ ps) →
      (x = none ∨ ∃ q, x = some q ∧ q ∈ ps) →
      Tree.deleteFixupLoop t x par fuel = .ok (t', x') →
      ∃ T', Extr t'.heap t'.root none T' ps ∧ T'.inorder = T.inorder ∧
        t'.size = t.size ∧ t'.heap.next = t.heap.next ∧
        (x' = none ∨ ∃ q, x' = some q ∧ q ∈ ps) := by
  intro fuel
  induction fuel with
  | zero =>
    intro t x par t' x' T ps ext nodup hpar hx hrun
    simp [Tree.deleteFixupLoop] at hrun
  | succ f ih =>
    intro t x par t' x' T ps ext nodup hpar hx hrun
    rw [Tree.deleteFixupLoop] at hrun
    by_cases hxr : x = t.root
    · rw [if_pos hxr] at hrun
      cases hrun
      exact ⟨T, ext, rfl, rfl, rfl, hx⟩
    · rw [if_neg hxr] at hrun
      cases hcx : colorOf t.heap x with
      | error e => rw [hcx, error_bind] at hrun; cases hrun
      | ok cx =>
        rw [hcx, ok_bind] at hrun
        by_cases hcb : cx = black
        · rw [if_pos hcb] at hrun
          simp only [] at hrun
          cases hlp : leftOf t.heap par with
          | error e => rw [hlp, error_bind] at hrun; cases hrun
          | ok lv =>
            rw [hlp, ok_bind] at hrun
            by_cases hxl : x = lv
            · rw [if_pos hxl] at hrun
              cases hro : rightOf t.heap par with
              | error e => rw [hro, error_bind] at hrun; cases hrun
              | ok sv =>
                rw [hro, ok_bind] at hrun
                cases hcs : colorOf t.heap sv with
                | error e => rw [hcs, error_bind] at hrun; cases hrun
                | ok cs =>
                  rw [hcs, ok_bind] at hrun
                  have hsvmem : ∀ z, sv = some z → z ∈ ps := by
                    intro z hz
                    rw [hz] at hro
                    obtain ⟨pa2, npa2, hpa2, hmpa2, hr2⟩ := rightOf_ok_some hro
                    have hpa2ps : pa2 ∈ ps := by
                      rcases hpar with h | ⟨pa3, hpa3, hm3⟩
                      · rw [h] at hpa2; cases hpa2
                      · rw [hpa3] at hpa2; injection hpa2 with hh; rw [← hh]; exact hm3
                    exact (ext.child_mem hpa2ps hmpa2).2 z hr2
                  by_cases hcsr : cs = red
                  · rw [if_pos hcsr] at hrun
                    subst hcsr
                    obtain ⟨sp, nsp, hsvq, hmsp, hcsp⟩ := colorOf_red_some hcs
                    rw [hsvq] at hrun
                    rw [deref_some, ok_bind] at hrun
                    have hsps : sp ∈ ps := hsvmem sp hsvq
                    obtain ⟨h1, T1, e1, ext1, hi1, hn1⟩ :=
                      setC_step (t := t) ext nodup hsps hmsp black
                    rw [e1, ok_bind] at hrun
                    cases hpp : par with
                    | none => rw [hpp, deref_none, error_bind] at hrun; cases hrun
                    | some pa =>
                      rw [hpp] at hrun
                      rw [deref_some, ok_bind] at hrun
                      have hpaps : pa ∈ ps := by
                        rcases hpar with h | ⟨pa3, hpa3, hm3⟩
                        · rw [hpp] at h; cases h
                        · rw [hpp] at hpa3; cases hpa3; exact hm3
                      obtain ⟨npa1, hmpa1⟩ := ext1.mem_some pa hpaps
                      obtain ⟨h2, T2, e2, ext2, hi2, hn2⟩ :=
                        setC_step (t := ⟨h1, t.root, t.size⟩) ext1 nodup hpaps hmpa1 red
                      have e2x : setC h1 pa red = Except.ok h2 := e2
                      rw [e2x, ok_bind] at hrun
                      have ext2x : Extr h2 t.root none T2 ps := ext2
                      obtain ⟨npa2, hmpa2⟩ := ext2x.mem_some pa hpaps
                      cases hR : npa2.Right with
                      | none =>
                        rw [rotateLeft_err (t := ⟨h2, t.root, t.size⟩) hmpa2 hR,
                          error_bind] at hrun
                        cases hrun
                      | some r =>
                        obtain ⟨t3, T3, e3, ext3, hi3, hs3, hn3⟩ :=
                          rotateLeft_good (t := ⟨h2, t.root, t.size⟩) ext2x nodup
                            hpaps hmpa2 hR
                        rw [e3, ok_bind] at hrun
                        cases hro2 : rightOf t3.heap (some pa) with
                        | error e => rw [hro2, error_bind] at hrun; cases hrun
                        | ok sv2 =>
                          rw [hro2, ok_bind] at hrun
                          simp only [unit_bind] at hrun
                          have hsv2mem : ∀ z, sv2 = some z → z ∈ ps := by
                            intro z hz
                            rw [hz] at hro2
                            obtain ⟨pa2, npa9, hpa2, hmpa9, hr2⟩ := rightOf_ok_some hro2
                            injection hpa2 with hh
                            have hpa2ps : pa2 ∈ ps := by rw [← hh]; exact hpaps
                            exact (ext3.child_mem hpa2ps hmpa9).2 z hr2
                          obtain ⟨T', ext', hi', hs', hn', hxo⟩ :=
                            delTailL ih ext3 nodup (.inr ⟨pa, rfl, hpaps⟩) hsv2mem hrun
                          refine ⟨T', ext', by rw [hi', hi3, hi2, hi1], ?_, ?_, hxo⟩
                          · rw [hs']; exact hs3
                          · rw [hn', hn3]; exact hn2.trans hn1
                  · rw [if_neg hcsr] at hrun
                    simp only [unit_bind] at hrun
                    exact delTailL ih ext nodup hpar hsvmem hrun
            · rw [if_neg hxl] at hrun
              rw [ok_bind] at hrun
              cases hcs : colorOf t.heap lv with
              | error e => rw [hcs, error_bind] at hrun; cases hrun
              | ok cs =>
                  rw [hcs, ok_bind] at hrun
                  have hsvmem : ∀ z, lv = some z → z ∈ ps := by
                    intro z hz
                    have hro := hlp
                    rw [hz] at hro
                    obtain ⟨pa2, npa2, hpa2, hmpa2, hr2⟩ := leftOf_ok_some hro
                    have hpa2ps : pa2 ∈ ps := by
                      rcases hpar with h | ⟨pa3, hpa3, hm3⟩
                      · rw [h] at hpa2; cases hpa2
                      · rw [hpa3] at hpa2; injection hpa2 with hh; rw [← hh]; exact hm3
                    exact (ext.child_mem hpa2ps hmpa2).1 z hr2
                  by_cases hcsr : cs = red
                  · rw [if_pos hcsr] at hrun
                    subst hcsr
                    obtain ⟨sp, nsp, hsvq, hmsp, hcsp⟩ := colorOf_red_some hcs
                    rw [hsvq] at hrun
                    rw [deref_some, ok_bind] at hrun
                    have hsps : sp ∈ ps := hsvmem sp hsvq
                    obtain ⟨h1, T1, e1, ext1, hi1, hn1⟩ :=
                      setC_step (t := t) ext nodup hsps hmsp black
                    rw [e1, ok_bind] at hrun
                    cases hpp : par with
                    | none => rw [hpp, deref_none, error_bind] at hrun; cases hrun
                    | some pa =>
                      rw [hpp] at hrun
                      rw [deref_some, ok_bind] at hrun
                      have hpaps : pa ∈ ps := by
                        rcases hpar with h | ⟨pa3, hpa3, hm3⟩
                        · rw [hpp] at h; cases h
                        · rw [hpp] at hpa3; cases hpa3; exact hm3
                      obtain ⟨npa1, hmpa1⟩ := ext1.mem_some pa hpaps
                      obtain ⟨h2, T2, e2, ext2, hi2, hn2⟩ :=
                        setC_step (t := ⟨h1, t.root, t.size⟩) ext1 nodup hpaps hmpa1 red
                      have e2x : setC h1 pa red = Except.ok h2 := e2
                      rw [e2x, ok_bind] at hrun
                      have ext2x : Extr h2 t.root none T2 ps := ext2
                      obtain ⟨npa2, hmpa2⟩ := ext2x.mem_some pa hpaps
                      cases hL : npa2.Left with
                      | none =>
                        rw [rotateRight_err (t := ⟨h2, t.root, t.size⟩) hmpa2 hL,
                          error_bind] at hrun
                        cases hrun
                      | some lf =>
                        obtain ⟨t3, T3, e3, ext3, hi3, hs3, hn3⟩ :=
                          rotateRight_good (t := ⟨h2, t.root, t.size⟩) ext2x nodup
                            hpaps hmpa2 hL
                        rw [e3, ok_bind] at hrun
                        cases hro2 : leftOf t3.heap (some pa) with
                        | error e => rw [hro2, error_bind] at hrun; cases hrun
                        | ok sv2 =>
                          rw [hro2, ok_bind] at hrun
                          simp only [unit_bind] at hrun
                          have hsv2mem : ∀ z, sv2 = some z → z ∈ ps := by
                            intro z hz
                            rw [hz] at hro2
                            obtain ⟨pa2, npa9, hpa2, hmpa9, hr2⟩ := leftOf_ok_some hro2
                            injection hpa2 with hh
                            have hpa2ps : pa2 ∈ ps := by rw [← hh]; exact hpaps
                            exact (ext3.child_mem hpa2ps hmpa9).1 z hr2
                          obtain ⟨T', ext', hi', hs', hn', hxo⟩ :=
                            delTailR ih ext3 nodup (.inr ⟨pa, rfl, hpaps⟩) hsv2mem hrun
                          refine ⟨T', ext', by rw [hi', hi3, hi2, hi1], ?_, ?_, hxo⟩
                          · rw [hs']; exact hs3
                          · rw [hn', hn3]; exact hn2.trans hn1
                  · rw [if_neg hcsr] at hrun
                    simp only [unit_bind] at hrun
                    exact delTailR ih ext nodup hpar hsvmem hrun
        · rw [if_neg hcb] at hrun
          cases hrun
          exact ⟨T, ext, rfl, rfl, rfl, hx⟩

/-- Source deleteFixup preserves the address list, in-order sequence,
size and allocation counter. -/
theorem deleteFixup_good {t : Tree V} {x parent : Option Ptr} {t' : Tree V}
    {T : BT V} {ps : List Ptr}
    (ext : Extr t.heap t.root none T ps) (nodup : ps.Nodup)
    (hpar : parent = none ∨ ∃ pa, parent = some pa ∧ pa ∈ ps)
    (hx : x = none ∨ ∃ q, x = some q ∧ q ∈ ps)
    (hrun : t.deleteFixup x parent = .ok t') :
    ∃ T', Extr t'.heap t'.root none T' ps ∧ T'.inorder = T.inorder ∧
      t'.size = t.size ∧ t'.heap.next = t.heap.next := by
  rw [Tree.deleteFixup] at hrun
  cases hl : Tree.deleteFixupLoop t x parent t.fuel with
  | error e => rw [hl, error_bind] at hrun; cases hrun
  | ok pr =>
    obtain ⟨t2, x2⟩ := pr
    rw [hl, ok_bind] at hrun
    simp only [] at hrun
    obtain ⟨T2, ext2, hi2, hs2, hn2, hxo⟩ :=
      deleteFixupLoop_good t.fuel t x parent t2 x2 T ps ext nodup hpar hx hl
    cases hx2 : x2 with
    | none =>
      rw [hx2] at hrun
      simp only [] at hrun
      cases hrun
      exact ⟨T2, ext2, hi2, hs2, hn2⟩
    | some p =>
      rw [hx2] at hrun
      simp only [] at hrun
      have hpps : p ∈ ps := by
        rcases hxo with h | ⟨q, hq, hm⟩
        · rw [hx2] at h; cases h
        · rw [hx2] at hq; injection hq with hh; rw [hh]; exact hm
      obtain ⟨np, hmp⟩ := ext2.mem_some p hpps
      obtain ⟨h3, T3, e3, ext3, hi3, hn3⟩ := setC_step (t := t2) ext2 nodup hpps hmp black
      rw [e3, ok_bind] at hrun
      cases hrun
      exact ⟨T3, ext3, hi3.trans hi2, hs2, hn3.trans hn2⟩

/-- A write that stores back the very node already present. -/
theorem Extr.write_same {h : Heap V} {r par T ps} (E : Extr h r par T ps)
    {p : Ptr} {n : Node V} (hm : h.mem p = some n) :
    Extr (h.write p n) r par T ps :=
  E.congr fun x _ => by
    rw [write_mem]
    by_cases hx : x = p
    · rw [if_pos hx, hx, hm]
    · rw [if_neg hx]

/-- Rewriting only the parent field of a subtree root re-hangs the subtree. -/
theorem Extr.reparent {h : Heap V} {vp : Ptr} {pold pnew : Option Ptr} {S psS}
    (E : Extr h (some vp) pold S psS) (nd : psS.Nodup) {nvp : Node V}
    (hm : h.mem vp = some nvp) :
    Extr (h.write vp ⟨nvp.Key, nvp.Value, nvp.Color, pnew, nvp.Left, nvp.Right⟩)
      (some vp) pnew S psS := by
  obtain ⟨n', L, psl, R, psr, hm', hpar, hS, hps0, EL, ER⟩ := E.inv_some
  rw [hm] at hm'; cases hm'
  rw [hS, hps0]
  rw [hps0] at nd
  have hvl : vp ∉ psl := by
    rw [List.nodup_append] at nd
    exact fun hc => nd.2.2 hc (by simp)
  have hvr : vp ∉ psr := by
    rw [List.nodup_append] at nd
    rw [List.nodup_cons] at nd
    exact nd.2.1.1
  exact .node vp pnew ⟨nvp.Key, nvp.Value, nvp.Color, pnew, nvp.Left, nvp.Right⟩
    L psl R psr (by simp) rfl (EL.write_out hvl _) (ER.write_out hvr _)

theorem transplant_exec_root_none (sz : Int) {h : Heap V} {root : Option Ptr} {u : Ptr}
    {nu : Node V} (hmu : h.mem u = some nu) (hpu : nu.Parent = none) :
    Tree.transplant ⟨h, root, sz⟩ u none = .ok ⟨h, none, sz⟩ := by
  rw [Tree.transplant]
  simp only [getN_ok hmu, ok_bind, hpu]
  rfl

theorem transplant_exec_root_some (sz : Int) {h : Heap V} {root : Option Ptr} {u vp : Ptr}
    {nu nvp : Node V} (hmu : h.mem u = some nu) (hpu : nu.Parent = none)
    (hmv : h.mem vp = some nvp) :
    Tree.transplant ⟨h, root, sz⟩ u (some vp) =
      .ok ⟨h.write vp ⟨nvp.Key, nvp.Value, nvp.Color, none, nvp.Left, nvp.Right⟩,
        some vp, sz⟩ := by
  rw [Tree.transplant]
  simp only [getN_ok hmu, ok_bind, hpu, getN_ok hmv, setP, hmu]
  rfl

theorem transplant_exec_frameL_none (sz : Int) {h : Heap V} {root : Option Ptr}
    {u pa : Ptr} {nu npa : Node V} (hmu : h.mem u = some nu) (hpu : nu.Parent = some pa)
    (hmpa : h.mem pa = some npa) (hLu : npa.Left = some u) :
    Tree.transplant ⟨h, root, sz⟩ u none =
      .ok ⟨h.write pa ⟨npa.Key, npa.Value, npa.Color, npa.Parent, none, npa.Right⟩,
        root, sz⟩ := by
  rw [Tree.transplant]
  simp only [getN_ok hmu, ok_bind, hpu, getN_ok hmpa, hLu, if_pos, setL]
  simp [getN_ok hmpa]

theorem transplant_exec_frameL_some (sz : Int) {h : Heap V} {root : Option Ptr}
    {u pa vp : Ptr} {nu npa nvp : Node V}
    (hmu : h.mem u = some nu) (hpu : nu.Parent = some pa)
    (hmpa : h.mem pa = some npa) (hLu : npa.Left = some u)
    (hne1 : u ≠ pa) (hne2 : vp ≠ pa)
    (hmv : h.mem vp = some nvp) :
    Tree.transplant ⟨h, root, sz⟩ u (some vp) =
      .ok ⟨(h.write pa ⟨npa.Key, npa.Value, npa.Color, npa.Parent, some vp, npa.Right⟩).write
          vp ⟨nvp.Key, nvp.Value, nvp.Color, some pa, nvp.Left, nvp.Right⟩,
        root, sz⟩ := by
  rw [Tree.transplant]
  have hmu1 : (h.write pa ⟨npa.Key, npa.Value, npa.Color, npa.Parent, some vp,
      npa.Right⟩).mem u = some nu := by
    rw [mem_write_ne _ hne1]; exact hmu
  have hmv1 : (h.write pa ⟨npa.Key, npa.Value, npa.Color, npa.Parent, some vp,
      npa.Right⟩).mem vp = some nvp := by
    rw [mem_write_ne _ hne2]; exact hmv
  simp only [getN_ok hmu, ok_bind, hpu, getN_ok hmpa, hLu, if_pos, setL]
  simp only [getN_ok hmv1, getN_ok hmu1, ok_bind, hpu, setP]
  rfl

theorem transplant_exec_frameR_none (sz : Int) {h : Heap V} {root : Option Ptr}
    {u pa : Ptr} {nu npa : Node V} (hmu : h.mem u = some nu) (hpu : nu.Parent = some pa)
    (hmpa : h.mem pa = some npa) (hLu : npa.Left ≠ some u) :
    Tree.transplant ⟨h, root, sz⟩ u none =
      .ok ⟨h.write pa ⟨npa.Key, npa.Value, npa.Color, npa.Parent, npa.Left, none⟩,
        root, sz⟩ := by
  rw [Tree.transplant]
  simp only [getN_ok hmu, ok_bind, hpu, getN_ok hmpa, if_neg hLu, setR]
  simp [getN_ok hmpa]

theorem transplant_exec_frameR_some (sz : Int) {h : Heap V} {root : Option Ptr}
    {u pa vp : Ptr} {nu npa nvp : Node V}
    (hmu : h.mem u = some nu) (hpu : nu.Parent = some pa)
    (hmpa : h.mem pa = some npa) (hLu : npa.Left ≠ some u)
    (hne1 : u ≠ pa) (hne2 : vp ≠ pa)
    (hmv : h.mem vp = some nvp) :
    Tree.transplant ⟨h, root, sz⟩ u (some vp) =
      .ok ⟨(h.write pa ⟨npa.Key, npa.Value, npa.Color, npa.Parent, npa.Left, some vp⟩).write
          vp ⟨nvp.Key, nvp.Value, nvp.Color, some pa, nvp.Left, nvp.Right⟩,
        root, sz⟩ := by
  rw [Tree.transplant]
  have hmu1 : (h.write pa ⟨npa.Key, npa.Value, npa.Color, npa.Parent, npa.Left,
      some vp⟩).mem u = some nu := by
    rw [mem_write_ne _ hne1]; exact hmu
  have hmv1 : (h.write pa ⟨npa.Key, npa.Value, npa.Color, npa.Parent, npa.Left,
      some vp⟩).mem vp = some nvp := by
    rw [mem_write_ne _ hne2]; exact hmv
  simp only [getN_ok hmu, ok_bind, hpu, getN_ok hmpa, if_neg hLu, setR]
  simp only [getN_ok hmv1, getN_ok hmu1, ok_bind, hpu, setP]
  rfl

/-- Rebuild a left-frame context over a new heap whose frame node has a
new left-child pointer, and plug a subtree. -/
theorem replug_consL {h h2 : Heap V} {root par : Option Ptr} {rest : List (Hole V)}
    {pa : Ptr} {npa : Node V} {Rf : BT V} {psrf : List Ptr} {pe0 v : Option Ptr}
    (H0 : HExtr h root par rest (some pa) pe0)
    (hp : npa.Parent = pe0)
    (ER : Extr h npa.Right (some pa) Rf psrf)
    (hag : ∀ q, q ∈ ctxPtrs rest ∨ q ∈ psrf → h2.mem q = h.mem q)
    (hmpa2 : h2.mem pa = some ⟨npa.Key, npa.Value, npa.Color, npa.Parent, v, npa.Right⟩)
    {S : BT V} {psS : List Ptr} (ES : Extr h2 v (some pa) S psS) :
    Extr h2 root par (plugT rest (.node S npa.Color npa.Key npa.Value Rf))
      (plugPs rest (psS ++ pa :: psrf)) := by
  have H0x : HExtr h2 root par rest (some pa) pe0 :=
    H0.hcongr fun q hq => hag q (.inl hq)
  have ERx : Extr h2 npa.Right (some pa) Rf psrf :=
    ER.congr fun q hq => hag q (.inr hq)
  have H1 : HExtr h2 root par
      (.l pa ⟨npa.Key, npa.Value, npa.Color, npa.Parent, v, npa.Right⟩ Rf psrf :: rest)
      v (some pa) :=
    .left rest pa pe0 _ Rf psrf H0x hmpa2 hp ERx
  exact H1.compose ES

/-- Mirror of replug_consL for a right frame. -/
theorem replug_consR {h h2 : Heap V} {root par : Option Ptr} {rest : List (Hole V)}
    {pa : Ptr} {npa : Node V} {Lf : BT V} {pslf : List Ptr} {pe0 v : Option Ptr}
    (H0 : HExtr h root par rest (some pa) pe0)
    (hp : npa.Parent = pe0)
    (EL : Extr h npa.Left (some pa) Lf pslf)
    (hag : ∀ q, q ∈ ctxPtrs rest ∨ q ∈ pslf → h2.mem q = h.mem q)
    (hmpa2 : h2.mem pa = some ⟨npa.Key, npa.Value, npa.Color, npa.Parent, npa.Left, v⟩)
    {S : BT V} {psS : List Ptr} (ES : Extr h2 v (some pa) S psS) :
    Extr h2 root par (plugT rest (.node Lf npa.Color npa.Key npa.Value S))
      (plugPs rest (pslf ++ pa :: psS)) := by
  have H0x : HExtr h2 root par rest (some pa) pe0 :=
    H0.hcongr fun q hq => hag q (.inl hq)
  have ELx : Extr h2 npa.Left (some pa) Lf pslf :=
    EL.congr fun q hq => hag q (.inr hq)
  have H1 : HExtr h2 root par
      (.r pa ⟨npa.Key, npa.Value, npa.Color, npa.Parent, npa.Left, v⟩ Lf pslf :: rest)
      v (some pa) :=
    .right rest pa pe0 _ Lf pslf H0x hmpa2 hp ELx
  exact H1.compose ES

/-- Transplanting the subtree v (currently hung under u) into the hole at
u: execution, rebuilt extraction and in-order sequence in one step. -/
theorem transplant_replug (sz : Int) {h : Heap V} {root par : Option Ptr}
    {ctx : List (Hole V)} {u : Ptr} {pe : Option Ptr} {nu : Node V} {v : Option Ptr}
    (H : HExtr h root par ctx (some u) pe)
    (hnil : ctx = [] → par = none)
    (hmu : h.mem u = some nu) (hpu : nu.Parent = pe)
    {S : BT V} {psS : List Ptr} (ES : Extr h v (some u) S psS)
    (hndS : psS.Nodup)
    (hu : u ∉ ctxPtrs ctx) (hndc : (ctxPtrs ctx).Nodup)
    (hdisj : ∀ q ∈ psS, q ∉ ctxPtrs ctx ∧ q ≠ u) :
    ∃ h' root' T', Tree.transplant ⟨h, root, sz⟩ u v = .ok ⟨h', root', sz⟩ ∧
      Extr h' root' par T' (plugPs ctx psS) ∧
      T'.inorder = ctxInL ctx ++ S.inorder ++ ctxInR ctx ∧
      h'.next = h.next ∧ (ctx ≠ [] → root' = root) ∧
      (∀ q, q ∉ ctxPtrs ctx → q ∉ psS → h'.mem q = h.mem q) := by
  cases hctx : ctx with
  | nil =>
    subst hctx
    obtain ⟨hru, hpe⟩ := H.inv_nil
    have hparn := hnil rfl
    subst hparn
    rw [hpe] at hpu
    cases hv : v with
    | none =>
      subst hv
      obtain ⟨hS, hpsS⟩ := ES.inv_none
      refine ⟨h, none, .nil, transplant_exec_root_none sz hmu hpu, ?_, ?_, rfl,
        fun hc => absurd rfl hc, fun q _ _ => rfl⟩
      · rw [hpsS]
        exact .nil none
      · rw [hS]
        simp [ctxInL, ctxInR, BT.inorder]
    | some vp =>
      subst hv
      obtain ⟨nvp, hmvp⟩ := ES.mem_some vp ES.root_mem
      exact ⟨_, some vp, S, transplant_exec_root_some sz hmu hpu hmvp,
        ES.reparent hndS hmvp, by simp [ctxInL, ctxInR], rfl, fun hc => absurd rfl hc,
        fun q hq1 hq2 => mem_write_ne _ (fun hc => hq2 (by rw [hc]; exact ES.root_mem)) _⟩
  | cons fr rest =>
    subst hctx
    rcases H.inv_cons with
      ⟨pa, npa, Rf, psrf, pe0, hfr, hr0, hpe, hmpa, hpap, ERf, H0⟩ |
      ⟨pa, npa, Lf, pslf, pe0, hfr, hr0, hpe, hmpa, hpap, ELf, H0⟩
    · subst hfr
      rw [hpe] at hpu
      have hu1 : u ≠ pa := fun hc => hu (by simp [ctxPtrs, hc])
      have hndc' : (pa :: (psrf ++ ctxPtrs rest)).Nodup := hndc
      have hpan0 := (List.nodup_cons.1 hndc').1
      have hpan1 : pa ∉ psrf := fun hc => hpan0 (List.mem_append.2 (.inl hc))
      have hpan2 : pa ∉ ctxPtrs rest := fun hc => hpan0 (List.mem_append.2 (.inr hc))
      have hpaS : pa ∉ psS := fun hc => (hdisj pa hc).1 (by simp [ctxPtrs])
      cases hv : v with
      | none =>
        subst hv
        obtain ⟨hS, hpsS⟩ := ES.inv_none
        refine ⟨_, root, plugT rest (.node .nil npa.Color npa.Key npa.Value Rf),
          transplant_exec_frameL_none sz hmu hpu hmpa hr0.symm, ?_, ?_, rfl,
          fun _ => rfl,
          fun q hq1 hq2 => mem_write_ne _ (fun hc => hq1 (by rw [hc]; simp [ctxPtrs])) _⟩
        · rw [hpsS]
          refine replug_consL H0 hpap ERf ?_ (by simp) (.nil (some pa))
          intro q hq
          rw [mem_write_ne]
          intro hc
          subst hc
          rcases hq with hq | hq
          · exact hpan2 hq
          · exact hpan1 hq
        · rw [hS, plugT_inorder]
          simp [ctxInL, ctxInR, BT.inorder]
      | some vp =>
        subst hv
        have hvS := ES.root_mem
        have hvd := hdisj vp hvS
        have hvpa : vp ≠ pa := fun hc => hvd.1 (by simp [ctxPtrs, hc])
        have hvrf : vp ∉ psrf := fun hc => hvd.1 (by simp [ctxPtrs, hc])
        have hvrest : vp ∉ ctxPtrs rest := fun hc => hvd.1 (by simp [ctxPtrs, hc])
        obtain ⟨nvp, hmvp⟩ := ES.mem_some vp hvS
        refine ⟨_, root, plugT rest (.node S npa.Color npa.Key npa.Value Rf),
          transplant_exec_frameL_some sz hmu hpu hmpa hr0.symm hu1 hvpa hmvp,
          ?_, ?_, rfl, fun _ => rfl, fun q hq1 hq2 => by
            rw [mem_write_ne _ (fun hc => hq2 (by rw [hc]; exact hvS)),
              mem_write_ne _ (fun hc => hq1 (by rw [hc]; simp [ctxPtrs]))]⟩
        · have ES1 : Extr (h.write pa ⟨npa.Key, npa.Value, npa.Color, npa.Parent,
              some vp, npa.Right⟩) (some vp) (some u) S psS := ES.write_out hpaS _
          have hmv1 : (h.write pa ⟨npa.Key, npa.Value, npa.Color, npa.Parent,
              some vp, npa.Right⟩).mem vp = some nvp := by
            rw [mem_write_ne _ hvpa]; exact hmvp
          refine replug_consL H0 hpap ERf ?_ ?_ (ES1.reparent hndS hmv1)
          · intro q hq
            have hq1 : q ≠ vp := by
              intro hc
              subst hc
              rcases hq with hq | hq
              · exact hvrest hq
              · exact hvrf hq
            have hq2 : q ≠ pa := by
              intro hc
              subst hc
              rcases hq with hq | hq
              · exact hpan2 hq
              · exact hpan1 hq
            rw [mem_write_ne _ hq1, mem_write_ne _ hq2]
          · rw [mem_write_ne _ (Ne.symm hvpa)]
            simp
        · rw [plugT_inorder]
          simp [ctxInL, ctxInR, BT.inorder]
    · subst hfr
      rw [hpe] at hpu
      have hu1 : u ≠ pa := fun hc => hu (by simp [ctxPtrs, hc])
      have hu2 : u ∉ pslf := fun hc => hu (by simp [ctxPtrs, hc])
      have hndc' : (pa :: (pslf ++ ctxPtrs rest)).Nodup := hndc
      have hpan0 := (List.nodup_cons.1 hndc').1
      have hpan1 : pa ∉ pslf := fun hc => hpan0 (List.mem_append.2 (.inl hc))
      have hpan2 : pa ∉ ctxPtrs rest := fun hc => hpan0 (List.mem_append.2 (.inr hc))
      have hpaS : pa ∉ psS := fun hc => (hdisj pa hc).1 (by simp [ctxPtrs])
      have hLune : npa.Left ≠ some u := by
        intro hc
        exact hu2 (hc ▸ ELf).root_mem
      cases hv : v with
      | none =>
        subst hv
        obtain ⟨hS, hpsS⟩ := ES.inv_none
        refine ⟨_, root, plugT rest (.node Lf npa.Color npa.Key npa.Value .nil),
          transplant_exec_frameR_none sz hmu hpu hmpa hLune, ?_, ?_, rfl,
          fun _ => rfl,
          fun q hq1 hq2 => mem_write_ne _ (fun hc => hq1 (by rw [hc]; simp [ctxPtrs])) _⟩
        · rw [hpsS]
          refine replug_consR H0 hpap ELf ?_ (by simp) (.nil (some pa))
          intro q hq
          rw [mem_write_ne]
          intro hc
          subst hc
          rcases hq with hq | hq
          · exact hpan2 hq
          · exact hpan1 hq
        · rw [hS, plugT_inorder]
          simp [ctxInL, ctxInR, BT.inorder]
      | some vp =>
        subst hv
        have hvS := ES.root_mem
        have hvd := hdisj vp hvS
        have hvpa : vp ≠ pa := fun hc => hvd.1 (by simp [ctxPtrs, hc])
        have hvlf : vp ∉ pslf := fun hc => hvd.1 (by simp [ctxPtrs, hc])
        have hvrest : vp ∉ ctxPtrs rest := fun hc => hvd.1 (by simp [ctxPtrs, hc])
        obtain ⟨nvp, hmvp⟩ := ES.mem_some vp hvS
        refine ⟨_, root, plugT rest (.node Lf npa.Color npa.Key npa.Value S),
          transplant_exec_frameR_some sz hmu hpu hmpa hLune hu1 hvpa hmvp,
          ?_, ?_, rfl, fun _ => rfl, fun q hq1 hq2 => by
            rw [mem_write_ne _ (fun hc => hq2 (by rw [hc]; exact hvS)),
              mem_write_ne _ (fun hc => hq1 (by rw [hc]; simp [ctxPtrs]))]⟩
        · have ES1 : Extr (h.write pa ⟨npa.Key, npa.Value, npa.Color, npa.Parent,
              npa.Left, some vp⟩) (some vp) (some u) S psS := ES.write_out hpaS _
          have hmv1 : (h.write pa ⟨npa.Key, npa.Value, npa.Color, npa.Parent,
              npa.Left, some vp⟩).mem vp = some nvp := by
            rw [mem_write_ne _ hvpa]; exact hmvp
          refine replug_consR H0 hpap ELf ?_ ?_ (ES1.reparent hndS hmv1)
          · intro q hq
            have hq1 : q ≠ vp := by
              intro hc
              subst hc
              rcases hq with hq | hq
              · exact hvrest hq
              · exact hvlf hq
            have hq2 : q ≠ pa := by
              intro hc
              subst hc
              rcases hq with hq | hq
              · exact hpan2 hq
              · exact hpan1 hq
            rw [mem_write_ne _ hq1, mem_write_ne _ hq2]
          · rw [mem_write_ne _ (Ne.symm hvpa)]
            simp
        · rw [plugT_inorder]
          simp [ctxInL, ctxInR, BT.inorder]

/-- The hole's parent pointer in a context derivation: the outer parent at
the top, otherwise the innermost frame address. -/
theorem HExtr.pe_cases {h : Heap V} {root par : Option Ptr} {ctx r0 pe}
    (H : HExtr h root par ctx r0 pe) :
    pe = par ∨ ∃ pa, pe = some pa ∧ pa ∈ ctxPtrs ctx := by
  cases H with
  | refl => exact .inl rfl
  | left ctx p pe0 n R psr H0 hm hp ER =>
    exact .inr ⟨p, rfl, by simp [ctxPtrs]⟩
  | right ctx p pe0 n L psl H0 hm hp EL =>
    exact .inr ⟨p, rfl, by simp [ctxPtrs]⟩

theorem ctxPsL_subset {V : Type} {q : Ptr} :
    ∀ {ctx : List (Hole V)}, q ∈ ctxPsL ctx → q ∈ ctxPtrs ctx := by
  intro ctx
  induction ctx with
  | nil => intro hq; cases hq
  | cons f ctx ih =>
    cases f with
    | l p n R psr =>
      intro hq
      have hq' : q ∈ ctxPsL ctx := hq
      show q ∈ p :: (psr ++ ctxPtrs ctx)
      exact List.mem_cons_of_mem _ (List.mem_append.2 (Or.inr (ih hq')))
    | r p n L psl =>
      intro hq
      have hq' : q ∈ ctxPsL ctx ++ (psl ++ [p]) := hq
      show q ∈ p :: (psl ++ ctxPtrs ctx)
      rcases List.mem_append.1 hq' with h | h
      · exact List.mem_cons_of_mem _ (List.mem_append.2 (Or.inr (ih h)))
      · rcases List.mem_append.1 h with h | h
        · exact List.mem_cons_of_mem _ (List.mem_append.2 (Or.inl h))
        · rw [List.mem_singleton] at h
          exact h ▸ List.mem_cons_self _ _

theorem plugPs_decomp (ctx : List (Hole V)) (m : List Ptr) :
    ∃ rst, plugPs ctx m = ctxPsL ctx ++ m ++ rst := by
  induction ctx generalizing m with
  | nil => exact ⟨[], by simp [plugPs, ctxPsL]⟩
  | cons f ctx ih =>
    cases f with
    | l p n R psr =>
      obtain ⟨rst, h⟩ := ih (m ++ p :: psr)
      refine ⟨(p :: psr) ++ rst, ?_⟩
      rw [plugPs, h]
      simp [ctxPsL, List.append_assoc]
    | r p n L psl =>
      obtain ⟨rst, h⟩ := ih (psl ++ p :: m)
      refine ⟨rst, ?_⟩
      rw [plugPs, h]
      simp [ctxPsL, List.append_assoc]

/-- If the overall head of a plugged list is the hole's first element and
that element is not stored in the context, nothing lies left of the hole. -/
theorem ctxPsL_nil_of_head {s : Ptr} {ctx : List (Hole V)} {l : List Ptr}
    (hhead : (plugPs ctx (s :: l)).head? = some s) (hs : s ∉ ctxPtrs ctx) :
    ctxPsL ctx = [] := by
  obtain ⟨rst, h⟩ := plugPs_decomp ctx (s :: l)
  rw [h] at hhead
  cases hc : ctxPsL ctx with
  | nil => rfl
  | cons a tl =>
    rw [hc] at hhead
    simp only [List.cons_append, List.head?_cons, Option.some.injEq] at hhead
    exact absurd (ctxPsL_subset (hc ▸ (hhead ▸ List.mem_cons_self a tl))) hs

theorem ctxInL_nil_of_ctxPsL {V : Type} :
    ∀ {ctx : List (Hole V)}, ctxPsL ctx = [] → ctxInL ctx = [] := by
  intro ctx
  induction ctx with
  | nil => intro _; rfl
  | cons f ctx ih =>
    cases f with
    | l p n R psr =>
      intro hc
      simp only [ctxPsL] at hc
      simp only [ctxInL]
      exact ih hc
    | r p n L psl =>
      intro hc
      simp only [ctxPsL] at hc
      exact absurd hc (by simp)

/-- transplant below the tree root: the hole has a frame, so the tree root
field is passed through untouched. -/
theorem transplant_replug_deep (sz : Int) {h : Heap V} {rt root par : Option Ptr}
    {fr : Hole V} {rest : List (Hole V)} {u : Ptr} {pe : Option Ptr} {nu : Node V}
    {v : Option Ptr}
    (H : HExtr h root par (fr :: rest) (some u) pe)
    (hmu : h.mem u = some nu) (hpu : nu.Parent = pe)
    {S : BT V} {psS : List Ptr} (ES : Extr h v (some u) S psS)
    (hndS : psS.Nodup)
    (hu : u ∉ ctxPtrs (fr :: rest)) (hndc : (ctxPtrs (fr :: rest)).Nodup)
    (hdisj : ∀ q ∈ psS, q ∉ ctxPtrs (fr :: rest) ∧ q ≠ u) :
    ∃ h' T', Tree.transplant ⟨h, rt, sz⟩ u v = .ok ⟨h', rt, sz⟩ ∧
      Extr h' root par T' (plugPs (fr :: rest) psS) ∧
      T'.inorder = ctxInL (fr :: rest) ++ S.inorder ++ ctxInR (fr :: rest) ∧
      h'.next = h.next ∧
      (∀ q, q ∉ ctxPtrs (fr :: rest) → q ∉ psS → h'.mem q = h.mem q) := by
  rcases H.inv_cons with
    ⟨pa, npa, Rf, psrf, pe0, hfr, hr0, hpe, hmpa, hpap, ERf, H0⟩ |
    ⟨pa, npa, Lf, pslf, pe0, hfr, hr0, hpe, hmpa, hpap, ELf, H0⟩
  · subst hfr
    rw [hpe] at hpu
    have hu1 : u ≠ pa := fun hc => hu (by simp [ctxPtrs, hc])
    have hndc' : (pa :: (psrf ++ ctxPtrs rest)).Nodup := hndc
    have hpan0 := (List.nodup_cons.1 hndc').1
    have hpan1 : pa ∉ psrf := fun hc => hpan0 (List.mem_append.2 (.inl hc))
    have hpan2 : pa ∉ ctxPtrs rest := fun hc => hpan0 (List.mem_append.2 (.inr hc))
    have hpaS : pa ∉ psS := fun hc => (hdisj pa hc).1 (by simp [ctxPtrs])
    cases hv : v with
    | none =>
      subst hv
      obtain ⟨hS, hpsS⟩ := ES.inv_none
      refine ⟨_, plugT rest (.node .nil npa.Color npa.Key npa.Value Rf),
        transplant_exec_frameL_none sz hmu hpu hmpa hr0.symm, ?_, ?_, rfl,
        fun q hq1 hq2 => mem_write_ne _ (fun hc => hq1 (by rw [hc]; simp [ctxPtrs])) _⟩
      · rw [hpsS]
        refine replug_consL H0 hpap ERf ?_ (by simp) (.nil (some pa))
        intro q hq
        rw [mem_write_ne]
        intro hc
        subst hc
        rcases hq with hq | hq
        · exact hpan2 hq
        · exact hpan1 hq
      · rw [hS, plugT_inorder]
        simp [ctxInL, ctxInR, BT.inorder]
    | some vp =>
      subst hv
      have hvS := ES.root_mem
      have hvd := hdisj vp hvS
      have hvpa : vp ≠ pa := fun hc => hvd.1 (by simp [ctxPtrs, hc])
      have hvrf : vp ∉ psrf := fun hc => hvd.1 (by simp [ctxPtrs, hc])
      have hvrest : vp ∉ ctxPtrs rest := fun hc => hvd.1 (by simp [ctxPtrs, hc])
      obtain ⟨nvp, hmvp⟩ := ES.mem_some vp hvS
      refine ⟨_, plugT rest (.node S npa.Color npa.Key npa.Value Rf),
        transplant_exec_frameL_some sz hmu hpu hmpa hr0.symm hu1 hvpa hmvp,
        ?_, ?_, rfl, fun q hq1 hq2 => by
          rw [mem_write_ne _ (fun hc => hq2 (by rw [hc]; exact hvS)),
            mem_write_ne _ (fun hc => hq1 (by rw [hc]; simp [ctxPtrs]))]⟩
      · have ES1 : Extr (h.write pa ⟨npa.Key, npa.Value, npa.Color, npa.Parent,
            some vp, npa.Right⟩) (some vp) (some u) S psS := ES.write_out hpaS _
        have hmv1 : (h.write pa ⟨npa.Key, npa.Value, npa.Color, npa.Parent,
            some vp, npa.Right⟩).mem vp = some nvp := by
          rw [mem_write_ne _ hvpa]; exact hmvp
        refine replug_consL H0 hpap ERf ?_ ?_ (ES1.reparent hndS hmv1)
        · intro q hq
          have hq1 : q ≠ vp := by
            intro hc
            subst hc
            rcases hq with hq | hq
            · exact hvrest hq
            · exact hvrf hq
          have hq2 : q ≠ pa := by
            intro hc
            subst hc
            rcases hq with hq | hq
            · exact hpan2 hq
            · exact hpan1 hq
          rw [mem_write_ne _ hq1, mem_write_ne _ hq2]
        · rw [mem_write_ne _ (Ne.symm hvpa)]
          simp
      · rw [plugT_inorder]
        simp [ctxInL, ctxInR, BT.inorder]
  · subst hfr
    rw [hpe] at hpu
    have hu1 : u ≠ pa := fun hc => hu (by simp [ctxPtrs, hc])
    have hu2 : u ∉ pslf := fun hc => hu (by simp [ctxPtrs, hc])
    have hndc' : (pa :: (pslf ++ ctxPtrs rest)).Nodup := hndc
    have hpan0 := (List.nodup_cons.1 hndc').1
    have hpan1 : pa ∉ pslf := fun hc => hpan0 (List.mem_append.2 (.inl hc))
    have hpan2 : pa ∉ ctxPtrs rest := fun hc => hpan0 (List.mem_append.2 (.inr hc))
    have hpaS : pa ∉ psS := fun hc => (hdisj pa hc).1 (by simp [ctxPtrs])
    have hLune : npa.Left ≠ some u := by
      intro hc
      exact hu2 (hc ▸ ELf).root_mem
    cases hv : v with
    | none =>
      subst hv
      obtain ⟨hS, hpsS⟩ := ES.inv_none
      refine ⟨_, plugT rest (.node Lf npa.Color npa.Key npa.Value .nil),
        transplant_exec_frameR_none sz hmu hpu hmpa hLune, ?_, ?_, rfl,
        fun q hq1 hq2 => mem_write_ne _ (fun hc => hq1 (by rw [hc]; simp [ctxPtrs])) _⟩
      · rw [hpsS]
        refine replug_consR H0 hpap ELf ?_ (by simp) (.nil (some pa))
        intro q hq
        rw [mem_write_ne]
        intro hc
        subst hc
        rcases hq with hq | hq
        · exact hpan2 hq
        · exact hpan1 hq
      · rw [hS, plugT_inorder]
        simp [ctxInL, ctxInR, BT.inorder]
    | some vp =>
      subst hv
      have hvS := ES.root_mem
      have hvd := hdisj vp hvS
      have hvpa : vp ≠ pa := fun hc => hvd.1 (by simp [ctxPtrs, hc])
      have hvlf : vp ∉ pslf := fun hc => hvd.1 (by simp [ctxPtrs, hc])
      have hvrest : vp ∉ ctxPtrs rest := fun hc => hvd.1 (by simp [ctxPtrs, hc])
      obtain ⟨nvp, hmvp⟩ := ES.mem_some vp hvS
      refine ⟨_, plugT rest (.node Lf npa.Color npa.Key npa.Value S),
        transplant_exec_frameR_some sz hmu hpu hmpa hLune hu1 hvpa hmvp,
        ?_, ?_, rfl, fun q hq1 hq2 => by
          rw [mem_write_ne _ (fun hc => hq2 (by rw [hc]; exact hvS)),
            mem_write_ne _ (fun hc => hq1 (by rw [hc]; simp [ctxPtrs]))]⟩
      · have ES1 : Extr (h.write pa ⟨npa.Key, npa.Value, npa.Color, npa.Parent,
            npa.Left, some vp⟩) (some vp) (some u) S psS := ES.write_out hpaS _
        have hmv1 : (h.write pa ⟨npa.Key, npa.Value, npa.Color, npa.Parent,
            npa.Left, some vp⟩).mem vp = some nvp := by
          rw [mem_write_ne _ hvpa]; exact hmvp
        refine replug_consR H0 hpap ELf ?_ ?_ (ES1.reparent hndS hmv1)
        · intro q hq
          have hq1 : q ≠ vp := by
            intro hc
            subst hc
            rcases hq with hq | hq
            · exact hvrest hq
            · exact hvlf hq
          have hq2 : q ≠ pa := by
            intro hc
            subst hc
            rcases hq with hq | hq
            · exact hpan2 hq
            · exact hpan1 hq
          rw [mem_write_ne _ hq1, mem_write_ne _ hq2]
        · rw [mem_write_ne _ (Ne.symm hvpa)]
          simp
      · rw [plugT_inorder]
        simp [ctxInL, ctxInR, BT.inorder]

/-- Transplanting a node s into the hole at u, where s keeps its own
subtrees: execution, the new s record, heap agreement away from the
touched cells, and a pluggability continuation for the context. -/
theorem transplant_open (sz : Int) {h : Heap V} {root par : Option Ptr}
    {ctx : List (Hole V)} {u : Ptr} {pe : Option Ptr} {nu : Node V}
    {s : Ptr} {nss : Node V}
    (H : HExtr h root par ctx (some u) pe)
    (hnil : ctx = [] → par = none)
    (hmu : h.mem u = some nu) (hpu : nu.Parent = pe)
    (hms : h.mem s = some nss)
    (hsu : s ≠ u) (hsctx : s ∉ ctxPtrs ctx)
    (hu : u ∉ ctxPtrs ctx) (hndc : (ctxPtrs ctx).Nodup) :
    ∃ h2 root2, Tree.transplant ⟨h, root, sz⟩ u (some s) = .ok ⟨h2, root2, sz⟩ ∧
      h2.next = h.next ∧
      h2.mem s = some ⟨nss.Key, nss.Value, nss.Color, pe, nss.Left, nss.Right⟩ ∧
      (∀ q, q ≠ s → q ∉ ctxPtrs ctx → h2.mem q = h.mem q) ∧
      (∀ (h5 : Heap V) (S : BT V) (psS : List Ptr),
        (∀ q, q ∈ ctxPtrs ctx → h5.mem q = h2.mem q) →
        Extr h5 (some s) pe S psS →
        Extr h5 root2 par (plugT ctx S) (plugPs ctx psS)) := by
  cases hctx : ctx with
  | nil =>
    subst hctx
    obtain ⟨hru, hpe⟩ := H.inv_nil
    have hparn := hnil rfl
    subst hparn
    rw [hpe] at hpu
    subst hpe
    refine ⟨_, some s, transplant_exec_root_some sz hmu hpu hms, rfl, ?_, ?_, ?_⟩
    · rw [write_mem, if_pos rfl]
    · intro q hq _
      rw [mem_write_ne _ hq]
    · intro h5 S psS _ ES
      exact ES
  | cons fr rest =>
    subst hctx
    rcases H.inv_cons with
      ⟨pa, npa, Rf, psrf, pe0, hfr, hr0, hpe, hmpa, hpap, ERf, H0⟩ |
      ⟨pa, npa, Lf, pslf, pe0, hfr, hr0, hpe, hmpa, hpap, ELf, H0⟩
    · subst hfr
      rw [hpe] at hpu
      subst hpe
      have hu1 : u ≠ pa := fun hc => hu (by simp [ctxPtrs, hc])
      have hspa : s ≠ pa := fun hc => hsctx (by simp [ctxPtrs, hc])
      have hsrf : s ∉ psrf := fun hc => hsctx (by simp [ctxPtrs, hc])
      have hsrest : s ∉ ctxPtrs rest := fun hc => hsctx (by simp [ctxPtrs, hc])
      have hndc' : (pa :: (psrf ++ ctxPtrs rest)).Nodup := hndc
      have hpan0 := (List.nodup_cons.1 hndc').1
      have hpan1 : pa ∉ psrf := fun hc => hpan0 (List.mem_append.2 (.inl hc))
      have hpan2 : pa ∉ ctxPtrs rest := fun hc => hpan0 (List.mem_append.2 (.inr hc))
      refine ⟨_, root, transplant_exec_frameL_some sz hmu hpu hmpa hr0.symm hu1 hspa hms,
        rfl, ?_, ?_, ?_⟩
      · rw [write_mem, if_pos rfl]
      · intro q hq1 hq2
        have hqpa : q ≠ pa := fun hc => hq2 (by rw [hc]; simp [ctxPtrs])
        rw [mem_write_ne _ hq1, mem_write_ne _ hqpa]
      · intro h5 S psS hag ES
        refine replug_consL H0 hpap ERf ?_ ?_ ES
        · intro q hq
          have hqmem : q ∈ ctxPtrs (Hole.l pa npa Rf psrf :: rest) := by
            rcases hq with hq | hq
            · simp [ctxPtrs, hq]
            · simp [ctxPtrs, hq]
          have hqs : q ≠ s := by
            intro hc
            subst hc
            exact hsctx hqmem
          have hqpa : q ≠ pa := by
            intro hc
            subst hc
            rcases hq with hq | hq
            · exact hpan2 hq
            · exact hpan1 hq
          rw [hag q hqmem, mem_write_ne _ hqs, mem_write_ne _ hqpa]
        · rw [hag pa (by simp [ctxPtrs]), mem_write_ne _ (Ne.symm hspa)]
          simp
    · subst hfr
      rw [hpe] at hpu
      subst hpe
      have hu1 : u ≠ pa := fun hc => hu (by simp [ctxPtrs, hc])
      have hu2 : u ∉ pslf := fun hc => hu (by simp [ctxPtrs, hc])
      have hspa : s ≠ pa := fun hc => hsctx (by simp [ctxPtrs, hc])
      have hslf : s ∉ pslf := fun hc => hsctx (by simp [ctxPtrs, hc])
      have hsrest : s ∉ ctxPtrs rest := fun hc => hsctx (by simp [ctxPtrs, hc])
      have hndc' : (pa :: (pslf ++ ctxPtrs rest)).Nodup := hndc
      have hpan0 := (List.nodup_cons.1 hndc').1
      have hpan1 : pa ∉ pslf := fun hc => hpan0 (List.mem_append.2 (.inl hc))
      have hpan2 : pa ∉ ctxPtrs rest := fun hc => hpan0 (List.mem_append.2 (.inr hc))
      have hLune : npa.Left ≠ some u := by
        intro hc
        exact hu2 (hc ▸ ELf).root_mem
      refine ⟨_, root, transplant_exec_frameR_some sz hmu hpu hmpa hLune hu1 hspa hms,
        rfl, ?_, ?_, ?_⟩
      · rw [write_mem, if_pos rfl]
      · intro q hq1 hq2
        have hqpa : q ≠ pa := fun hc => hq2 (by rw [hc]; simp [ctxPtrs])
        rw [mem_write_ne _ hq1, mem_write_ne _ hqpa]
      · intro h5 S psS hag ES
        refine replug_consR H0 hpap ELf ?_ ?_ ES
        · intro q hq
          have hqmem : q ∈ ctxPtrs (Hole.r pa npa Lf pslf :: rest) := by
            rcases hq with hq | hq
            · simp [ctxPtrs, hq]
            · simp [ctxPtrs, hq]
          have hqs : q ≠ s := by
            intro hc
            subst hc
            exact hsctx hqmem
          have hqpa : q ≠ pa := by
            intro hc
            subst hc
            rcases hq with hq | hq
            · exact hpan2 hq
            · exact hpan1 hq
          rw [hag q hqmem, mem_write_ne _ hqs, mem_write_ne _ hqpa]
        · rw [hag pa (by simp [ctxPtrs]), mem_write_ne _ (Ne.symm hspa)]
          simp

/-- After the node-to-successor transplant, Delete attaches the old left
subtree under the successor, recolors it, and optionally runs the fixup;
this lemma executes that shared tail and rebuilds the extraction. -/
theorem delFinish {t : Tree V} {h2 : Heap V} {root2 : Option Ptr}
    {node s lp : Ptr} {pe : Option Ptr} {nu0 : Node V}
    {sK : String} {sV : V} {sC : Color} {sL sR : Option Ptr}
    {L SRx : BT V} {psl psrx : List Ptr}
    {ctx : List (Hole V)} {c : Color} {x rp : Option Ptr}
    {t' : Tree V} {b : Bool}
    (hmn2 : h2.mem node = some nu0)
    (hLp : nu0.Left = some lp)
    (hs2 : h2.mem s = some ⟨sK, sV, sC, pe, sL, sR⟩)
    (EL2 : Extr h2 (some lp) (some node) L psl)
    (EX2 : Extr h2 sR (some s) SRx psrx)
    (hplug : ∀ (h5 : Heap V) (S : BT V) (psS : List Ptr),
      (∀ q, q ∈ ctxPtrs ctx → h5.mem q = h2.mem q) →
      Extr h5 (some s) pe S psS →
      Extr h5 root2 none (plugT ctx S) (plugPs ctx psS))
    (ndl : psl.Nodup) (ndx : psrx.Nodup) (ndC : (ctxPtrs ctx).Nodup)
    (hsl : s ∉ psl) (hsx : s ∉ psrx) (hsC : s ∉ ctxPtrs ctx)
    (hnodel : node ∉ psl) (hnodes : node ≠ s)
    (hlx : ∀ q ∈ psl, q ∉ psrx) (hlC : ∀ q ∈ psl, q ∉ ctxPtrs ctx)
    (hxC : ∀ q ∈ psrx, q ∉ ctxPtrs ctx)
    (hxinv : x = none ∨ ∃ q, x = some q ∧ q ∈ plugPs ctx (psl ++ s :: psrx))
    (hrpinv : rp = none ∨ ∃ pa, rp = some pa ∧ pa ∈ plugPs ctx (psl ++ s :: psrx))
    (hrun : (do
      let l5 ← getN h2 node
      let l6 ← setL h2 s l5.Left
      let l7 ← getN l6 s
      let sl ← deref l7.Left
      let l8 ← setP l6 sl (some s)
      let l9 ← getN l8 node
      let l10 ← setC l8 s l9.Color
      if c = black then do
        let fz ← Tree.deleteFixup ⟨l10, root2, t.size⟩ x rp
        Except.ok (⟨fz.heap, fz.root, fz.size - 1⟩, true)
      else
        Except.ok (⟨l10, root2, t.size - 1⟩, true) : Except Err (Tree V × Bool)) =
      .ok (t', b)) :
    b = true ∧
    (∃ T', Extr t'.heap t'.root none T' (plugPs ctx (psl ++ s :: psrx)) ∧
      T'.inorder =
        ctxInL ctx ++ (L.inorder ++ (sK, sV) :: SRx.inorder) ++ ctxInR ctx ∧
      t'.size = t.size - 1 ∧ t'.heap.next = h2.next) ∧
    ∃ u : Tree V,
      u.heap.mem s = some ⟨sK, sV, nu0.Color, pe, some lp, sR⟩ ∧
      u.size = t.size ∧
      (c = black → ∃ tfx, u.deleteFixup x rp = .ok tfx ∧
        t' = ⟨tfx.heap, tfx.root, tfx.size - 1⟩) ∧
      (¬ c = black → t' = ⟨u.heap, u.root, u.size - 1⟩) := by
  have hlpmem := EL2.root_mem
  have hlpne_s : lp ≠ s := fun hc => hsl (hc ▸ hlpmem)
  have hnlp : node ≠ lp := fun hc => hnodel (hc ▸ hlpmem)
  obtain ⟨nlp, hmlp2⟩ := EL2.mem_some lp hlpmem
  rw [getN_ok hmn2] at hrun
  simp only [ok_bind] at hrun
  rw [hLp] at hrun
  have e1 : setL h2 s (some lp) =
      .ok (h2.write s ⟨sK, sV, sC, pe, some lp, sR⟩) := setL_ok hs2 (some lp)
  rw [e1] at hrun
  simp only [ok_bind] at hrun
  rw [getN_write_self] at hrun
  simp only [ok_bind] at hrun
  rw [deref_some] at hrun
  simp only [ok_bind] at hrun
  have hmlp3 : (h2.write s ⟨sK, sV, sC, pe, some lp, sR⟩).mem lp = some nlp := by
    rw [mem_write_ne _ hlpne_s]; exact hmlp2
  have e2 : setP (h2.write s ⟨sK, sV, sC, pe, some lp, sR⟩) lp (some s) =
      .ok ((h2.write s ⟨sK, sV, sC, pe, some lp, sR⟩).write lp
        ⟨nlp.Key, nlp.Value, nlp.Color, some s, nlp.Left, nlp.Right⟩) :=
    setP_ok hmlp3 (some s)
  rw [e2] at hrun
  simp only [ok_bind] at hrun
  have hmn4 : ((h2.write s ⟨sK, sV, sC, pe, some lp, sR⟩).write lp
      ⟨nlp.Key, nlp.Value, nlp.Color, some s, nlp.Left, nlp.Right⟩).mem node =
      some nu0 := by
    rw [mem_write_ne _ hnlp, mem_write_ne _ hnodes]; exact hmn2
  rw [getN_ok hmn4] at hrun
  simp only [ok_bind] at hrun
  have hms4 : ((h2.write s ⟨sK, sV, sC, pe, some lp, sR⟩).write lp
      ⟨nlp.Key, nlp.Value, nlp.Color, some s, nlp.Left, nlp.Right⟩).mem s =
      some ⟨sK, sV, sC, pe, some lp, sR⟩ := by
    rw [mem_write_ne _ (Ne.symm hlpne_s), write_mem, if_pos rfl]
  have e3 : setC ((h2.write s ⟨sK, sV, sC, pe, some lp, sR⟩).write lp
      ⟨nlp.Key, nlp.Value, nlp.Color, some s, nlp.Left, nlp.Right⟩) s nu0.Color =
      .ok (((h2.write s ⟨sK, sV, sC, pe, some lp, sR⟩).write lp
        ⟨nlp.Key, nlp.Value, nlp.Color, some s, nlp.Left, nlp.Right⟩).write s
        ⟨sK, sV, nu0.Color, pe, some lp, sR⟩) := setC_ok hms4 nu0.Color
  rw [e3] at hrun
  simp only [ok_bind] at hrun
  have EL3 : Extr (((h2.write s ⟨sK, sV, sC, pe, some lp, sR⟩).write lp
      ⟨nlp.Key, nlp.Value, nlp.Color, some s, nlp.Left, nlp.Right⟩).write s
      ⟨sK, sV, nu0.Color, pe, some lp, sR⟩) (some lp) (some s) L psl := by
    have a1 := EL2.write_out hsl (⟨sK, sV, sC, pe, some lp, sR⟩ : Node V)
    exact (a1.reparent ndl hmlp3).write_out hsl _
  have EX3 : Extr (((h2.write s ⟨sK, sV, sC, pe, some lp, sR⟩).write lp
      ⟨nlp.Key, nlp.Value, nlp.Color, some s, nlp.Left, nlp.Right⟩).write s
      ⟨sK, sV, nu0.Color, pe, some lp, sR⟩) sR (some s) SRx psrx := by
    have a1 := EX2.write_out hsx (⟨sK, sV, sC, pe, some lp, sR⟩ : Node V)
    have a2 := a1.write_out (hlx lp hlpmem)
      (⟨nlp.Key, nlp.Value, nlp.Color, some s, nlp.Left, nlp.Right⟩ : Node V)
    exact a2.write_out hsx _
  have hmem5 : (((h2.write s ⟨sK, sV, sC, pe, some lp, sR⟩).write lp
      ⟨nlp.Key, nlp.Value, nlp.Color, some s, nlp.Left, nlp.Right⟩).write s
      ⟨sK, sV, nu0.Color, pe, some lp, sR⟩).mem s =
      some ⟨sK, sV, nu0.Color, pe, some lp, sR⟩ := by
    rw [write_mem, if_pos rfl]
  have ESUB : Extr (((h2.write s ⟨sK, sV, sC, pe, some lp, sR⟩).write lp
      ⟨nlp.Key, nlp.Value, nlp.Color, some s, nlp.Left, nlp.Right⟩).write s
      ⟨sK, sV, nu0.Color, pe, some lp, sR⟩) (some s) pe
      (.node L nu0.Color sK sV SRx) (psl ++ s :: psrx) :=
    .node s pe ⟨sK, sV, nu0.Color, pe, some lp, sR⟩ L psl SRx psrx hmem5 rfl EL3 EX3
  have hag5 : ∀ q, q ∈ ctxPtrs ctx →
      (((h2.write s ⟨sK, sV, sC, pe, some lp, sR⟩).write lp
        ⟨nlp.Key, nlp.Value, nlp.Color, some s, nlp.Left, nlp.Right⟩).write s
        ⟨sK, sV, nu0.Color, pe, some lp, sR⟩).mem q = h2.mem q := by
    intro q hq
    have hqs : q ≠ s := fun hc => hsC (hc ▸ hq)
    have hqlp : q ≠ lp := fun hc => hlC lp hlpmem (hc ▸ hq)
    rw [mem_write_ne _ hqs, mem_write_ne _ hqlp, mem_write_ne _ hqs]
  have EXT5 := hplug _ _ _ hag5 ESUB
  have hnd5 : (plugPs ctx (psl ++ s :: psrx)).Nodup := by
    rw [plugPs_nodup, List.nodup_append]
    refine ⟨?_, ndC, ?_⟩
    · rw [List.nodup_append, List.nodup_cons]
      exact ⟨ndl, ⟨hsx, ndx⟩, fun a ha hb => by
        rcases List.mem_cons.1 hb with hh | hh
        · exact hsl (hh ▸ ha)
        · exact hlx a ha hh⟩
    · intro a ha hb
      rcases List.mem_append.1 ha with hh | hh
      · exact hlC a hh hb
      · rcases List.mem_cons.1 hh with hh2 | hh2
        · exact hsC (hh2 ▸ hb)
        · exact hxC a hh2 hb
  have hinSUB : (plugT ctx (BT.node L nu0.Color sK sV SRx)).inorder =
      ctxInL ctx ++ (L.inorder ++ (sK, sV) :: SRx.inorder) ++ ctxInR ctx := by
    rw [plugT_inorder]
    simp [BT.inorder]
  by_cases hcc : c = black
  · rw [if_pos hcc] at hrun
    cases hfx : Tree.deleteFixup
        ⟨((h2.write s ⟨sK, sV, sC, pe, some lp, sR⟩).write lp
          ⟨nlp.Key, nlp.Value, nlp.Color, some s, nlp.Left, nlp.Right⟩).write s
          ⟨sK, sV, nu0.Color, pe, some lp, sR⟩, root2, t.size⟩ x rp with
    | error e => rw [hfx, error_bind] at hrun; cases hrun
    | ok fz =>
      rw [hfx, ok_bind] at hrun
      obtain ⟨T6, ext6, hi6, hs6, hn6⟩ :=
        deleteFixup_good EXT5 hnd5 hrpinv hxinv hfx
      cases hrun
      refine ⟨rfl, ⟨T6, ext6, ?_, ?_, ?_⟩,
        ⟨_, root2, t.size⟩, hmem5, rfl, fun _ => ⟨fz, hfx, rfl⟩,
        fun hn => absurd hcc hn⟩
      · rw [hi6, hinSUB]
      · show fz.size - 1 = t.size - 1
        rw [hs6]
      · show fz.heap.next = h2.next
        rw [hn6]
        rfl
  · rw [if_neg hcc] at hrun
    cases hrun
    exact ⟨rfl, ⟨plugT ctx (.node L nu0.Color sK sV SRx), EXT5, hinSUB, rfl, rfl⟩,
      ⟨_, root2, t.size⟩, hmem5, rfl, fun hb => absurd hb hcc, fun _ => rfl⟩

/-- Unpack the nodup facts of a delete-shaped address list. -/
theorem nodup_split3 {psl psr C : List Ptr} {x : Ptr}
    (ND : ((psl ++ x :: psr) ++ C).Nodup) :
    psl.Nodup ∧ psr.Nodup ∧ C.Nodup ∧ x ∉ psl ∧ x ∉ psr ∧ x ∉ C ∧
    (∀ q ∈ psl, q ∉ psr) ∧ (∀ q ∈ psl, q ∉ C) ∧ (∀ q ∈ psr, q ∉ C) := by
  rw [List.nodup_append] at ND
  obtain ⟨nd0, ndC, disj⟩ := ND
  rw [List.nodup_append] at nd0
  obtain ⟨ndl, ndxr, disj2⟩ := nd0
  rw [List.nodup_cons] at ndxr
  obtain ⟨hxr, ndr⟩ := ndxr
  refine ⟨ndl, ndr, ndC, ?_, hxr, ?_, ?_, ?_, ?_⟩
  · exact fun hc => disj2 hc (by simp)
  · exact fun hc => disj (by simp) hc
  · exact fun q hq hc => disj2 hq (by simp [hc])
  · exact fun q hq hc => disj (by simp [hq]) hc
  · exact fun q hq hc => disj (by simp [hq]) hc

theorem Delete_spec {t : Tree V} {T : BT V} {ps : List Ptr} {key : String}
    {t' : Tree V} {b : Bool}
    (ext : Extr t.heap t.root none T ps) (nodup : ps.Nodup)
    (bound : ∀ q ∈ ps, q < t.heap.next)
    (srt : List.Sorted (· < ·) (BT.keys T))
    (hrun : t.Delete key = .ok (t', b)) :
    (key ∉ BT.keys T ∧ t' = t ∧ b = false) ∨
    (key ∈ BT.keys T ∧ b = true ∧
      (∃ T' ps' IA IB w, Extr t'.heap t'.root none T' ps' ∧ ps'.Nodup ∧
        (∀ q ∈ ps', q < t'.heap.next) ∧
        T.inorder = IA ++ (key, w) :: IB ∧ T'.inorder = IA ++ IB ∧
        t'.size = t.size - 1 ∧ t'.heap.next = t.heap.next ∧
        ps'.length + 1 = ps.length) ∧
      ∃ nd nu1, t.heap.mem nd = some nu1 ∧ nu1.Key = key ∧
        ∀ lp0 nr0, nu1.Left = some lp0 → nu1.Right = some nr0 →
          ∃ (s1 : Ptr) (ns1 : Node V) (u : Tree V) (x rp : Option Ptr),
            minimumLoop t.heap nr0 t.fuel = .ok s1 ∧
            t.heap.mem s1 = some ns1 ∧
            (∃ nspre, u.heap.mem s1 = some nspre ∧ nspre.Color = nu1.Color ∧
              nspre.Key = ns1.Key ∧ nspre.Value = ns1.Value) ∧
            u.size = t.size ∧
            (ns1.Color = black → ∃ tfx, u.deleteFixup x rp = .ok tfx ∧
              t' = ⟨tfx.heap, tfx.root, tfx.size - 1⟩) ∧
            (ns1.Color = red → t' = ⟨u.heap, u.root, u.size - 1⟩)) := by
  have hlen := nodup_bound_length nodup bound
  have hfuel : ps.length < t.fuel := by
    show ps.length < t.heap.next + 2
    omega
  rw [Tree.Delete] at hrun
  rcases searchLoop_spec ext srt key t.fuel hfuel with ⟨hnk, hsr⟩ |
    ⟨node, nu0, hnps, hmn0, hkey, hinT, hsr⟩
  · rw [show t.Search key = searchLoop t.heap key t.root t.fuel from rfl, hsr,
      ok_bind] at hrun
    simp only [] at hrun
    cases hrun
    exact .inl ⟨hnk, rfl, rfl⟩
  · rw [show t.Search key = searchLoop t.heap key t.root t.fuel from rfl, hsr,
      ok_bind] at hrun
    simp only [] at hrun
    rw [getN_ok hmn0] at hrun
    simp only [ok_bind, unit_bind] at hrun
    right
    have hkeyT : key ∈ BT.keys T := by
      rw [BT.keys, List.mem_map]
      exact ⟨(key, nu0.Value), hinT, rfl⟩
    obtain ⟨ctx, S0, ps0, pe, H, Esub, hT, hps⟩ := ext.decompose node hnps
    obtain ⟨nu', L, psl, R, psr, hm', hpar, hS0, hps0, EL, ER⟩ := Esub.inv_some
    rw [hmn0] at hm'
    injection hm' with hm'
    subst hm'
    have nodup0 : ((psl ++ node :: psr) ++ ctxPtrs ctx).Nodup := by
      have := (plugPs_nodup ctx ps0).1 (hps ▸ nodup)
      rwa [hps0] at this
    obtain ⟨ndl, ndr, ndC, hnl, hnr, hnC, hlr, hlC, hrC⟩ := nodup_split3 nodup0
    have hparinv : nu0.Parent = none ∨
        ∃ pa, nu0.Parent = some pa ∧ pa ∈ ctxPtrs ctx := by
      rcases H.pe_cases with hpe | ⟨pa, hpe, hpamem⟩
      · exact .inl (hpar.trans hpe)
      · exact .inr ⟨pa, hpar.trans hpe, hpamem⟩
    have hlenps : ps.length = psl.length + psr.length + 1 + (ctxPtrs ctx).length := by
      rw [hps, (plugPs_perm ctx ps0).length_eq, hps0]
      simp [List.length_append]
      omega
    by_cases hL0 : nu0.Left = none
    · rw [if_pos hL0] at hrun
      rw [hL0] at EL
      obtain ⟨hLnil, hpslnil⟩ := EL.inv_none
      subst hpslnil
      subst hLnil
      obtain ⟨h1, root1, T1, hexec, ext1, hin1, hnext1, hroot1, hag1⟩ :=
        transplant_replug t.size H (fun _ => rfl) hmn0 hpar ER ndr hnC ndC
          (fun q hq => ⟨hrC q hq, fun hc => hnr (hc ▸ hq)⟩)
      have hexec' : t.transplant node nu0.Right = .ok ⟨h1, root1, t.size⟩ := hexec
      rw [hexec', ok_bind] at hrun
      have hnd1 : (plugPs ctx psr).Nodup := by
        rw [plugPs_nodup, List.nodup_append]
        exact ⟨ndr, ndC, fun a ha hb => hrC a ha hb⟩
      have hsub1 : ∀ q ∈ plugPs ctx psr, q ∈ ps := by
        intro q hq
        rw [hps, hps0]
        rcases (mem_plugPs ctx psr).1 hq with h | h
        · exact (mem_plugPs _ _).2 (.inl (by simp [h]))
        · exact (mem_plugPs _ _).2 (.inr h)
      have hparinv1 : nu0.Parent = none ∨
          ∃ pa, nu0.Parent = some pa ∧ pa ∈ plugPs ctx psr := by
        rcases hparinv with h | ⟨pa, hp1, hp2⟩
        · exact .inl h
        · exact .inr ⟨pa, hp1, (mem_plugPs _ _).2 (.inr hp2)⟩
      have hxinv1 : nu0.Right = none ∨
          ∃ q, nu0.Right = some q ∧ q ∈ plugPs ctx psr := by
        cases hR : nu0.Right with
        | none => exact .inl rfl
        | some r =>
          exact .inr ⟨r, rfl, (mem_plugPs _ _).2 (.inl (ER.root_mem_opt r hR))⟩
      have hTin : T.inorder =
          (ctxInL ctx) ++ (key, nu0.Value) :: (R.inorder ++ ctxInR ctx) := by
        rw [hT, plugT_inorder, hS0, hkey]
        simp [BT.inorder]
      have hlen1 : (plugPs ctx psr).length + 1 = ps.length := by
        rw [(plugPs_perm ctx psr).length_eq, hlenps]
        simp [List.length_append]
        omega
      by_cases hc0 : nu0.Color = black
      · rw [if_pos hc0] at hrun
        cases hfx : Tree.deleteFixup ⟨h1, root1, t.size⟩ nu0.Right nu0.Parent with
        | error e => rw [hfx, error_bind] at hrun; cases hrun
        | ok t2 =>
          rw [hfx, ok_bind] at hrun
          obtain ⟨T2, ext2, hi2, hs2, hn2⟩ :=
            deleteFixup_good ext1 hnd1 hparinv1 hxinv1 hfx
          cases hrun
          refine ⟨hkeyT, rfl, ⟨T2, plugPs ctx psr, ctxInL ctx,
            R.inorder ++ ctxInR ctx, nu0.Value, ext2, hnd1, ?_, hTin, ?_, ?_, ?_, hlen1⟩,
            node, nu0, hmn0, hkey,
            fun lp0 nr0 hl hr => by rw [hL0] at hl; cases hl⟩
          · intro q hq
            have : t2.heap.next = t.heap.next := by rw [hn2]; exact hnext1
            rw [this]
            exact bound q (hsub1 q hq)
          · rw [hi2, hin1]
            simp [List.append_assoc]
          · show t2.size - 1 = t.size - 1
            rw [hs2]
          · show t2.heap.next = t.heap.next
            rw [hn2]; exact hnext1
      · rw [if_neg hc0] at hrun
        cases hrun
        refine ⟨hkeyT, rfl, ⟨T1, plugPs ctx psr, ctxInL ctx,
          R.inorder ++ ctxInR ctx, nu0.Value, ext1, hnd1, ?_, hTin, ?_, rfl, hnext1, hlen1⟩,
          node, nu0, hmn0, hkey,
          fun lp0 nr0 hl hr => by rw [hL0] at hl; cases hl⟩
        · intro q hq
          show q < h1.next
          rw [hnext1]
          exact bound q (hsub1 q hq)
        · rw [hin1]
          simp [List.append_assoc]
    · rw [if_neg hL0] at hrun
      obtain ⟨lp, hLp⟩ := Option.ne_none_iff_exists'.1 hL0
      by_cases hR0 : nu0.Right = none
      · rw [if_pos hR0] at hrun
        rw [hR0] at ER
        obtain ⟨hRnil, hpsrnil⟩ := ER.inv_none
        subst hpsrnil
        subst hRnil
        obtain ⟨h1, root1, T1, hexec, ext1, hin1, hnext1, hroot1, hag1⟩ :=
          transplant_replug t.size H (fun _ => rfl) hmn0 hpar EL ndl hnC ndC
            (fun q hq => ⟨hlC q hq, fun hc => hnl (hc ▸ hq)⟩)
        have hexec' : t.transplant node nu0.Left = .ok ⟨h1, root1, t.size⟩ := hexec
        rw [hexec', ok_bind] at hrun
        have hnd1 : (plugPs ctx psl).Nodup := by
          rw [plugPs_nodup, List.nodup_append]
          exact ⟨ndl, ndC, fun a ha hb => hlC a ha hb⟩
        have hsub1 : ∀ q ∈ plugPs ctx psl, q ∈ ps := by
          intro q hq
          rw [hps, hps0]
          rcases (mem_plugPs ctx psl).1 hq with h | h
          · exact (mem_plugPs _ _).2 (.inl (by simp [h]))
          · exact (mem_plugPs _ _).2 (.inr h)
        have hparinv1 : nu0.Parent = none ∨
            ∃ pa, nu0.Parent = some pa ∧ pa ∈ plugPs ctx psl := by
          rcases hparinv with h | ⟨pa, hp1, hp2⟩
          · exact .inl h
          · exact .inr ⟨pa, hp1, (mem_plugPs _ _).2 (.inr hp2)⟩
        have hxinv1 : nu0.Left = none ∨
            ∃ q, nu0.Left = some q ∧ q ∈ plugPs ctx psl :=
          .inr ⟨lp, hLp, (mem_plugPs _ _).2 (.inl (EL.root_mem_opt lp hLp))⟩
        have hTin : T.inorder =
            (ctxInL ctx ++ L.inorder) ++ (key, nu0.Value) :: (ctxInR ctx) := by
          rw [hT, plugT_inorder, hS0, hkey]
          simp [BT.inorder]
        have hlen1 : (plugPs ctx psl).length + 1 = ps.length := by
          rw [(plugPs_perm ctx psl).length_eq, hlenps]
          simp [List.length_append]
          omega
        by_cases hc0 : nu0.Color = black
        · rw [if_pos hc0] at hrun
          cases hfx : Tree.deleteFixup ⟨h1, root1, t.size⟩ nu0.Left nu0.Parent with
          | error e => rw [hfx, error_bind] at hrun; cases hrun
          | ok t2 =>
            rw [hfx, ok_bind] at hrun
            obtain ⟨T2, ext2, hi2, hs2, hn2⟩ :=
              deleteFixup_good ext1 hnd1 hparinv1 hxinv1 hfx
            cases hrun
            refine ⟨hkeyT, rfl, ⟨T2, plugPs ctx psl, ctxInL ctx ++ L.inorder,
              ctxInR ctx, nu0.Value, ext2, hnd1, ?_, hTin, ?_, ?_, ?_, hlen1⟩,
              node, nu0, hmn0, hkey,
              fun lp0 nr0 hl hr => by rw [hR0] at hr; cases hr⟩
            · intro q hq
              have : t2.heap.next = t.heap.next := by rw [hn2]; exact hnext1
              rw [this]
              exact bound q (hsub1 q hq)
            · rw [hi2, hin1]
            · show t2.size - 1 = t.size - 1
              rw [hs2]
            · show t2.heap.next = t.heap.next
              rw [hn2]; exact hnext1
        · rw [if_neg hc0] at hrun
          cases hrun
          refine ⟨hkeyT, rfl, ⟨T1, plugPs ctx psl, ctxInL ctx ++ L.inorder,
            ctxInR ctx, nu0.Value, ext1, hnd1, ?_, hTin, ?_, rfl, hnext1, hlen1⟩,
            node, nu0, hmn0, hkey,
            fun lp0 nr0 hl hr => by rw [hR0] at hr; cases hr⟩
          · intro q hq
            show q < h1.next
            rw [hnext1]
            exact bound q (hsub1 q hq)
          · rw [hin1]
      · rw [if_neg hR0] at hrun
        obtain ⟨nR, hRp⟩ := Option.ne_none_iff_exists'.1 hR0
        rw [hRp, deref_some] at hrun
        simp only [ok_bind] at hrun
        have hpsrlen : psr.length < t.fuel := by
          show psr.length < t.heap.next + 2
          omega
        obtain ⟨s, ns, hmin, hms, hnsL, hhead⟩ :=
          minimumLoop_spec ER nR hRp t.fuel hpsrlen
        rw [hmin] at hrun
        simp only [ok_bind] at hrun
        rw [getN_ok hms] at hrun
        simp only [ok_bind] at hrun
        have hsps : s ∈ psr := List.mem_of_mem_head? (by rw [Option.mem_def, hhead])
        obtain ⟨lp, hLp⟩ := Option.ne_none_iff_exists'.1 hL0
        obtain ⟨ctxs, Ss, pss0, pes, Hs, Es, hRT, hRps⟩ := ER.decompose s hsps
        obtain ⟨ns', SL, pssl, SR, pssr, hms', hpars, hSs, hpss0, ESL, ESR⟩ :=
          Es.inv_some
        rw [hms] at hms'
        injection hms' with hms'
        subst hms'
        rw [hnsL] at ESL
        obtain ⟨hSLnil, hpsslnil⟩ := ESL.inv_none
        subst hpsslnil
        subst hSLnil
        have nodupR0 : ((([] : List Ptr) ++ s :: pssr) ++ ctxPtrs ctxs).Nodup := by
          have := (plugPs_nodup ctxs pss0).1 (hRps ▸ ndr)
          rwa [hpss0] at this
        obtain ⟨-, ndxr, ndCs, -, hsxr, hsCs, -, -, hxrCs⟩ := nodup_split3 nodupR0
        have hsubxr : ∀ q ∈ pssr, q ∈ psr := by
          intro q hq
          rw [hRps, hpss0]
          exact (mem_plugPs _ _).2 (.inl (by simp [hq]))
        have hsubCs : ∀ q ∈ ctxPtrs ctxs, q ∈ psr := by
          intro q hq
          rw [hRps]
          exact (mem_plugPs _ _).2 (.inr hq)
        have hsnode : s ≠ node := fun hc => hnr (hc ▸ hsps)
        have hsC : s ∉ ctxPtrs ctx := hrC s hsps
        have hlx : ∀ q ∈ psl, q ∉ pssr := fun q hq hc => hlr q hq (hsubxr q hc)
        have hxC : ∀ q ∈ pssr, q ∉ ctxPtrs ctx := fun q hq => hrC q (hsubxr q hq)
        have hT2 : T =
            plugT ctx (.node L nu0.Color nu0.Key nu0.Value (plugT ctxs Ss)) := by
          rw [hT, hS0, hRT]
        by_cases hsp : ns.Parent = some node
        · rw [if_pos hsp] at hrun
          cases hctxs2 : ctxs with
          | cons fr rests =>
            exfalso
            subst hctxs2
            rcases Hs.inv_cons with
              ⟨p9, n9, R9, psr9, pe9, hfr9, hr09, hpe9, hm9, hp9, E9, H9⟩ |
              ⟨p9, n9, L9, psl9, pe9, hfr9, hr09, hpe9, hm9, hp9, E9, H9⟩
            · subst hfr9
              have hne : node = p9 := Option.some.inj (hsp.symm.trans (hpars.trans hpe9))
              exact hnr (hne ▸ hsubCs p9 (by simp [ctxPtrs]))
            · subst hfr9
              have hne : node = p9 := Option.some.inj (hsp.symm.trans (hpars.trans hpe9))
              exact hnr (hne ▸ hsubCs p9 (by simp [ctxPtrs]))
          | nil =>
            subst hctxs2
            obtain ⟨hsnR, hpes⟩ := Hs.inv_nil
            have hpsr_eq : psr = [] ++ s :: pssr := by
              rw [hRps, hpss0]; rfl
            suffices hS : ∀ (h0 : Heap V) (xa : Option Ptr),
                (∀ q, h0.mem q = t.heap.mem q) → h0.next = t.heap.next →
                (xa = none ∨ ∃ q, xa = some q ∧ q ∈ pssr) →
                (do
                  let l4 ← Tree.transplant ⟨h0, t.root, t.size⟩ node (some s)
                  let l5 ← getN l4.heap node
                  let l6 ← setL l4.heap s l5.Left
                  let l7 ← getN l6 s
                  let sl ← deref l7.Left
                  let l8 ← setP l6 sl (some s)
                  let l9 ← getN l8 node
                  let l10 ← setC l8 s l9.Color
                  if ns.Color = black then do
                    let fz ← Tree.deleteFixup ⟨l10, l4.root, l4.size⟩ xa (some s)
                    Except.ok (⟨fz.heap, fz.root, fz.size - 1⟩, true)
                  else
                    Except.ok (⟨l10, l4.root, l4.size - 1⟩, true) :
                  Except Err (Tree V × Bool)) = .ok (t', b) →
                (key ∈ BT.keys T ∧ b = true ∧
                  (∃ T' ps' IA IB w, Extr t'.heap t'.root none T' ps' ∧ ps'.Nodup ∧
                    (∀ q ∈ ps', q < t'.heap.next) ∧
                    T.inorder = IA ++ (key, w) :: IB ∧ T'.inorder = IA ++ IB ∧
                    t'.size = t.size - 1 ∧ t'.heap.next = t.heap.next ∧
                    ps'.length + 1 = ps.length) ∧
                  ∃ nd nu1, t.heap.mem nd = some nu1 ∧ nu1.Key = key ∧
                    ∀ lp0 nr0, nu1.Left = some lp0 → nu1.Right = some nr0 →
                      ∃ (s1 : Ptr) (ns1 : Node V) (u : Tree V) (x rp : Option Ptr),
                        minimumLoop t.heap nr0 t.fuel = .ok s1 ∧
                        t.heap.mem s1 = some ns1 ∧
                        (∃ nspre, u.heap.mem s1 = some nspre ∧
                          nspre.Color = nu1.Color ∧
                          nspre.Key = ns1.Key ∧ nspre.Value = ns1.Value) ∧
                        u.size = t.size ∧
                        (ns1.Color = black → ∃ tfx, u.deleteFixup x rp = .ok tfx ∧
                          t' = ⟨tfx.heap, tfx.root, tfx.size - 1⟩) ∧
                        (ns1.Color = red →
                          t' = ⟨u.heap, u.root, u.size - 1⟩)) by
              cases hxr : ns.Right with
              | some xp =>
                rw [hxr] at hrun
                simp only [] at hrun
                have ESRp : Extr t.heap (some xp) (some s) SR pssr := hxr ▸ ESR
                have hxpmem : xp ∈ pssr := ESRp.root_mem
                obtain ⟨nxp, -, -, -, -, hmxp, hparxp, -, -, -, -⟩ := ESRp.inv_some
                have hsame : (⟨nxp.Key, nxp.Value, nxp.Color, some s, nxp.Left,
                    nxp.Right⟩ : Node V) = nxp := by
                  rw [← hparxp]
                have e0 : setP t.heap xp (some s) = .ok (t.heap.write xp nxp) := by
                  rw [setP_ok hmxp (some s), hsame]
                rw [e0] at hrun
                simp only [ok_bind] at hrun
                have hag0 : ∀ q, (t.heap.write xp nxp).mem q = t.heap.mem q := by
                  intro q
                  rw [write_mem]
                  by_cases hq : q = xp
                  · rw [if_pos hq, hq, hmxp]
                  · rw [if_neg hq]
                exact hS (t.heap.write xp nxp) (some xp) hag0 rfl
                  (.inr ⟨xp, rfl, hxpmem⟩) hrun
              | none =>
                rw [hxr] at hrun
                simp only [] at hrun
                exact hS t.heap none (fun q => rfl) rfl (.inl rfl) hrun
            intro h0 xa hag0 hagN hxa hrun
            have hmn0' : h0.mem node = some nu0 := by rw [hag0]; exact hmn0
            have hms0' : h0.mem s = some ns := by rw [hag0]; exact hms
            obtain ⟨h2, root2, hexec, hnext2, hs2, hag2, hplug⟩ :=
              transplant_open t.size (H.hcongr fun q _ => hag0 q) (fun _ => rfl)
                hmn0' hpar hms0' hsnode hsC hnC ndC
            rw [hexec] at hrun
            simp only [ok_bind] at hrun
            have hmn2 : h2.mem node = some nu0 := by
              rw [hag2 node (Ne.symm hsnode) hnC]; exact hmn0'
            have EL2 : Extr h2 (some lp) (some node) L psl := by
              refine (hLp ▸ EL).congr fun q hq => ?_
              rw [hag2 q (fun hc => hlr q hq (hc ▸ hsps)) (hlC q hq), hag0]
            have EX2 : Extr h2 ns.Right (some s) SR pssr := by
              refine ESR.congr fun q hq => ?_
              rw [hag2 q (fun hc => hsxr (hc ▸ hq)) (hxC q hq), hag0]
            have hsl2 : s ∉ psl := fun hc => hlr s hc hsps
            obtain ⟨hb, ⟨T', ext', hin', hsz', hnx'⟩, hu6⟩ :=
              delFinish (t := t) (c := ns.Color) hmn2 hLp hs2 EL2 EX2 hplug
                ndl ndxr ndC hsl2 hsxr hsC hnl (Ne.symm hsnode) hlx hlC hxC
                (by
                  rcases hxa with h | ⟨q, hq, hqm⟩
                  · exact .inl h
                  · exact .inr ⟨q, hq, (mem_plugPs _ _).2 (.inl (by simp [hqm]))⟩)
                (.inr ⟨s, rfl, (mem_plugPs _ _).2 (.inl (by simp))⟩) hrun
            refine ⟨hkeyT, hb, ⟨T', plugPs ctx (psl ++ s :: pssr),
              ctxInL ctx ++ L.inorder,
              ((ns.Key, ns.Value) :: SR.inorder) ++ ctxInR ctx, nu0.Value,
              ext', ?_, ?_, ?_, ?_, hsz', ?_, ?_⟩,
              node, nu0, hmn0, hkey, ?_⟩
            · rw [plugPs_nodup, List.nodup_append]
              refine ⟨?_, ndC, ?_⟩
              · rw [List.nodup_append, List.nodup_cons]
                exact ⟨ndl, ⟨hsxr, ndxr⟩, fun a ha hb2 => by
                  rcases List.mem_cons.1 hb2 with hh | hh
                  · exact hsl2 (hh ▸ ha)
                  · exact hlx a ha hh⟩
              · intro a ha hb2
                rcases List.mem_append.1 ha with hh | hh
                · exact hlC a hh hb2
                · rcases List.mem_cons.1 hh with hh2 | hh2
                  · exact hsC (hh2 ▸ hb2)
                  · exact hxC a hh2 hb2
            · intro q hq
              have hnq : t'.heap.next = t.heap.next := by
                rw [hnx', hnext2, hagN]
              rw [hnq]
              refine bound q ?_
              rw [hps, hps0]
              rcases (mem_plugPs _ _).1 hq with h | h
              · rcases List.mem_append.1 h with h2 | h2
                · exact (mem_plugPs _ _).2 (.inl (by simp [h2]))
                · rcases List.mem_cons.1 h2 with h3 | h3
                  · refine (mem_plugPs _ _).2 (.inl ?_)
                    subst h3
                    simp only [List.mem_append, List.mem_cons]
                    exact .inr (.inr hsps)
                  · refine (mem_plugPs _ _).2 (.inl ?_)
                    simp only [List.mem_append, List.mem_cons]
                    exact .inr (.inr (hsubxr q h3))
              · exact (mem_plugPs _ _).2 (.inr h)
            · rw [hT2, plugT_inorder, hSs]
              simp [plugT, BT.inorder, hkey, List.append_assoc]
            · rw [hin']
              simp [List.append_assoc]
            · rw [hnx', hnext2, hagN]
            · have hp := (plugPs_perm ctx (psl ++ s :: pssr)).length_eq
              have hp2 : psr.length = pssr.length + 1 := by
                rw [hpsr_eq]
                simp
              rw [hp, hlenps, hp2]
              simp [List.length_append]
              omega
            · intro lp0 nr0 hl hr
              obtain ⟨u, humem, husz, hubl, hured⟩ := hu6
              have hnr0 : nr0 = nR := Option.some.inj (hr.symm.trans hRp)
              refine ⟨s, ns, u, xa, some s, ?_, hms,
                ⟨_, humem, rfl, rfl, rfl⟩, husz, hubl, ?_⟩
              · rw [hnr0]
                exact hmin
              · intro hred
                refine hured ?_
                intro hb2
                rw [hred] at hb2
                exact absurd hb2 (by decide)
        · rw [if_neg hsp] at hrun
          cases hctxs2 : ctxs with
          | nil =>
            exfalso
            subst hctxs2
            exact hsp (hpars.trans Hs.inv_nil.2)
          | cons frs rests =>
            subst hctxs2
            obtain ⟨h1, T1, hexec1, ext1, hin1, hnext1, hag1⟩ :=
              transplant_replug_deep t.size Hs hms hpars ESR ndxr hsCs ndCs
                (fun q hq => ⟨hxrCs q hq, fun hc => hsxr (hc ▸ hq)⟩)
            have hexec1' : t.transplant s ns.Right = .ok ⟨h1, t.root, t.size⟩ := hexec1
            rw [hexec1'] at hrun
            simp only [ok_bind] at hrun
            have hnodeCs : node ∉ ctxPtrs (frs :: rests) := fun hc => hnr (hsubCs _ hc)
            have hnodexr : node ∉ pssr := fun hc => hnr (hsubxr node hc)
            have hmn1 : h1.mem node = some nu0 := by
              rw [hag1 node hnodeCs hnodexr]; exact hmn0
            rw [getN_ok hmn1] at hrun
            simp only [ok_bind] at hrun
            have hms1 : h1.mem s = some ns := by
              rw [hag1 s hsCs hsxr]; exact hms
            rw [hRp] at hrun
            have e1 : setR h1 s (some nR) =
                .ok (h1.write s ⟨ns.Key, ns.Value, ns.Color, ns.Parent, ns.Left,
                  some nR⟩) := setR_ok hms1 (some nR)
            rw [e1] at hrun
            simp only [ok_bind] at hrun
            rw [getN_write_self] at hrun
            simp only [ok_bind] at hrun
            rw [deref_some] at hrun
            simp only [ok_bind] at hrun
            have hsP1 : s ∉ plugPs (frs :: rests) pssr := by
              intro hc
              rcases (mem_plugPs _ _).1 hc with h | h
              · exact hsxr h
              · exact hsCs h
            have ext2 : Extr (h1.write s ⟨ns.Key, ns.Value, ns.Color, ns.Parent,
                ns.Left, some nR⟩) nu0.Right (some node) T1
                (plugPs (frs :: rests) pssr) := ext1.write_out hsP1 _
            have ext2' : Extr (h1.write s ⟨ns.Key, ns.Value, ns.Color, ns.Parent,
                ns.Left, some nR⟩) (some nR) (some node) T1
                (plugPs (frs :: rests) pssr) := hRp ▸ ext2
            obtain ⟨nR1, hmnR1⟩ := ext2'.mem_some nR ext2'.root_mem
            have e2 : setP (h1.write s ⟨ns.Key, ns.Value, ns.Color, ns.Parent,
                ns.Left, some nR⟩) nR (some s) =
                .ok ((h1.write s ⟨ns.Key, ns.Value, ns.Color, ns.Parent, ns.Left,
                  some nR⟩).write nR ⟨nR1.Key, nR1.Value, nR1.Color, some s,
                  nR1.Left, nR1.Right⟩) := setP_ok hmnR1 (some s)
            rw [e2] at hrun
            simp only [ok_bind] at hrun
            have hsubPs1 : ∀ q ∈ plugPs (frs :: rests) pssr, q ∈ psr := by
              intro q hq
              rcases (mem_plugPs _ _).1 hq with h | h
              · exact hsubxr q h
              · exact hsubCs q h
            have nd1 : (plugPs (frs :: rests) pssr).Nodup := by
              rw [plugPs_nodup, List.nodup_append]
              exact ⟨ndxr, ndCs, fun a ha hb => hxrCs a ha hb⟩
            have ER2 : Extr ((h1.write s ⟨ns.Key, ns.Value, ns.Color, ns.Parent,
                ns.Left, some nR⟩).write nR ⟨nR1.Key, nR1.Value, nR1.Color,
                some s, nR1.Left, nR1.Right⟩) (some nR) (some s) T1
                (plugPs (frs :: rests) pssr) := ext2'.reparent nd1 hmnR1
            have hnRmem : nR ∈ psr := hsubPs1 nR ext2'.root_mem
            have hnodenR : node ≠ nR := fun hc => hnr (hc ▸ hnRmem)
            have hsnR : s ≠ nR := fun hc => hsP1 (hc ▸ ext2'.root_mem)
            have hmn3 : ((h1.write s ⟨ns.Key, ns.Value, ns.Color, ns.Parent,
                ns.Left, some nR⟩).write nR ⟨nR1.Key, nR1.Value, nR1.Color,
                some s, nR1.Left, nR1.Right⟩).mem node = some nu0 := by
              rw [mem_write_ne _ hnodenR, mem_write_ne _ hsnode.symm]
              exact hmn1
            have hms3 : ((h1.write s ⟨ns.Key, ns.Value, ns.Color, ns.Parent,
                ns.Left, some nR⟩).write nR ⟨nR1.Key, nR1.Value, nR1.Color,
                some s, nR1.Left, nR1.Right⟩).mem s =
                some ⟨ns.Key, ns.Value, ns.Color, ns.Parent, ns.Left, some nR⟩ := by
              rw [mem_write_ne _ hsnR, write_mem, if_pos rfl]
            have H3 : HExtr ((h1.write s ⟨ns.Key, ns.Value, ns.Color, ns.Parent,
                ns.Left, some nR⟩).write nR ⟨nR1.Key, nR1.Value, nR1.Color,
                some s, nR1.Left, nR1.Right⟩) t.root none ctx (some node) pe := by
              refine H.hcongr fun q hq => ?_
              have hqpsr : q ∉ psr := fun hc => hrC q hc hq
              have hqnR : q ≠ nR := fun hc => hqpsr (hc ▸ hnRmem)
              have hqs : q ≠ s := fun hc => hqpsr (hc ▸ hsps)
              rw [mem_write_ne _ hqnR, mem_write_ne _ hqs]
              exact hag1 q (fun hc => hqpsr (hsubCs q hc))
                (fun hc => hqpsr (hsubxr q hc))
            obtain ⟨h2o, root2, hexec2, hnext2o, hs2o, hag2o, hplug⟩ :=
              transplant_open t.size H3 (fun _ => rfl) hmn3 hpar hms3 hsnode hsC
                hnC ndC
            rw [hexec2] at hrun
            simp only [ok_bind] at hrun
            have hmn2 : h2o.mem node = some nu0 := by
              rw [hag2o node (Ne.symm hsnode) hnC]
              exact hmn3
            have EL2 : Extr h2o (some lp) (some node) L psl := by
              refine (hLp ▸ EL).congr fun q hq => ?_
              have hqpsr : q ∉ psr := fun hc => hlr q hq hc
              have hqs : q ≠ s := fun hc => hqpsr (hc ▸ hsps)
              have hqnR : q ≠ nR := fun hc => hqpsr (hc ▸ hnRmem)
              rw [hag2o q hqs (hlC q hq), mem_write_ne _ hqnR, mem_write_ne _ hqs]
              exact hag1 q (fun hc => hqpsr (hsubCs q hc))
                (fun hc => hqpsr (hsubxr q hc))
            have EX2 : Extr h2o (some nR) (some s) T1 (plugPs (frs :: rests) pssr) := by
              refine ER2.congr fun q hq => ?_
              exact hag2o q (fun hc => hsP1 (hc ▸ hq)) (fun hc => hrC q (hsubPs1 q hq) hc)
            obtain ⟨sp, hpes_sp, hspCs⟩ : ∃ sp, pes = some sp ∧
                sp ∈ ctxPtrs (frs :: rests) := by
              rcases Hs.inv_cons with
                ⟨p9, n9, R9, psr9, pe9, hfr9, hr09, hpe9, hm9, hp9, E9, H9⟩ |
                ⟨p9, n9, L9, psl9, pe9, hfr9, hr09, hpe9, hm9, hp9, E9, H9⟩
              · subst hfr9
                exact ⟨p9, hpe9, by simp [ctxPtrs]⟩
              · subst hfr9
                exact ⟨p9, hpe9, by simp [ctxPtrs]⟩
            have hsl2 : s ∉ psl := fun hc => hlr s hc hsps
            have hlx1 : ∀ q ∈ psl, q ∉ plugPs (frs :: rests) pssr :=
              fun q hq hc => hlr q hq (hsubPs1 q hc)
            have hx1C : ∀ q ∈ plugPs (frs :: rests) pssr, q ∉ ctxPtrs ctx :=
              fun q hq => hrC q (hsubPs1 q hq)
            obtain ⟨hb, ⟨T', ext', hin', hsz', hnx'⟩, hu6⟩ :=
              delFinish (t := t) (c := ns.Color) hmn2 hLp hs2o EL2 EX2 hplug
                ndl nd1 ndC hsl2 hsP1 hsC hnl (Ne.symm hsnode) hlx1 hlC hx1C
                (by
                  cases hxr2 : ns.Right with
                  | none => exact .inl rfl
                  | some xr =>
                    refine .inr ⟨xr, rfl, (mem_plugPs _ _).2 (.inl ?_)⟩
                    simp only [List.mem_append, List.mem_cons]
                    refine .inr (.inr ?_)
                    exact (mem_plugPs _ _).2 (.inl ((hxr2 ▸ ESR).root_mem)))
                (by
                  refine .inr ⟨sp, hpars.trans hpes_sp, (mem_plugPs _ _).2 (.inl ?_)⟩
                  simp only [List.mem_append, List.mem_cons]
                  exact .inr (.inr ((mem_plugPs _ _).2 (.inr hspCs))))
                hrun
            have hctxInLnil : ctxInL (frs :: rests) = [] := by
              have hpp : plugPs (frs :: rests) (s :: pssr) = psr := by
                rw [hRps, hpss0]
                rfl
              have hh2 : (plugPs (frs :: rests) (s :: pssr)).head? = some s := by
                rw [hpp]
                exact hhead
              exact ctxInL_nil_of_ctxPsL (ctxPsL_nil_of_head hh2 hsCs)
            refine ⟨hkeyT, hb, ⟨T', plugPs ctx (psl ++ s :: plugPs (frs :: rests) pssr),
              ctxInL ctx ++ L.inorder,
              ((ns.Key, ns.Value) :: T1.inorder) ++ ctxInR ctx, nu0.Value,
              ext', ?_, ?_, ?_, ?_, hsz', ?_, ?_⟩,
              node, nu0, hmn0, hkey, ?_⟩
            · rw [plugPs_nodup, List.nodup_append]
              refine ⟨?_, ndC, ?_⟩
              · rw [List.nodup_append, List.nodup_cons]
                exact ⟨ndl, ⟨hsP1, nd1⟩, fun a ha hb2 => by
                  rcases List.mem_cons.1 hb2 with hh | hh
                  · exact hsl2 (hh ▸ ha)
                  · exact hlx1 a ha hh⟩
              · intro a ha hb2
                rcases List.mem_append.1 ha with hh | hh
                · exact hlC a hh hb2
                · rcases List.mem_cons.1 hh with hh2 | hh2
                  · exact hsC (hh2 ▸ hb2)
                  · exact hx1C a hh2 hb2
            · intro q hq
              have hnq : t'.heap.next = t.heap.next := by
                rw [hnx', hnext2o]
                show ((h1.write s _).write nR _).next = t.heap.next
                simp only [write_next]
                exact hnext1
              rw [hnq]
              refine bound q ?_
              rw [hps, hps0]
              rcases (mem_plugPs _ _).1 hq with h | h
              · rcases List.mem_append.1 h with h2 | h2
                · exact (mem_plugPs _ _).2 (.inl (by simp [h2]))
                · rcases List.mem_cons.1 h2 with h3 | h3
                  · refine (mem_plugPs _ _).2 (.inl ?_)
                    subst h3
                    simp only [List.mem_append, List.mem_cons]
                    exact .inr (.inr hsps)
                  · refine (mem_plugPs _ _).2 (.inl ?_)
                    simp only [List.mem_append, List.mem_cons]
                    exact .inr (.inr (hsubPs1 q h3))
              · exact (mem_plugPs _ _).2 (.inr h)
            · rw [hT2, plugT_inorder]
              simp only [BT.inorder, hSs]
              rw [plugT_inorder]
              simp [BT.inorder, hctxInLnil, hin1, hkey, List.append_assoc]
            · rw [hin', hin1, hctxInLnil]
              simp [List.append_assoc]
            · rw [hnx', hnext2o]
              show ((h1.write s _).write nR _).next = t.heap.next
              simp only [write_next]
              exact hnext1
            · have hp := (plugPs_perm ctx (psl ++ s ::
                plugPs (frs :: rests) pssr)).length_eq
              have hp1 := (plugPs_perm (frs :: rests) pssr).length_eq
              have hp2 : psr.length = pssr.length + 1 +
                  (ctxPtrs (frs :: rests)).length := by
                have : plugPs (frs :: rests) (s :: pssr) = psr := by
                  rw [hRps, hpss0]
                  rfl
                rw [← this, (plugPs_perm _ _).length_eq]
                simp [List.length_append]
                omega
              rw [hp, hlenps, hp2]
              simp only [List.length_append, List.length_cons, hp1]
              omega
            · intro lp0 nr0 hl hr
              obtain ⟨u, humem, husz, hubl, hured⟩ := hu6
              have hnr0 : nr0 = nR := Option.some.inj (hr.symm.trans hRp)
              refine ⟨s, ns, u, ns.Right, ns.Parent, ?_, hms,
                ⟨_, humem, rfl, rfl, rfl⟩, husz, hubl, ?_⟩
              · rw [hnr0]
                exact hmin
              · intro hred
                refine hured ?_
                intro hb2
                rw [hred] at hb2
                exact absurd hb2 (by decide)

/-- The fueled in-order walk folds the visitor over the extracted in-order
sequence: every node is visited exactly once, left-node-right. -/
theorem inOrder_spec {A : Type} {h : Heap V} (fn : String → V → A → A) :
    ∀ {c par : Option Ptr} {T : BT V} {ps : List Ptr}, Extr h c par T ps →
    ∀ fuel, ps.length < fuel → ∀ acc,
      inOrder h fn c acc fuel =
        .ok (T.inorder.foldl (fun a e => fn e.1 e.2 a) acc) := by
  intro c par T ps E
  induction E with
  | nil par => intro fuel _ acc; simp [inOrder, BT.inorder]
  | node p par n L psl R psr hm hp EL ER ihL ihR =>
    intro fuel hf acc
    cases fuel with
    | zero => simp at hf
    | succ f =>
      have hf2 : psl.length + (psr.length + 1) < f + 1 := by simpa using hf
      rw [inOrder]
      rw [getN_ok hm, ok_bind]
      rw [ihL f (by omega) acc, ok_bind]
      rw [ihR f (by omega)]
      simp [BT.inorder, List.foldl_append]

/-- The upserted pair is in the upserted list. -/
theorem upsert_self_mem {key : String} {v : V} :
    ∀ {l : List (String × V)}, (key, v) ∈ upsert key v l := by
  intro l
  induction l with
  | nil => simp [upsert]
  | cons a rest ih =>
    obtain ⟨k, w⟩ := a
    by_cases h1 : key < k
    · simp only [upsert]
      rw [if_pos h1]
      simp
    · by_cases h2 : k < key
      · simp only [upsert]
        rw [if_neg h1, if_pos h2]
        exact List.mem_cons.2 (.inr ih)
      · simp only [upsert]
        rw [if_neg h1, if_neg h2]
        simp

/-- In a list with sorted keys, a key determines its value. -/
theorem sorted_unique_val {k : String} {a b : V} :
    ∀ {l : List (String × V)}, List.Sorted (· < ·) (l.map Prod.fst) →
      (k, a) ∈ l → (k, b) ∈ l → a = b := by
  intro l
  induction l with
  | nil => intro _ ha; cases ha
  | cons e rest ih =>
    intro hs ha hb
    simp only [List.map_cons, List.sorted_cons] at hs
    rcases List.mem_cons.1 ha with ha | ha <;> rcases List.mem_cons.1 hb with hb | hb
    · exact (Prod.ext_iff.1 (ha.trans hb.symm)).2
    · exfalso
      have := hs.1 k (List.mem_map_of_mem Prod.fst hb)
      rw [← ha] at this
      exact lt_irrefl _ this
    · exfalso
      have := hs.1 k (List.mem_map_of_mem Prod.fst ha)
      rw [← hb] at this
      exact lt_irrefl _ this
    · exact ih hs.2 ha hb

/-- Dropping the middle entry of a sorted-key split keeps sortedness and
removes the key. -/
theorem sorted_drop_mid {k : String} {w : V} {IA IB : List (String × V)}
    (hs : List.Sorted (· < ·) ((IA ++ (k, w) :: IB).map Prod.fst)) :
    List.Sorted (· < ·) ((IA ++ IB).map Prod.fst) ∧
    k ∉ (IA ++ IB).map Prod.fst := by
  simp only [List.map_append, List.map_cons] at hs ⊢
  constructor
  · refine List.Pairwise.sublist ?_ hs
    exact (List.sublist_cons_self k _).append_left _
  · have hspl := sorted_split hs
    intro hc
    rcases List.mem_append.1 hc with hc | hc
    · exact lt_irrefl k (hspl.1 k hc)
    · exact lt_irrefl k (hspl.2 k hc)

/-- Inserting an already-present key only overwrites that node value in
place: same address, same links and color, same root, size and heap layout
elsewhere. -/
theorem Insert_found_frame {t : Tree V} {T : BT V} {ps : List Ptr}
    {key : String} {value : V} {t' : Tree V}
    (ext : Extr t.heap t.root none T ps) (nodup : ps.Nodup)
    (bound : ∀ q ∈ ps, q < t.heap.next)
    (srt : List.Sorted (· < ·) (BT.keys T))
    (hmem : key ∈ BT.keys T)
    (hrun : t.Insert key value = .ok t') :
    ∃ p n, p ∈ ps ∧ t.heap.mem p = some n ∧ n.Key = key ∧
      t' = ⟨t.heap.write p ⟨n.Key, value, n.Color, n.Parent, n.Left, n.Right⟩,
        t.root, t.size⟩ := by
  have hlen := nodup_bound_length nodup bound
  have hfuel : ps.length < t.fuel := by
    show ps.length < t.heap.next + 2
    omega
  rcases insertLoop_spec ext srt key t.fuel hfuel with
    ⟨p, n, hIL, hpps, hmp, hkey⟩ |
    ⟨ctx2, peA, hIL, H2, hT2, hps2, hnk, hbL, hbR, hnil, hcons⟩
  · rw [Tree.Insert] at hrun
    rw [hIL, ok_bind] at hrun
    simp only [] at hrun
    rw [setV_ok hmp value, ok_bind] at hrun
    cases hrun
    exact ⟨p, n, hpps, hmp, hkey, rfl⟩
  · exact absurd hmem hnk

/-- Every stored child pointer of an extracted node points back with its
Parent field. -/
theorem Extr.parent_ok {h : Heap V} :
    ∀ {r par : Option Ptr} {T : BT V} {ps : List Ptr}, Extr h r par T ps →
    ∀ p ∈ ps, ∃ n, h.mem p = some n ∧
      (∀ l, n.Left = some l → ∃ nl, h.mem l = some nl ∧ nl.Parent = some p) ∧
      (∀ rr, n.Right = some rr → ∃ nr, h.mem rr = some nr ∧ nr.Parent = some p) := by
  intro r par T ps E
  induction E with
  | nil par => intro p hp; cases hp
  | node q par n L psl R psr hm hp EL ER ihL ihR =>
    intro p hpm
    rcases List.mem_append.1 hpm with hpm | hpm
    · exact ihL p hpm
    · rcases List.mem_cons.1 hpm with hpm | hpm
      · subst hpm
        refine ⟨n, hm, ?_, ?_⟩
        · intro l hl
          rw [hl] at EL
          obtain ⟨n2, L2, ps2, R2, ps3, hm2, hp2, -, -, -, -⟩ := EL.inv_some
          exact ⟨n2, hm2, hp2⟩
        · intro rr hrr
          rw [hrr] at ER
          obtain ⟨n2, L2, ps2, R2, ps3, hm2, hp2, -, -, -, -⟩ := ER.inv_some
          exact ⟨n2, hm2, hp2⟩
      · exact ihR p hpm

/-- Search for a key known to be stored with value w: it is found and the
node carries exactly w. -/
theorem Search_present {t : Tree V} {T : BT V} {ps : List Ptr}
    {key : String} {w : V}
    (ext : Extr t.heap t.root none T ps) (nodup : ps.Nodup)
    (bound : ∀ q ∈ ps, q < t.heap.next)
    (srt : List.Sorted (· < ·) (BT.keys T))
    (hm : (key, w) ∈ T.inorder) :
    ∃ p n, t.Search key = .ok (some p) ∧ t.heap.mem p = some n ∧
      n.Key = key ∧ n.Value = w := by
  have hlen := nodup_bound_length nodup bound
  have hfuel : ps.length < t.fuel := by
    show ps.length < t.heap.next + 2
    omega
  rcases searchLoop_spec ext srt key t.fuel hfuel with ⟨hnk, -⟩ |
    ⟨p, n, hpps, hmp, hkey, hin, hsr⟩
  · exact absurd (by rw [BT.keys]; exact List.mem_map_of_mem Prod.fst hm) hnk
  · refine ⟨p, n, hsr, hmp, hkey, ?_⟩
    exact sorted_unique_val srt hin hm

/-- Search for an absent key returns none. -/
theorem Search_absent {t : Tree V} {T : BT V} {ps : List Ptr}
    {key : String}
    (ext : Extr t.heap t.root none T ps) (nodup : ps.Nodup)
    (bound : ∀ q ∈ ps, q < t.heap.next)
    (srt : List.Sorted (· < ·) (BT.keys T))
    (hnk : key ∉ BT.keys T) :
    t.Search key = .ok none := by
  have hlen := nodup_bound_length nodup bound
  have hfuel : ps.length < t.fuel := by
    show ps.length < t.heap.next + 2
    omega
  rcases searchLoop_spec ext srt key t.fuel hfuel with ⟨-, hsr⟩ |
    ⟨p, n, hpps, hmp, hkey, hin, hsr⟩
  · exact hsr
  · exact absurd (by rw [BT.keys]; exact hkey ▸ List.mem_map_of_mem Prod.fst hin) hnk

/-- Well-formedness (extraction, distinct addresses, allocation bound,
sorted keys, size agreement) is preserved by every operation sequence. -/
theorem runFrom_WF :
    ∀ (ops : List (Op V)) (t : Tree V) (T : BT V) (ps : List Ptr),
      Extr t.heap t.root none T ps → ps.Nodup →
      (∀ q ∈ ps, q < t.heap.next) → List.Sorted (· < ·) (BT.keys T) →
      t.size = (ps.length : Int) →
      ∀ t', runFrom t ops = .ok t' →
      ∃ T' ps', Extr t'.heap t'.root none T' ps' ∧ ps'.Nodup ∧
        (∀ q ∈ ps', q < t'.heap.next) ∧ List.Sorted (· < ·) (BT.keys T') ∧
        t'.size = (ps'.length : Int) := by
  intro ops
  induction ops with
  | nil =>
    intro t T ps ext nodup bound srt hsz t' hrun
    cases hrun
    exact ⟨T, ps, ext, nodup, bound, srt, hsz⟩
  | cons op ops ih =>
    intro t T ps ext nodup bound srt hsz t' hrun
    rw [runFrom] at hrun
    cases op with
    | ins k v =>
      cases hstep : t.Insert k v with
      | error e =>
        rw [show Tree.applyOp t (Op.ins k v) = t.Insert k v from rfl, hstep,
          error_bind] at hrun
        cases hrun
      | ok t1 =>
        rw [show Tree.applyOp t (Op.ins k v) = t.Insert k v from rfl, hstep,
          ok_bind] at hrun
        obtain ⟨T1, ps1, ext1, nd1, bd1, hup, hcase⟩ :=
          Insert_spec ext nodup bound srt hstep
        have srt1 : List.Sorted (· < ·) (BT.keys T1) := by
          rw [BT.keys, hup]
          exact upsert_sorted srt
        have hsz1 : t1.size = (ps1.length : Int) := by
          rcases hcase with ⟨-, he, hpse, -⟩ | ⟨-, he, hpse, -⟩
          · rw [he, hpse, hsz]
          · rw [he, hpse, hsz]
            push_cast
            ring
        exact ih t1 T1 ps1 ext1 nd1 bd1 srt1 hsz1 t' hrun
    | del k =>
      cases hstep : t.Delete k with
      | error e =>
        have : Tree.applyOp t (Op.del k) = .error e := by
          show (do .ok (← t.Delete k).1 : Except Err (Tree V)) = .error e
          rw [hstep, error_bind]
        rw [this, error_bind] at hrun
        cases hrun
      | ok pr =>
        obtain ⟨t1, b1⟩ := pr
        have hstep2 : Tree.applyOp t (Op.del k) = .ok t1 := by
          show (do .ok (← t.Delete k).1 : Except Err (Tree V)) = .ok t1
          rw [hstep, ok_bind]
        rw [hstep2, ok_bind] at hrun
        rcases Delete_spec ext nodup bound srt hstep with
          ⟨-, he, -⟩ |
          ⟨hkmem, -, ⟨T1, ps1, IA, IB, w, ext1, nd1, bd1, hTio, hT1io, hssz,
            hnxt, hlen1⟩, -⟩
        · subst he
          exact ih _ T ps ext nodup bound srt hsz t' hrun
        · have srt1 : List.Sorted (· < ·) (BT.keys T1) := by
            rw [BT.keys, hT1io]
            exact (sorted_drop_mid (by rw [← hTio]; exact srt)).1
          have hsz1 : t1.size = (ps1.length : Int) := by
            rw [hssz, hsz, ← hlen1]
            push_cast
            ring
          exact ih t1 T1 ps1 ext1 nd1 bd1 srt1 hsz1 t' hrun

/-- Well-formedness of every tree reachable from the empty tree. -/
theorem run_WF {ops : List (Op V)} {t : Tree V} (hrun : run V ops = .ok t) :
    ∃ T ps, Extr t.heap t.root none T ps ∧ ps.Nodup ∧
      (∀ q ∈ ps, q < t.heap.next) ∧ List.Sorted (· < ·) (BT.keys T) ∧
      t.size = (ps.length : Int) := by
  refine runFrom_WF ops (New V) .nil [] (.nil none) List.nodup_nil ?_ ?_ rfl t hrun
  · intro q hq
    cases hq
  · simp [BT.keys, BT.inorder]

theorem sampleTree_ext :
    Extr sampleTree.heap sampleTree.root none sampleBT [1, 0, 2] :=
  extractF_sound 4 (some 0) none sampleBT [1, 0, 2] rfl

/-- C2: inserting then searching returns the inserted value; deleting then
searching reports absence. -/
theorem claim2_roundtrip {V : Type} {t t1 t2 : Tree V} {b2 : Bool}
    {T : BT V} {ps : List Ptr} {key : String} {value : V}
    (ext : Extr t.heap t.root none T ps) (nodup : ps.Nodup)
    (bound : ∀ q ∈ ps, q < t.heap.next)
    (srt : List.Sorted (· < ·) (BT.keys T))
    (hIns : t.Insert key value = .ok t1)
    (hDel : t.Delete key = .ok (t2, b2)) :
    (∃ p n, t1.Search key = .ok (some p) ∧ t1.heap.mem p = some n ∧
      n.Value = value) ∧
    t2.Search key = .ok none := by
  constructor
  · obtain ⟨T1, ps1, ext1, nd1, bd1, hup, -⟩ := Insert_spec ext nodup bound srt hIns
    have srt1 : List.Sorted (· < ·) (BT.keys T1) := by
      rw [BT.keys, hup]
      exact upsert_sorted srt
    have hmem1 : (key, value) ∈ T1.inorder := by
      rw [hup]
      exact upsert_self_mem
    obtain ⟨p, n, hs, hm, hk, hv⟩ := Search_present ext1 nd1 bd1 srt1 hmem1
    exact ⟨p, n, hs, hm, hv⟩
  · rcases Delete_spec ext nodup bound srt hDel with ⟨hnk, he, -⟩ |
      ⟨-, -, ⟨T2, ps2, IA, IB, w, ext2, nd2, bd2, hTio, hT2io, -, -, -⟩, -⟩
    · subst he
      exact Search_absent ext nodup bound srt hnk
    · have hsrtT : List.Sorted (· < ·) ((IA ++ (key, w) :: IB).map Prod.fst) := by
        rw [← hTio]
        exact srt
      have hdm := sorted_drop_mid hsrtT
      have srt2 : List.Sorted (· < ·) (BT.keys T2) := by
        rw [BT.keys, hT2io]
        exact hdm.1
      have hnk2 : key ∉ BT.keys T2 := by
        rw [BT.keys, hT2io]
        exact hdm.2
      exact Search_absent ext2 nd2 bd2 srt2 hnk2

theorem claim2_witness :
    (∃ p n, w2t1.Search "a" = .ok (some p) ∧ w2t1.heap.mem p = some n ∧
      n.Value = 7) ∧
    (New Nat).Search "a" = .ok none :=
  claim2_roundtrip (t := New Nat) (T := .nil) (.nil none) List.nodup_nil
    (fun q hq => absurd hq (List.not_mem_nil q)) List.sorted_nil rfl rfl

/-- C3 counterexample: insert a, delete a, insert a again. One distinct key
was ever inserted and one delete succeeded, yet the size is 1, not 0. -/
theorem claim3_counterexample :
    run Nat c3ops = .ok c3t ∧
    specDistinctKeysEverInserted c3ops = 1 ∧
    countSuccessfulDeletes (New Nat) c3ops = .ok 1 ∧
    ¬ c3t.Size = (specDistinctKeysEverInserted c3ops : Int) - 1 :=
  ⟨rfl, rfl, rfl, by decide⟩

/-- C3 amended: the size equals the number of keys currently stored, and a
delete returns true exactly when the key is present, decrementing the size
by one exactly in that case. -/
theorem claim3_size_amended {V : Type} {ops : List (Op V)} {t : Tree V}
    (hrun : run V ops = .ok t) :
    ∃ T ps, Extr t.heap t.root none T ps ∧
      t.Size = (T.inorder.length : Int) ∧
      ∀ key t2 b2, t.Delete key = .ok (t2, b2) →
        (b2 = true ↔ key ∈ BT.keys T) ∧
        (b2 = true → t2.size = t.size - 1) ∧
        (b2 = false → t2 = t) := by
  obtain ⟨T, ps, ext, nd, bd, srt, hsz⟩ := run_WF hrun
  refine ⟨T, ps, ext, ?_, ?_⟩
  · show t.size = (T.inorder.length : Int)
    rw [ext.length_eq]
    exact hsz
  · intro key t2 b2 hdel
    rcases Delete_spec ext nd bd srt hdel with ⟨hnk, he, hb⟩ |
      ⟨hkm, hb, ⟨T2, ps2, IA, IB, w, ext2, nd2, bd2, hTio, hT2io, hsz2, -, -⟩, -⟩
    · refine ⟨⟨fun hbt => ?_, fun hk => absurd hk hnk⟩, fun hbt => ?_, fun _ => he⟩
      · rw [hb] at hbt
        cases hbt
      · rw [hb] at hbt
        cases hbt
    · refine ⟨⟨fun _ => hkm, fun _ => hb⟩, fun _ => hsz2, fun hbf => ?_⟩
      rw [hb] at hbf
      cases hbf

theorem claim3_witness :
    ∃ T ps, Extr w3t.heap w3t.root none T ps ∧
      w3t.Size = (T.inorder.length : Int) ∧
      ∀ key t2 b2, w3t.Delete key = .ok (t2, b2) →
        (b2 = true ↔ key ∈ BT.keys T) ∧
        (b2 = true → t2.size = w3t.size - 1) ∧
        (b2 = false → t2 = w3t) :=
  claim3_size_amended (rfl : run Nat [Op.ins "a" (5 : Nat)] = .ok w3t)

/-- C4: inserting an already-present key overwrites only that node value
in place: same address list position, same links and color, same root and
size, no allocation, and no other cell of the heap changes. -/
theorem claim4_duplicate_insert {V : Type} {t t' : Tree V} {T : BT V}
    {ps : List Ptr} {key : String} {value : V}
    (ext : Extr t.heap t.root none T ps) (nodup : ps.Nodup)
    (bound : ∀ q ∈ ps, q < t.heap.next)
    (srt : List.Sorted (· < ·) (BT.keys T))
    (hmem : key ∈ BT.keys T)
    (hrun : t.Insert key value = .ok t') :
    t'.root = t.root ∧ t'.size = t.size ∧ t'.heap.next = t.heap.next ∧
    ∃ p n, p ∈ ps ∧ t.heap.mem p = some n ∧ n.Key = key ∧
      t'.heap.mem p = some ⟨n.Key, value, n.Color, n.Parent, n.Left, n.Right⟩ ∧
      ∀ q, q ≠ p → t'.heap.mem q = t.heap.mem q := by
  obtain ⟨p, n, hpps, hm, hk, he⟩ :=
    Insert_found_frame ext nodup bound srt hmem hrun
  subst he
  refine ⟨rfl, rfl, rfl, p, n, hpps, hm, hk, ?_, ?_⟩
  · show (t.heap.write p _).mem p = _
    rw [write_mem, if_pos rfl]
  · intro q hq
    exact mem_write_ne _ hq _

theorem claim4_witness :
    w4t.root = sampleTree.root ∧ w4t.size = sampleTree.size ∧
    w4t.heap.next = sampleTree.heap.next ∧
    ∃ p n, p ∈ [1, 0, 2] ∧ sampleTree.heap.mem p = some n ∧ n.Key = "b" ∧
      w4t.heap.mem p = some ⟨n.Key, 99, n.Color, n.Parent, n.Left, n.Right⟩ ∧
      ∀ q, q ≠ p → w4t.heap.mem q = sampleTree.heap.mem q :=
  claim4_duplicate_insert sampleTree_ext (by decide) (by decide) (by decide)
    (by decide : ("b" : String) ∈ BT.keys sampleBT) rfl

/-- C5: deleting an absent key returns false and leaves the tree
unchanged. -/
theorem claim5_absent_delete {V : Type} {t t2 : Tree V} {b2 : Bool}
    {T : BT V} {ps : List Ptr} {key : String}
    (ext : Extr t.heap t.root none T ps) (nodup : ps.Nodup)
    (bound : ∀ q ∈ ps, q < t.heap.next)
    (srt : List.Sorted (· < ·) (BT.keys T))
    (habs : key ∉ BT.keys T)
    (hrun : t.Delete key = .ok (t2, b2)) :
    t2 = t ∧ b2 = false := by
  rcases Delete_spec ext nodup bound srt hrun with ⟨-, he, hb⟩ | ⟨hkm, -, -, -⟩
  · exact ⟨he, hb⟩
  · exact absurd hkm habs

theorem claim5_witness : sampleTree = sampleTree ∧ false = false :=
  claim5_absent_delete sampleTree_ext (by decide) (by decide) (by decide)
    (by decide : ("x" : String) ∉ BT.keys sampleBT)
    (rfl : sampleTree.Delete "x" = .ok (sampleTree, false))

/-- C6: deleting a key whose node has two children records the in-order
successor's original color for the fixup decision, gives the successor the
deleted node's color, and runs deleteFixup exactly when that recorded
color is black. -/
theorem claim6_two_child_delete {V : Type} {t t' : Tree V} {b : Bool}
    {T : BT V} {ps : List Ptr} {key : String}
    (ext : Extr t.heap t.root none T ps) (nodup : ps.Nodup)
    (bound : ∀ q ∈ ps, q < t.heap.next)
    (srt : List.Sorted (· < ·) (BT.keys T))
    (hrun : t.Delete key = .ok (t', b)) (hkeyin : key ∈ BT.keys T) :
    ∃ nd nu1, t.heap.mem nd = some nu1 ∧ nu1.Key = key ∧
      ∀ lp0 nr0, nu1.Left = some lp0 → nu1.Right = some nr0 →
        ∃ (s1 : Ptr) (ns1 : Node V) (u : Tree V) (x rp : Option Ptr),
          minimumLoop t.heap nr0 t.fuel = .ok s1 ∧
          t.heap.mem s1 = some ns1 ∧
          (∃ nspre, u.heap.mem s1 = some nspre ∧ nspre.Color = nu1.Color ∧
            nspre.Key = ns1.Key ∧ nspre.Value = ns1.Value) ∧
          u.size = t.size ∧
          (ns1.Color = black → ∃ tfx, u.deleteFixup x rp = .ok tfx ∧
            t' = ⟨tfx.heap, tfx.root, tfx.size - 1⟩) ∧
          (ns1.Color = red → t' = ⟨u.heap, u.root, u.size - 1⟩) := by
  rcases Delete_spec ext nodup bound srt hrun with ⟨hnk, -, -⟩ | ⟨-, -, -, hc6⟩
  · exact absurd hkeyin hnk
  · exact hc6

theorem claim6_witness :
    ∃ nd nu1, sampleTree.heap.mem nd = some nu1 ∧ nu1.Key = "b" ∧
      ∀ lp0 nr0, nu1.Left = some lp0 → nu1.Right = some nr0 →
        ∃ (s1 : Ptr) (ns1 : Node Nat) (u : Tree Nat) (x rp : Option Ptr),
          minimumLoop sampleTree.heap nr0 sampleTree.fuel = .ok s1 ∧
          sampleTree.heap.mem s1 = some ns1 ∧
          (∃ nspre, u.heap.mem s1 = some nspre ∧ nspre.Color = nu1.Color ∧
            nspre.Key = ns1.Key ∧ nspre.Value = ns1.Value) ∧
          u.size = sampleTree.size ∧
          (ns1.Color = black → ∃ tfx, u.deleteFixup x rp = .ok tfx ∧
            w6r.1 = ⟨tfx.heap, tfx.root, tfx.size - 1⟩) ∧
          (ns1.Color = red → w6r.1 = ⟨u.heap, u.root, u.size - 1⟩) :=
  claim6_two_child_delete sampleTree_ext (by decide) (by decide) (by decide)
    rfl (by decide : ("b" : String) ∈ BT.keys sampleBT)

/-- C7: the in-order walk applies the visitor once per stored pair, left
subtree first, then the node, then the right subtree, and the visited key
sequence is strictly increasing. -/
theorem claim7_inorder_traversal {V A : Type} {t : Tree V} {T : BT V}
    {ps : List Ptr} (fn : String → V → A → A) (a : A)
    (ext : Extr t.heap t.root none T ps) (nodup : ps.Nodup)
    (bound : ∀ q ∈ ps, q < t.heap.next)
    (srt : List.Sorted (· < ·) (BT.keys T)) :
    t.InOrder fn a = .ok (T.inorder.foldl (fun acc e => fn e.1 e.2 acc) a) ∧
    List.Sorted (· < ·) (T.inorder.map Prod.fst) := by
  have hlen := nodup_bound_length nodup bound
  have hfuel : ps.length < t.fuel := by
    show ps.length < t.heap.next + 2
    omega
  exact ⟨inOrder_spec fn ext t.fuel hfuel a, srt⟩

theorem claim7_witness :
    sampleTree.InOrder (fun k v acc => acc ++ [(k, v)]) [] =
      .ok (sampleBT.inorder.foldl (fun acc e => acc ++ [(e.1, e.2)]) []) ∧
    List.Sorted (· < ·) (sampleBT.inorder.map Prod.fst) :=
  claim7_inorder_traversal (fun k v acc => acc ++ [(k, v)]) []
    sampleTree_ext (by decide) (by decide) (by decide)

/-- C9: both rotations keep the in-order sequence, hence the in-order key
sequence, of the whole tree. -/
theorem claim9_rotations_preserve_inorder {V : Type} {t : Tree V} {T : BT V}
    {ps : List Ptr} {p : Ptr} {n : Node V}
    (ext : Extr t.heap t.root none T ps) (nodup : ps.Nodup)
    (hp : p ∈ ps) (hm : t.heap.mem p = some n) :
    (∀ r, n.Right = some r → ∃ t1 T1, t.rotateLeft p = .ok t1 ∧
      Extr t1.heap t1.root none T1 ps ∧ T1.inorder = T.inorder ∧
      BT.keys T1 = BT.keys T) ∧
    (∀ l, n.Left = some l → ∃ t1 T1, t.rotateRight p = .ok t1 ∧
      Extr t1.heap t1.root none T1 ps ∧ T1.inorder = T.inorder ∧
      BT.keys T1 = BT.keys T) := by
  constructor
  · intro r hr
    obtain ⟨t1, T1, hrot, ext1, hio, -, -⟩ :=
      rotateLeft_good ext nodup hp hm hr
    exact ⟨t1, T1, hrot, ext1, hio, by rw [BT.keys, BT.keys, hio]⟩
  · intro l hl
    obtain ⟨t1, T1, hrot, ext1, hio, -, -⟩ :=
      rotateRight_good ext nodup hp hm hl
    exact ⟨t1, T1, hrot, ext1, hio, by rw [BT.keys, BT.keys, hio]⟩

theorem claim9_witness :
    (∀ r, (some 2 : Option Ptr) = some r → ∃ t1 T1,
      sampleTree.rotateLeft 0 = .ok t1 ∧
      Extr t1.heap t1.root none T1 [1, 0, 2] ∧ T1.inorder = sampleBT.inorder ∧
      BT.keys T1 = BT.keys sampleBT) ∧
    (∀ l, (some 1 : Option Ptr) = some l → ∃ t1 T1,
      sampleTree.rotateRight 0 = .ok t1 ∧
      Extr t1.heap t1.root none T1 [1, 0, 2] ∧ T1.inorder = sampleBT.inorder ∧
      BT.keys T1 = BT.keys sampleBT) :=
  claim9_rotations_preserve_inorder sampleTree_ext (by decide) (by decide)
    (rfl : sampleTree.heap.mem 0 =
      some ⟨"b", 10, black, none, some 1, some 2⟩)

/-- C10: every tree reachable from the empty tree by Insert/Delete has
consistent parent links: the root's Parent is nil and every stored child
pointer points back to its node. -/
theorem claim10_parent_link_consistency {V : Type} {ops : List (Op V)}
    {t : Tree V} (hrun : run V ops = .ok t) :
    ∃ T ps, Extr t.heap t.root none T ps ∧
      (∀ r, t.root = some r → ∃ n, t.heap.mem r = some n ∧ n.Parent = none) ∧
      ∀ p ∈ ps, ∃ n, t.heap.mem p = some n ∧
        (∀ l, n.Left = some l → ∃ nl, t.heap.mem l = some nl ∧
          nl.Parent = some p) ∧
        (∀ rr, n.Right = some rr → ∃ nr, t.heap.mem rr = some nr ∧
          nr.Parent = some p) := by
  obtain ⟨T, ps, ext, -, -, -, -⟩ := run_WF hrun
  refine ⟨T, ps, ext, ?_, Extr.parent_ok ext⟩
  intro r hr
  rw [hr] at ext
  obtain ⟨n, L, psl, R, psr, hm, hp, -, -, -, -⟩ := ext.inv_some
  exact ⟨n, hm, hp⟩

theorem claim10_witness :
    ∃ T ps, Extr w10t.heap w10t.root none T ps ∧
      (∀ r, w10t.root = some r → ∃ n, w10t.heap.mem r = some n ∧
        n.Parent = none) ∧
      ∀ p ∈ ps, ∃ n, w10t.heap.mem p = some n ∧
        (∀ l, n.Left = some l → ∃ nl, w10t.heap.mem l = some nl ∧
          nl.Parent = some p) ∧
        (∀ rr, n.Right = some rr → ∃ nr, w10t.heap.mem rr = some nr ∧
          nr.Parent = some p) :=
  claim10_parent_link_consistency
    (rfl : run Nat [Op.ins "a" 5, Op.ins "b" 6, Op.del "a"] = .ok w10t)

end RB
